import Mathlib

/-!
Verification of the pynini repository specification.

The visible repository slice is the packaging script `setup.py`; the native
FST engine it packages (composition, optimization, rewrite rules, string
compilation, path extraction) is referenced there only as a list of
extension sources.  Accordingly this development has two parts:

* `Pynini.SetupPy` — a direct shallow embedding of the Python code in
  `setup.py` (`get_version`, the `--enable-static-openfst` flag handling),
  with Python strings modelled as `List Char`, files as lists of lines,
  `str.split` and `list.remove` modelled operation by operation.

* `Pynini` — a model, built from the specification text, of the weighted
  finite-state transducer engine: automata over the tropical semiring
  (weights in `ℤ`, sequence = `+` with identity `0`, collection = `min`),
  string compilation, composition with the three-state epsilon filter,
  lenient composition, weight pushing, epsilon removal, rewrite-rule
  transducers, and shortest-path extraction.
-/

namespace Pynini

namespace SetupPy

/-- Modelled from the source (`setup.py`): Python `str.split(delim)` for a
single-character delimiter, over strings as `List Char`.  Splitting on a
delimiter occurring `n` times yields `n + 1` (possibly empty) pieces. -/
def pySplit (delim : Char) : List Char → List (List Char)
  | [] => [[]]
  | c :: cs =>
    if c = delim then [] :: pySplit delim cs
    else
      match pySplit delim cs with
      | [] => [[c]]
      | p :: ps => (c :: p) :: ps

/-- Errors a Python function can raise in the modelled fragment. -/
inductive PyErr
  | runtimeError
  | indexError
deriving DecidableEq

/-- The literal `__version__` scanned for by `get_version`. -/
def versionMarker : List Char := "__version__".toList

/-- The delimiter chosen by `get_version` for a matching line: a double
quote if the line contains one, otherwise a single quote. -/
def delimOf (line : List Char) : Char :=
  if '"' ∈ line then '"' else '\''

/-- Modelled from the source (`setup.py`, `get_version`): scan the lines of
a file; on the first line starting with `__version__`, split on the chosen
quote delimiter and return piece 1 (raising `IndexError` when the split has
fewer than two pieces); raise `RuntimeError` when no line matches. -/
def get_version : List (List Char) → Except PyErr (List Char)
  | [] => .error .runtimeError
  | line :: rest =>
    if versionMarker.isPrefixOf line then
      match (pySplit (delimOf line) line)[1]? with
      | some v => .ok v
      | none => .error .indexError
    else get_version rest

/-- The command-line flag handled at module initialization of `setup.py`. -/
def staticFlag : List Char := "--enable-static-openfst".toList

/-- Modelled from the source (`setup.py`): Python `list.remove`, removing
the first occurrence of an element. -/
def pyRemove (x : List Char) : List (List Char) → List (List Char)
  | [] => []
  | a :: as => if a = x then as else a :: pyRemove x as

/-- Modelled from the source (`setup.py`):
`ENABLE_STATIC_OPENFST = "--enable-static-openfst" in sys.argv`. -/
def ENABLE_STATIC_OPENFST (argv : List (List Char)) : Bool :=
  decide (staticFlag ∈ argv)

/-- Modelled from the source (`setup.py`): the value of `sys.argv` after
module initialization — the first occurrence of the flag is removed when
present, otherwise `sys.argv` is left unchanged. -/
def argvAfterInit (argv : List (List Char)) : List (List Char) :=
  if ENABLE_STATIC_OPENFST argv then pyRemove staticFlag argv else argv

end SetupPy

/-! ## The automaton data model (spec §3)

Modelled from the spec: an arc carries an input label, an output label, a
weight and a destination state id; labels are naturals with `0` reserved
for epsilon; a state has an optional final weight and a list of outgoing
arcs; an automaton is a start state id (`none` = the empty automaton) and
an arena of states addressed by dense ids.  Weights are tropical: values
in `ℤ`, sequencing `⊗` is `+` with multiplicative identity `0`, collection
`⊕` is `min`. -/

structure Arc where
  il : Nat
  ol : Nat
  wt : Int
  dst : Nat
deriving DecidableEq, Repr

structure AState where
  fin : Option Int
  arcs : List Arc
deriving DecidableEq, Repr

structure Automaton where
  start : Option Nat
  states : List AState
deriving DecidableEq, Repr

/-- Outgoing arcs of state `q` (no arcs outside the arena). -/
def arcsOf (M : Automaton) (q : Nat) : List Arc :=
  (M.states[q]?.map AState.arcs).getD []

/-- Final weight of state `q` (`none` = not final, or outside the arena). -/
def finalOf (M : Automaton) (q : Nat) : Option Int :=
  (M.states[q]?.map AState.fin).getD none

/-- Modelled from the spec (§3 invariant): every arc destination and the
start state are valid ids in the arena. -/
def WF (M : Automaton) : Prop :=
  (∀ st ∈ M.states, ∀ a ∈ st.arcs, a.dst < M.states.length) ∧
    (∀ s ∈ M.start.toList, s < M.states.length)

/-- Paths: `PathFrom M q as r` says the arc list `as` is a walk in `M`
from state `q` to state `r`. -/
inductive PathFrom (M : Automaton) : Nat → List Arc → Nat → Prop
  | nil (q : Nat) : PathFrom M q [] q
  | cons {a : Arc} {as : List Arc} {q r : Nat} :
      a ∈ arcsOf M q → PathFrom M a.dst as r → PathFrom M q (a :: as) r

/-- Input labels of a path. -/
def ils (as : List Arc) : List Nat := as.map Arc.il

/-- Output labels of a path. -/
def ols (as : List Arc) : List Nat := as.map Arc.ol

/-- Erase epsilons from a label sequence. -/
def strip (ls : List Nat) : List Nat := ls.filter (fun l => l ≠ 0)

/-- Tropical sequencing of the arc weights of a path. -/
def pathWt (as : List Arc) : Int := (as.map Arc.wt).sum

/-- Modelled from the spec: the automaton accepts the (input, output,
weight) triple — some successful path from the start state to a final
state has these epsilon-stripped labels, and its `⊗`-weight (arc weights
plus final weight) is `w`.  Spec §8 uses exactly this set of accepted
triples as the observable behaviour of an automaton. -/
def AcceptsTriple (M : Automaton) (x y : List Nat) (w : Int) : Prop :=
  ∃ s as q ρ, M.start = some s ∧ PathFrom M s as q ∧ finalOf M q = some ρ ∧
    strip (ils as) = x ∧ strip (ols as) = y ∧ pathWt as + ρ = w

/-- The automaton accepts the (input, output) string pair with some weight. -/
def AcceptsPair (M : Automaton) (x y : List Nat) : Prop :=
  ∃ w, AcceptsTriple M x y w

/-- The automaton has at least one successful (accepting) path. -/
def HasSuccPath (M : Automaton) : Prop :=
  ∃ x y w, AcceptsTriple M x y w

/-- Tropical total weight of a string pair: `w` is the `⊕`-aggregate
(minimum) of the weights of all successful paths labelled `(x, y)`,
attained by one of them. -/
def IsWeightOf (M : Automaton) (x y : List Nat) (w : Int) : Prop :=
  AcceptsTriple M x y w ∧ ∀ w', AcceptsTriple M x y w' → w ≤ w'

/-! ## Path enumeration and reachability -/

/-- All walks of length at most `fuel` out of state `q`, paired with their
endpoints. -/
def pathsFrom (M : Automaton) : Nat → Nat → List (List Arc × Nat)
  | 0, q => [([], q)]
  | fuel + 1, q =>
    ([], q) ::
      (arcsOf M q).flatMap (fun a =>
        (pathsFrom M fuel a.dst).map (fun pe => (a :: pe.1, pe.2)))

/-- Accepted (input, output, weight) triples realized by successful paths
of length at most `fuel`. -/
def triplesUpTo (M : Automaton) (fuel : Nat) : List (List Nat × List Nat × Int) :=
  match M.start with
  | none => []
  | some s =>
    (pathsFrom M fuel s).filterMap (fun pe =>
      (finalOf M pe.2).map (fun ρ => (strip (ils pe.1), strip (ols pe.1), pathWt pe.1 + ρ)))

/-- One round of reachability expansion: add the destinations of all arcs
leaving already-seen states, without duplicates. -/
def stepReach (M : Automaton) (seen : List Nat) : List Nat :=
  (seen.flatMap (fun q => (arcsOf M q).map Arc.dst)).foldl
    (fun acc d => if d ∈ acc then acc else acc ++ [d]) seen

/-- Iterated reachability expansion. -/
def reachN (M : Automaton) : Nat → List Nat → List Nat
  | 0, seen => seen
  | n + 1, seen => reachN M n (stepReach M seen)

/-- Destinations of all arcs of the automaton. -/
def allDsts (M : Automaton) : List Nat :=
  M.states.flatMap (fun st => st.arcs.map Arc.dst)

/-- States reachable from `s`: enough expansion rounds to saturate. -/
def reachableFrom (M : Automaton) (s : Nat) : List Nat :=
  reachN M ((allDsts M).length + 1) [s]

/-- Modelled from the spec: decide whether the automaton has at least one
successful path (a path from the start state to a final state). -/
def hasAcceptingPath (M : Automaton) : Bool :=
  match M.start with
  | none => false
  | some s => (reachableFrom M s).any (fun q => (finalOf M q).isSome)

/-! ## Composition (spec §4.4)

Modelled from the spec: composition walks compatible state pairs matching
A's output label against B's input label; epsilon match ambiguity is
resolved by a three-state filter (0 = no epsilons pending, 1 = A-epsilon
pending, 2 = B-epsilon pending) so that every true match is enumerated.
States of the result are the triples `(p, q, f)` encoded densely. -/

/-- Dense encoding of a composition state `(p, q, f)`, `f < 3`. -/
def encSt (nB p q f : Nat) : Nat := (p * nB + q) * 3 + f

/-- Arcs of the composition out of state `(p, q, f)`: paired moves (a real
match, or a synchronized epsilon-epsilon move allowed only with no epsilon
pending), A-alone epsilon-output moves (filter 0 or 1), and B-alone
epsilon-input moves (filter 0 or 2). -/
def composeArcsAt (A B : Automaton) (p q f : Nat) : List Arc :=
  ((arcsOf A p).flatMap (fun a =>
    (arcsOf B q).filterMap (fun b =>
      if (a.ol = b.il ∧ a.ol ≠ 0) ∨ (a.ol = 0 ∧ b.il = 0 ∧ f = 0) then
        some ⟨a.il, b.ol, a.wt + b.wt, encSt B.states.length a.dst b.dst 0⟩
      else none))) ++
  ((if f = 0 ∨ f = 1 then
      (arcsOf A p).filterMap (fun a =>
        if a.ol = 0 then some ⟨a.il, 0, a.wt, encSt B.states.length a.dst q 1⟩ else none)
    else []) ++
   (if f = 0 ∨ f = 2 then
      (arcsOf B q).filterMap (fun b =>
        if b.il = 0 then some ⟨0, b.ol, b.wt, encSt B.states.length p b.dst 2⟩ else none)
    else []))

/-- The walk starts with an arc whose output label is epsilon (an A-side
epsilon move is pending in composition). -/
def headOlEps : List Arc → Prop
  | [] => False
  | a :: _ => a.ol = 0

/-- The walk starts with an arc whose input label is epsilon (a B-side
epsilon move is pending in composition). -/
def headIlEps : List Arc → Prop
  | [] => False
  | b :: _ => b.il = 0

/-- Final weight of a composition state: final when both components are,
with the weights sequenced. -/
def composeFin (A B : Automaton) (p q : Nat) : Option Int :=
  match finalOf A p, finalOf B q with
  | some u, some v => some (u + v)
  | _, _ => none

/-- Modelled from the spec: relational composition of transducers with the
epsilon-disambiguation filter.  Composition with or of the empty automaton
is empty. -/
def compose (A B : Automaton) : Automaton :=
  match A.start, B.start with
  | some sa, some sb =>
    ⟨some (encSt B.states.length sa sb 0),
      (List.range (A.states.length * B.states.length * 3)).map (fun i =>
        ⟨composeFin A B (i / 3 / B.states.length) (i / 3 % B.states.length),
          composeArcsAt A B (i / 3 / B.states.length) (i / 3 % B.states.length) (i % 3)⟩)⟩
  | _, _ => ⟨none, []⟩

/-- Modelled from the spec: lenient composition — the strict composition
when it has at least one successful path, and `A` unchanged otherwise. -/
def lenient_compose (A B : Automaton) : Automaton :=
  if hasAcceptingPath (compose A B) then compose A B else A

/-! ## String compilation, shortest path, printing (spec §4.1, §4.6) -/

/-- Modelled from the spec: a token model maps characters to nonzero
integer labels (`0` is reserved for epsilon) and decodes labels back. -/
structure TokenModel where
  enc : Char → Nat
  dec : Nat → Option Char
  enc_pos : ∀ c, enc c ≠ 0
  dec_enc : ∀ c, dec (enc c) = some c

/-- States of the linear-chain acceptor: one state per position, one arc
per token with weight the multiplicative identity, final weight the
multiplicative identity on the last state. -/
def chainStates : List Nat → Nat → List AState
  | [], _ => [⟨some 0, []⟩]
  | l :: ls, i => ⟨none, [⟨l, l, 0, i + 1⟩]⟩ :: chainStates ls (i + 1)

/-- The arcs of the unique successful path of the chain acceptor. -/
def chainArcs : List Nat → Nat → List Arc
  | [], _ => []
  | l :: ls, i => ⟨l, l, 0, i + 1⟩ :: chainArcs ls (i + 1)

/-- Linear-chain acceptor over a label sequence. -/
def chainAcceptor (ls : List Nat) : Automaton := ⟨some 0, chainStates ls 0⟩

/-- Modelled from the spec: compile a literal string into a linear-chain
acceptor under the token model, one arc per character, in order. -/
def compile_string (T : TokenModel) (s : List Char) : Automaton :=
  chainAcceptor (s.map T.enc)

/-- Strict lexicographic order on label sequences, as a Bool. -/
def lexLtB : List Nat → List Nat → Bool
  | [], [] => false
  | [], _ :: _ => true
  | _ :: _, [] => false
  | a :: as, b :: bs => if a < b then true else if b < a then false else lexLtB as bs

/-- Comparison of successful runs: lower weight first, ties broken by
lexicographically smaller output label sequence. -/
def betterRun (p q : List Arc × Int) : Bool :=
  if p.2 < q.2 then true
  else if q.2 < p.2 then false
  else lexLtB (strip (ols p.1)) (strip (ols q.1))

/-- Successful runs (path plus total weight) of length at most `fuel`. -/
def acceptingRuns (M : Automaton) (fuel : Nat) : List (List Arc × Int) :=
  match M.start with
  | none => []
  | some s =>
    (pathsFrom M fuel s).filterMap (fun pe =>
      (finalOf M pe.2).map (fun ρ => (pe.1, pathWt pe.1 + ρ)))

/-- Modelled from the spec: the first shortest path — the lowest-weight
successful path, ties broken by lexicographically smallest output label
sequence. -/
def shortest_path (M : Automaton) : Option (List Arc) :=
  match acceptingRuns M M.states.length with
  | [] => none
  | r :: rs => some ((rs.foldl (fun best r2 => if betterRun r2 best then r2 else best) r).1)

/-- The walks of the chain acceptor out of position `j`: every prefix of
the remaining run, cut off at `fuel` (used to evaluate the path
enumeration on chain acceptors). -/
def prefixRuns : List Nat → Nat → Nat → List (List Arc × Nat)
  | _, j, 0 => [([], j)]
  | [], j, _ + 1 => [([], j)]
  | l :: ls, j, fuel + 1 =>
    ([], j) :: (prefixRuns ls (j + 1) fuel).map (fun pe => (⟨l, l, 0, j + 1⟩ :: pe.1, pe.2))

/-- Decoding failure: a label with no symbol mapping. -/
inductive DecodeError
  | undefinedLabel
deriving DecidableEq

/-- Decode a label sequence under a token model. -/
def decodeLabels (T : TokenModel) : List Nat → Except DecodeError (List Char)
  | [] => .ok []
  | l :: ls =>
    match T.dec l with
    | none => .error .undefinedLabel
    | some ch => (decodeLabels T ls).map (fun cs => ch :: cs)

/-- Modelled from the spec: render a path's output labels back into a
string under the token model, skipping epsilons. -/
def print_path (T : TokenModel) (as : List Arc) : Except DecodeError (List Char) :=
  decodeLabels T (strip (ols as))

/-- A concrete token model: the symbol-table model indexing character `c`
by `c.toNat + 1` (index `0` is reserved for epsilon). -/
def symbolTableModel : TokenModel where
  enc c := c.toNat + 1
  dec n := match n with | 0 => none | m + 1 => some (Char.ofNat m)
  enc_pos _ := Nat.succ_ne_zero _
  dec_enc c := congrArg some (Char.ofNat_toNat c)

/-! ## Weight pushing (spec §4.5) -/

/-- Push direction: toward the initial state or toward the final states. -/
inductive PushDir
  | toInitial
  | toFinal
deriving DecidableEq

/-- Iterate a function `n` times. -/
def iterN {α : Type} (f : α → α) : Nat → α → α
  | 0, x => x
  | n + 1, x => iterN f n (f x)

/-- One relaxation round of shortest distances toward the final states. -/
def relaxFinal (M : Automaton) (d : List Int) : List Int :=
  (List.range M.states.length).map (fun p =>
    (arcsOf M p).foldl (fun acc a => min acc (a.wt + (d[a.dst]?.getD 0))) ((d[p]?).getD 0))

/-- One relaxation round of shortest distances from the initial state. -/
def relaxInitial (M : Automaton) (d : List Int) : List Int :=
  (List.range M.states.length).map (fun q =>
    ((List.range M.states.length).flatMap (fun p =>
      (arcsOf M p).filterMap (fun a =>
        if a.dst = q then some ((d[p]?.getD 0) + a.wt) else none))).foldl min
      ((d[q]?).getD 0))

/-- Modelled from the spec: the reweighting potential for a push
direction, computed by iterated relaxation of shortest distances (toward
the final states, or from the initial state). -/
def potentialRaw (dir : PushDir) (M : Automaton) : List Int :=
  match dir with
  | .toFinal =>
    iterN (relaxFinal M) M.states.length
      ((List.range M.states.length).map (fun q => (finalOf M q).getD 0))
  | .toInitial =>
    iterN (relaxInitial M) M.states.length (List.replicate M.states.length 0)

/-- Potential of a state for a push direction. -/
def potential (dir : PushDir) (M : Automaton) (q : Nat) : Int :=
  ((potentialRaw dir M)[q]?).getD 0

/-- Potential normalized to vanish at the start state, so that total path
weights are preserved exactly. -/
def normPotential (dir : PushDir) (M : Automaton) (q : Nat) : Int :=
  potential dir M q - potential dir M (M.start.getD 0)

/-- Reweight the state arena by a potential `V`: an arc `p → q` of weight
`w` becomes `w - V p + V q`, a final weight `ρ` at `q` becomes `ρ - V q`. -/
def pushStates (V : Nat → Int) : Nat → List AState → List AState
  | _, [] => []
  | p, st :: sts =>
    ⟨st.fin.map (fun ρ => ρ - V p),
      st.arcs.map (fun a => ⟨a.il, a.ol, a.wt - V p + V a.dst, a.dst⟩)⟩ ::
      pushStates V (p + 1) sts

/-- Reweight an automaton by a potential. -/
def pushWith (V : Nat → Int) (M : Automaton) : Automaton :=
  ⟨M.start, pushStates V 0 M.states⟩

/-- The image of a walk starting at `q` under reweighting by `V`. -/
def rwPath (V : Nat → Int) : Nat → List Arc → List Arc
  | _, [] => []
  | q, a :: as => ⟨a.il, a.ol, a.wt - V q + V a.dst, a.dst⟩ :: rwPath V a.dst as

/-- Modelled from the spec: weight pushing — redistribute weight along
arcs toward the initial or the final states by reweighting with the
direction's normalized shortest-distance potential. -/
def push (dir : PushDir) (M : Automaton) : Automaton :=
  pushWith (normPotential dir M) M

/-! ## Epsilon removal and optimization (spec §4.5) -/

/-- An epsilon arc consumes and emits nothing. -/
def isEps (a : Arc) : Bool := a.il == 0 && a.ol == 0

/-- The epsilon-arc subgraph of an automaton. -/
def epsSub (M : Automaton) : Automaton :=
  ⟨M.start, M.states.map (fun st => ⟨st.fin, st.arcs.filter isEps⟩)⟩

/-- Tropical collection on optional weights (`none` is the additive
identity, absence of a path). -/
def optMin : Option Int → Option Int → Option Int
  | none, b => b
  | some v, none => some v
  | some v, some u => some (min v u)

/-- Tropical collection over a list of optional weights. -/
def minList (l : List (Option Int)) : Option Int := l.foldl optMin none

/-- All epsilon arcs of the automaton with their source states. -/
def epsArcPairs (M : Automaton) : List (Nat × Arc) :=
  (List.range M.states.length).flatMap (fun r => (epsArcsOf M r).map (fun a => (r, a)))
where
  epsArcsOf (M : Automaton) (r : Nat) : List Arc := (arcsOf M r).filter isEps

/-- Shortest epsilon distance from `p` over paths of length at most `k`:
the weighted epsilon-closure computation. -/
def epsDist (M : Automaton) (p : Nat) : Nat → Nat → Option Int
  | 0, q => if q = p then some 0 else none
  | k + 1, q =>
    optMin (epsDist M p k q)
      (minList ((epsArcPairs M).map (fun ra =>
        if ra.2.dst = q then (epsDist M p k ra.1).map (fun v => v + ra.2.wt) else none)))

/-- Arcs after epsilon removal at state `p`: for every state `q` in the
epsilon closure of `p` and every non-epsilon arc of `q`, an arc with the
closure distance folded into the weight. -/
def rmEpsArcs (M : Automaton) (p : Nat) : List Arc :=
  (List.range M.states.length).flatMap (fun q =>
    match epsDist M p M.states.length q with
    | none => []
    | some d =>
      (arcsOf M q).filterMap (fun a =>
        if isEps a then none else some ⟨a.il, a.ol, d + a.wt, a.dst⟩))

/-- Final weight after epsilon removal at `p`: the tropical collection of
closure distance plus final weight over the epsilon closure of `p`. -/
def rmEpsFin (M : Automaton) (p : Nat) : Option Int :=
  minList ((List.range M.states.length).map (fun q =>
    match epsDist M p M.states.length q, finalOf M q with
    | some d, some ρ => some (d + ρ)
    | _, _ => none))

/-- Modelled from the spec: epsilon removal — collapse epsilon chains by
the weighted epsilon-closure, preserving the collected weight along each
original path. -/
def rmEpsilon (M : Automaton) : Automaton :=
  ⟨M.start, (List.range M.states.length).map (fun p => ⟨rmEpsFin M p, rmEpsArcs M p⟩)⟩

/-- No nonempty cycle of epsilon arcs exists; on such automatons the
weighted epsilon closure is well defined. -/
def NoEpsCycle (M : Automaton) : Prop :=
  ∀ (q : Nat) (es : List Arc), es ≠ [] → ¬ PathFrom (epsSub M) q es q

/-- Decide well-formedness (spec §3 invariant). -/
def wfB (M : Automaton) : Bool :=
  M.states.all (fun st => st.arcs.all (fun a => decide (a.dst < M.states.length))) &&
    M.start.all (fun s => decide (s < M.states.length))

/-- Decide that the automaton has no epsilon cycle (so the weighted
epsilon closure is well defined): no nonempty epsilon path of length at
most `n` returns to its origin. -/
def epsAcyclicB (M : Automaton) : Bool :=
  (List.range M.states.length).all (fun q =>
    (pathsFrom (epsSub M) M.states.length q).all (fun pe =>
      pe.1.isEmpty || decide (pe.2 ≠ q)))

/-! ## Determinization and minimization (spec §4.5)

Modelled from the spec: determinization is the weighted subset
construction generalized to weighted arcs — a deterministic state is a
set of (state, residual weight) pairs, normalized by dividing out the
common (minimal) weight onto the emitted arc, which is what weak left
divisibility of the tropical semiring provides; the exploration is
budgeted, and a non-closing input fails with `DeterminizationError`
rather than looping.  Minimization merges states whose reachable final
behaviour is weight-identical, computed by refinement of the state
grouping to a fixpoint. -/

/-- Modelled from the spec (§4.5, §7): failure of the determinization
stage — the budgeted subset exploration did not close. -/
inductive DeterminizationError
  | budgetExceeded
deriving DecidableEq, Repr

/-- The (input, output) labels leaving any member of a weighted subset. -/
def detLabels (M : Automaton) (S : List (Nat × Int)) : List (Nat × Nat) :=
  (S.flatMap (fun qr => (arcsOf M qr.1).map (fun a => (a.il, a.ol)))).dedup

/-- Weighted targets of a subset under one label: every destination of a
matching arc of a member, with the member residual sequenced with the
arc weight. -/
def detTargets (M : Automaton) (S : List (Nat × Int)) (l : Nat × Nat) : List (Nat × Int) :=
  S.flatMap (fun qr => (arcsOf M qr.1).filterMap (fun a =>
    if a.il = l.1 ∧ a.ol = l.2 then some (a.dst, qr.2 + a.wt) else none))

/-- Tropical collection (minimum) of a list of weights. -/
def minIntList : List Int → Int
  | [] => 0
  | [r] => r
  | r :: r2 :: rs => min r (minIntList (r2 :: rs))

/-- The collected (minimal) residual of one destination among weighted
targets. -/
def resOf (ts : List (Nat × Int)) (q : Nat) : Int :=
  minIntList ((ts.filter (fun t => t.1 == q)).map Prod.snd)

/-- Collect weighted targets by destination, keeping the minimal
residual of each (`⊕` over parallel transitions). -/
def groupMin (ts : List (Nat × Int)) : List (Nat × Int) :=
  ((ts.map Prod.fst).dedup).map (fun q => (q, resOf ts q))

/-- One determinization transition: the emitted arc weight is the
divided-out common (minimal) weight, and the successor subset keeps the
normalized residuals. -/
def detStep (M : Automaton) (S : List (Nat × Int)) (l : Nat × Nat) : Int × List (Nat × Int) :=
  (minIntList ((groupMin (detTargets M S l)).map Prod.snd),
    (groupMin (detTargets M S l)).map
      (fun t => (t.1, t.2 - minIntList ((groupMin (detTargets M S l)).map Prod.snd))))

/-- Successor subsets of a subset, one per outgoing label. -/
def detSuccs (M : Automaton) (S : List (Nat × Int)) : List (List (Nat × Int)) :=
  (detLabels M S).map (fun l => (detStep M S l).2)

/-- Record a discovered subset unless it is already known. -/
def insertNew (found : List (List (Nat × Int))) (S : List (Nat × Int)) :
    List (List (Nat × Int)) :=
  if S ∈ found then found else found ++ [S]

/-- The budgeted worklist exploration of the subset construction:
process discovered subsets in discovery order, recording successors;
an exhausted budget fails with `DeterminizationError` rather than
looping. -/
def detLoop (M : Automaton) : Nat → List (List (Nat × Int)) → Nat →
    Except DeterminizationError (List (List (Nat × Int)))
  | 0, found, i =>
    if found.length ≤ i then .ok found else .error .budgetExceeded
  | fuel + 1, found, i =>
    match found[i]? with
    | none => .ok found
    | some S => detLoop M fuel ((detSuccs M S).foldl insertNew found) (i + 1)

/-- The exploration budget of determinization. -/
def detBudget (M : Automaton) : Nat := (M.states.length + 1) * 2 ^ M.states.length

/-- Final weight of a deterministic state: the tropical collection of
member residual plus member final weight. -/
def detFinal (M : Automaton) (S : List (Nat × Int)) : Option Int :=
  minList (S.map (fun qr => (finalOf M qr.1).map (fun ρ => qr.2 + ρ)))

/-- First index of an element in a list (the length when absent). -/
def firstIdx {α : Type} [DecidableEq α] : List α → α → Nat
  | [], _ => 0
  | y :: ys, x => if y = x then 0 else firstIdx ys x + 1

/-- Arcs of a deterministic state: exactly one arc per outgoing label,
to the discovery index of the successor subset. -/
def detArcsAt (M : Automaton) (found : List (List (Nat × Int))) (S : List (Nat × Int)) :
    List Arc :=
  (detLabels M S).map (fun l =>
    ⟨l.1, l.2, (detStep M S l).1, firstIdx found (detStep M S l).2⟩)

/-- The deterministic automaton over a closed list of discovered
subsets: state ids are discovery indices. -/
def detAut (M : Automaton) (found : List (List (Nat × Int))) : Automaton :=
  ⟨some 0, found.map (fun S => ⟨detFinal M S, detArcsAt M found S⟩)⟩

/-- Modelled from the spec: weighted determinization by budgeted subset
construction — the result has at most one arc per (input, output) label
out of every state; non-closing inputs fail with `DeterminizationError`
rather than looping. -/
def determinize (M : Automaton) : Except DeterminizationError Automaton :=
  match M.start with
  | none => .ok ⟨none, []⟩
  | some s => (detLoop M (detBudget M) [[(s, 0)]] 0).map (detAut M)

/-- The arc list realizes the exact (input, output) label sequence `L`
from `s` to `q`, with collected weight `v`. -/
def PathLbl (M : Automaton) (s : Nat) (L : List (Nat × Nat)) (q : Nat) (v : Int) : Prop :=
  ∃ as, PathFrom M s as q ∧ as.map (fun a => (a.il, a.ol)) = L ∧ pathWt as = v

/-- `v` is the tropical collection (an attained minimum) of the weights
of the paths from `s` to `q` with exact label sequence `L`. -/
def MinWt (M : Automaton) (s : Nat) (L : List (Nat × Nat)) (q : Nat) (v : Int) : Prop :=
  PathLbl M s L q v ∧ ∀ u, PathLbl M s L q u → v ≤ u

/-- The subset invariant of determinization: after reading `L` with
emitted weight `W`, the members are exactly the states reachable by `L`,
the residuals completing `W` to the minimal path weight. -/
def DetInv (M : Automaton) (s : Nat) (L : List (Nat × Nat)) (W : Int)
    (S : List (Nat × Int)) : Prop :=
  ∀ q r, (q, r) ∈ S ↔ MinWt M s L q (W + r)

instance : DecidableEq (Nat × Nat × Int × Option Nat) := inferInstance

instance : DecidableEq (Option Nat × Option Int × List (Nat × Nat × Int × Option Nat)) :=
  inferInstance

/-- Canonical labelling of a list by first occurrence: two positions get
the same label exactly when they hold equal elements. -/
def canon {α : Type} [DecidableEq α] (l : List α) : List Nat :=
  l.map (fun x => firstIdx l x)

/-- The number of groups of a state grouping. -/
def numC (c : List Nat) : Nat := c.dedup.length

/-- Refinement signature of a state under a state grouping: its group,
its final weight, and its arcs with destinations abstracted to groups. -/
def stSig (M : Automaton) (cls : List Nat) (p : Nat) :
    Option Nat × Option Int × List (Nat × Nat × Int × Option Nat) :=
  (cls[p]?, finalOf M p, (arcsOf M p).map (fun a => (a.il, a.ol, a.wt, cls[a.dst]?)))

/-- The signatures of all states under a state grouping. -/
def sigList (M : Automaton) (cls : List Nat) :
    List (Option Nat × Option Int × List (Nat × Nat × Int × Option Nat)) :=
  (List.range M.states.length).map (fun p => stSig M cls p)

/-- One refinement round: regroup states by signature. -/
def refineStep (M : Automaton) (cls : List Nat) : List Nat :=
  canon (sigList M cls)

/-- The weighted-equivalence grouping: refinement iterated to a
fixpoint (one round more than the number of states always suffices). -/
def minCls (M : Automaton) : List Nat :=
  iterN (refineStep M) (M.states.length + 1) (List.replicate M.states.length 0)

/-- Group representatives, in state order. -/
def minReps (M : Automaton) : List Nat := (minCls M).dedup

/-- Merged state id of a state: the index of its group. -/
def clsIdx (M : Automaton) (p : Nat) : Nat :=
  firstIdx (minReps M) ((minCls M).getD p 0)

/-- Modelled from the spec: minimization — merge states whose reachable
final behaviour is weight-identical (computed by refinement of the state
grouping), redirecting every arc to the merged id of its destination. -/
def minimize (M : Automaton) : Automaton :=
  ⟨M.start.map (clsIdx M),
    (minReps M).map (fun r =>
      ⟨finalOf M r, (arcsOf M r).map (fun a => ⟨a.il, a.ol, a.wt, clsIdx M a.dst⟩)⟩)⟩

/-- Modelled from the spec (§4.5, §6): the optimizer pipeline — epsilon
removal, then determinization (which can fail with a
`DeterminizationError`), then minimization, then weight pushing in the
caller-selected direction when one is given. -/
def optimize (M : Automaton) (dir : Option PushDir) :
    Except DeterminizationError Automaton :=
  (determinize (rmEpsilon M)).map (fun D =>
    match dir with
    | none => minimize D
    | some d => push d (minimize D))

/-- An automaton exercising every optimizer stage: an epsilon arc to be
removed, two parallel `5:7` transitions to be merged by determinization,
and a weight to be pushed. -/
def exOptM : Automaton :=
  ⟨some 0,
    [⟨none, [⟨0, 0, 1, 1⟩, ⟨5, 7, 3, 2⟩]⟩,
     ⟨none, [⟨5, 7, 0, 2⟩]⟩,
     ⟨some 1, []⟩]⟩

/-- The automaton the optimizer pipeline produces on `exOptM` with
pushing toward the final states: epsilon removed, the two parallel
transitions merged into one arc of collected weight, the weight pushed
onto the arc. -/
def exOptA : Automaton :=
  ⟨some 0, [⟨none, [⟨5, 7, 2, 1⟩]⟩, ⟨some 0, []⟩]⟩

/-! ## Rewrite rules (spec §4.3) and string maps (spec §4.2) -/

/-- Modelled from the spec: the transducer of a single-character rewrite
rule `φ → ψ` in context `lc _ rc` in obligatory mode, over an alphabet of
nonzero labels with `φ`, `ψ`, `lc`, `rc` pairwise distinct.  State 0:
default; state 1: just read `lc`; state 2: rewrote `φ` and must read `rc`
next; state 3: left `φ` unrewritten after `lc` and must not read `rc`
next (obligatory mode disallows an unrewritten `φ` in a valid context). -/
def ruleTransducer (φ ψ lc rc : Nat) (alph : List Nat) : Automaton :=
  ⟨some 0,
    [⟨some 0, alph.map (fun c => ⟨c, c, 0, if c = lc then 1 else 0⟩)⟩,
     ⟨some 0, alph.flatMap (fun c =>
        if c = φ then [⟨c, ψ, 0, 2⟩, ⟨c, c, 0, 3⟩]
        else [⟨c, c, 0, if c = lc then 1 else 0⟩])⟩,
     ⟨none, alph.filterMap (fun c =>
        if c = rc then some ⟨c, c, 0, if c = lc then 1 else 0⟩ else none)⟩,
     ⟨some 0, alph.filterMap (fun c =>
        if c = rc then none else some ⟨c, c, 0, if c = lc then 1 else 0⟩)⟩]⟩

/-- No arc of the automaton has an epsilon input label (such automatons
consume one input symbol per arc). -/
def InFree (M : Automaton) : Prop :=
  ∀ st ∈ M.states, ∀ a ∈ st.arcs, a.il ≠ 0

/-- The rewrite rule of the spec scenario, instantiated under the
symbol-table token model: replace `a` (label 98) by `b` (label 99) when
preceded by `x` (label 121) and followed by `y` (label 122), obligatory
mode, over the alphabet of the scenario strings. -/
def ruleABxy : Automaton := ruleTransducer 98 99 121 122 [121, 122, 98, 123, 99]

/-- Compilation failure of the string-map compiler. -/
inductive CompileError
  | emptyStringMap
deriving DecidableEq

/-- Shift all arc destinations by `k` (for embedding into a union arena). -/
def shiftStates (k : Nat) (sts : List AState) : List AState :=
  sts.map (fun st => ⟨st.fin, st.arcs.map (fun a => ⟨a.il, a.ol, a.wt, a.dst + k⟩)⟩)

/-- Union of two automatons: a fresh start state with epsilon arcs into
disjointly embedded copies of both. -/
def unionA (X Y : Automaton) : Automaton :=
  ⟨some 0,
    ⟨none, [⟨0, 0, 0, 1 + X.start.getD 0⟩, ⟨0, 0, 0, 1 + X.states.length + Y.start.getD 0⟩]⟩ ::
      (shiftStates 1 X.states ++ shiftStates (1 + X.states.length) Y.states)⟩

/-- States of a cross-product transducer of one (input, output) string
pair: consume the two label sequences in lockstep, padding the shorter
side with epsilons; the weight sits on the final state. -/
def pairChainStates (w : Int) : List Nat → List Nat → Nat → List AState
  | [], [], _ => [⟨some w, []⟩]
  | i :: is, [], k => ⟨none, [⟨i, 0, 0, k + 1⟩]⟩ :: pairChainStates w is [] (k + 1)
  | [], o :: os, k => ⟨none, [⟨0, o, 0, k + 1⟩]⟩ :: pairChainStates w [] os (k + 1)
  | i :: is, o :: os, k => ⟨none, [⟨i, o, 0, k + 1⟩]⟩ :: pairChainStates w is os (k + 1)

/-- Modelled from the spec: compile one (input, output, weight) triple
into a cross-product transducer. -/
def compile_string_pair (T : TokenModel) (inp outp : List Char) (w : Int) : Automaton :=
  ⟨some 0, pairChainStates w (inp.map T.enc) (outp.map T.enc) 0⟩

/-- Modelled from the spec: compile an ordered collection of (input,
output, weight) triples into the union of their cross-product
transducers; an empty collection is rejected with a `CompileError`. -/
def compile_string_map (T : TokenModel)
    (triples : List (List Char × List Char × Int)) : Except CompileError Automaton :=
  match triples with
  | [] => .error .emptyStringMap
  | t :: ts =>
    .ok ((ts.map (fun t2 => compile_string_pair T t2.1 t2.2.1 t2.2.2)).foldl unionA
      (compile_string_pair T t.1 t.2.1 t.2.2))

/-! ## Theorems -/

theorem pathFrom_nil_iff {M : Automaton} {q r : Nat} : PathFrom M q [] r ↔ r = q := by
  constructor
  · intro h
    cases h
    rfl
  · rintro rfl
    exact PathFrom.nil _

theorem pathFrom_cons_iff {M : Automaton} {q r : Nat} {a : Arc} {as : List Arc} :
    PathFrom M q (a :: as) r ↔ a ∈ arcsOf M q ∧ PathFrom M a.dst as r := by
  constructor
  · intro h
    cases h with
    | cons hmem hrest => exact ⟨hmem, hrest⟩
  · rintro ⟨hmem, hrest⟩
    exact PathFrom.cons hmem hrest

theorem pathFrom_append {M : Automaton} {q r : Nat} {as bs : List Arc} :
    PathFrom M q (as ++ bs) r ↔ ∃ m, PathFrom M q as m ∧ PathFrom M m bs r := by
  induction as generalizing q with
  | nil =>
    simp only [List.nil_append, pathFrom_nil_iff]
    constructor
    · intro h
      exact ⟨q, rfl, h⟩
    · rintro ⟨m, rfl, h⟩
      exact h
  | cons a as' ih =>
    simp only [List.cons_append, pathFrom_cons_iff, ih]
    constructor
    · rintro ⟨hmem, m, h1, h2⟩
      exact ⟨m, ⟨hmem, h1⟩, h2⟩
    · rintro ⟨m, ⟨hmem, h1⟩, h2⟩
      exact ⟨hmem, m, h1, h2⟩

theorem strip_append (l1 l2 : List Nat) : strip (l1 ++ l2) = strip l1 ++ strip l2 :=
  List.filter_append ..

theorem pathWt_cons (a : Arc) (as : List Arc) : pathWt (a :: as) = a.wt + pathWt as := by
  simp [pathWt]

theorem pathWt_append (as bs : List Arc) : pathWt (as ++ bs) = pathWt as + pathWt bs := by
  simp [pathWt]

theorem pathsFrom_sound {M : Automaton} {fuel q : Nat} {pe : List Arc × Nat}
    (h : pe ∈ pathsFrom M fuel q) : PathFrom M q pe.1 pe.2 := by
  induction fuel generalizing q pe with
  | zero =>
    simp only [pathsFrom, List.mem_singleton] at h
    subst h
    exact PathFrom.nil q
  | succ fuel ih =>
    simp only [pathsFrom, List.mem_cons, List.mem_flatMap, List.mem_map] at h
    rcases h with rfl | ⟨a, ha, pe', hpe', rfl⟩
    · exact PathFrom.nil q
    · exact PathFrom.cons ha (ih hpe')

theorem pathsFrom_complete {M : Automaton} {fuel q e : Nat} {as : List Arc}
    (h : PathFrom M q as e) (hlen : as.length ≤ fuel) : (as, e) ∈ pathsFrom M fuel q := by
  induction fuel generalizing q as with
  | zero =>
    cases as with
    | nil =>
      have he := pathFrom_nil_iff.mp h
      subst he
      simp [pathsFrom]
    | cons a as' => simp at hlen
  | succ fuel ih =>
    cases as with
    | nil =>
      have he := pathFrom_nil_iff.mp h
      subst he
      simp [pathsFrom]
    | cons a as' =>
      rcases pathFrom_cons_iff.mp h with ⟨hmem, hrest⟩
      simp only [pathsFrom, List.mem_cons, List.mem_flatMap, List.mem_map]
      refine Or.inr ⟨a, hmem, (as', e), ih hrest ?_, rfl⟩
      simpa using Nat.le_of_succ_le_succ hlen

/-! Reachability: the dedup-append fold used by `stepReach`. -/

theorem dedupFold_shape (l acc : List Nat) :
    ∃ ex, l.foldl (fun acc d => if d ∈ acc then acc else acc ++ [d]) acc = acc ++ ex := by
  induction l generalizing acc with
  | nil => exact ⟨[], by simp⟩
  | cons d l' ih =>
    by_cases hd : d ∈ acc
    · simpa [List.foldl_cons, hd] using ih acc
    · rcases ih (acc ++ [d]) with ⟨ex, hex⟩
      refine ⟨[d] ++ ex, ?_⟩
      simp only [List.foldl_cons, if_neg hd, hex, List.append_assoc]

theorem dedupFold_mem_of_acc {l acc : List Nat} {x : Nat} (hx : x ∈ acc) :
    x ∈ l.foldl (fun acc d => if d ∈ acc then acc else acc ++ [d]) acc := by
  rcases dedupFold_shape l acc with ⟨ex, hex⟩
  rw [hex]
  exact List.mem_append_left _ hx

theorem dedupFold_mem_of_list {l acc : List Nat} {x : Nat} (hx : x ∈ l) :
    x ∈ l.foldl (fun acc d => if d ∈ acc then acc else acc ++ [d]) acc := by
  induction l generalizing acc with
  | nil => cases hx
  | cons d l' ih =>
    by_cases hd : d ∈ acc
    · simp only [List.foldl_cons, if_pos hd]
      rcases List.mem_cons.mp hx with rfl | hx'
      · exact dedupFold_mem_of_acc hd
      · exact ih hx'
    · simp only [List.foldl_cons, if_neg hd]
      rcases List.mem_cons.mp hx with rfl | hx'
      · exact dedupFold_mem_of_acc (List.mem_append_right _ (List.mem_singleton.mpr rfl))
      · exact ih hx'

theorem dedupFold_mem_src {l acc : List Nat} {x : Nat}
    (hx : x ∈ l.foldl (fun acc d => if d ∈ acc then acc else acc ++ [d]) acc) :
    x ∈ acc ∨ x ∈ l := by
  induction l generalizing acc with
  | nil => exact Or.inl hx
  | cons d l' ih =>
    by_cases hd : d ∈ acc
    · simp only [List.foldl_cons, if_pos hd] at hx
      rcases ih hx with h | h
      · exact Or.inl h
      · exact Or.inr (List.mem_cons_of_mem _ h)
    · simp only [List.foldl_cons, if_neg hd] at hx
      rcases ih hx with h | h
      · rcases List.mem_append.mp h with h2 | h2
        · exact Or.inl h2
        · exact Or.inr (List.mem_cons.mpr (Or.inl (List.mem_singleton.mp h2)))
      · exact Or.inr (List.mem_cons_of_mem _ h)

theorem dedupFold_nodup {l acc : List Nat} (h : acc.Nodup) :
    (l.foldl (fun acc d => if d ∈ acc then acc else acc ++ [d]) acc).Nodup := by
  induction l generalizing acc with
  | nil => exact h
  | cons d l' ih =>
    by_cases hd : d ∈ acc
    · simpa [List.foldl_cons, hd] using ih h
    · simp only [List.foldl_cons, if_neg hd]
      refine ih ?_
      simp [List.nodup_append, h, hd]

theorem mem_arcsOf {M : Automaton} {q : Nat} {a : Arc} (ha : a ∈ arcsOf M q) :
    ∃ st ∈ M.states, a ∈ st.arcs := by
  unfold arcsOf at ha
  cases hst : M.states[q]? with
  | none => simp [hst] at ha
  | some st =>
    simp only [hst, Option.map_some', Option.getD_some] at ha
    exact ⟨st, List.getElem?_mem hst, ha⟩

theorem stepReach_sub {M : Automaton} {seen : List Nat} : seen ⊆ stepReach M seen :=
  fun _ hx => dedupFold_mem_of_acc hx

theorem stepReach_mem_dst {M : Automaton} {seen : List Nat} {q : Nat} {a : Arc}
    (hq : q ∈ seen) (ha : a ∈ arcsOf M q) : a.dst ∈ stepReach M seen := by
  refine dedupFold_mem_of_list ?_
  simp only [List.mem_flatMap, List.mem_map]
  exact ⟨q, hq, a, ha, rfl⟩

theorem stepReach_mem_src {M : Automaton} {seen : List Nat} {x : Nat}
    (hx : x ∈ stepReach M seen) :
    x ∈ seen ∨ ∃ q ∈ seen, ∃ a ∈ arcsOf M q, a.dst = x := by
  rcases dedupFold_mem_src hx with h | h
  · exact Or.inl h
  · simp only [List.mem_flatMap, List.mem_map] at h
    rcases h with ⟨q, hq, a, ha, rfl⟩
    exact Or.inr ⟨q, hq, a, ha, rfl⟩

theorem reachN_stable {M : Automaton} {seen : List Nat} (h : stepReach M seen = seen) :
    ∀ n, reachN M n seen = seen := by
  intro n
  induction n with
  | zero => rfl
  | succ n ih => simp only [reachN, h, ih]

theorem stepReach_sub_universe {M : Automaton} {s : Nat} {seen : List Nat}
    (hsub : seen ⊆ s :: allDsts M) : stepReach M seen ⊆ s :: allDsts M := by
  intro x hx
  rcases stepReach_mem_src hx with h | ⟨q, _, a, ha, rfl⟩
  · exact hsub h
  · refine List.mem_cons_of_mem _ ?_
    simp only [allDsts, List.mem_flatMap, List.mem_map]
    rcases mem_arcsOf ha with ⟨st, hst, hast⟩
    exact ⟨st, hst, a, hast, rfl⟩

theorem reachN_saturates {M : Automaton} (s : Nat) :
    ∀ (n : Nat) (seen : List Nat), seen.Nodup → seen ⊆ s :: allDsts M →
      (s :: allDsts M).length < seen.length + n →
      stepReach M (reachN M n seen) = reachN M n seen := by
  intro n
  induction n with
  | zero =>
    intro seen hnd hsub hlen
    have := List.Subperm.length_le (List.subperm_of_subset hnd hsub)
    omega
  | succ n ih =>
    intro seen hnd hsub hlen
    by_cases hst : stepReach M seen = seen
    · have hall := reachN_stable hst
      simp only [reachN, hst, hall n]
    · rcases dedupFold_shape (seen.flatMap (fun q => (arcsOf M q).map Arc.dst)) seen with ⟨ex, hex⟩
      have hex' : stepReach M seen = seen ++ ex := hex
      have hexne : ex ≠ [] := by
        intro h
        exact hst (by simp [hex', h])
      have hlen2 : seen.length + 1 ≤ (stepReach M seen).length := by
        rw [hex', List.length_append]
        have : 0 < ex.length := List.length_pos.mpr hexne
        omega
      simp only [reachN]
      refine ih (stepReach M seen) (dedupFold_nodup hnd) (stepReach_sub_universe hsub) ?_
      omega

theorem reachable_closed {M : Automaton} {R : List Nat} (hR : stepReach M R = R)
    {s q : Nat} (hs : s ∈ R) {as : List Arc} (h : PathFrom M s as q) : q ∈ R := by
  induction h with
  | nil => exact hs
  | cons hmem _ ih =>
    exact ih (hR ▸ stepReach_mem_dst (by assumption) hmem)

theorem reachN_sub {M : Automaton} : ∀ (n : Nat) (seen : List Nat), seen ⊆ reachN M n seen := by
  intro n
  induction n with
  | zero => intro seen x hx; exact hx
  | succ n ih => intro seen x hx; exact ih (stepReach M seen) (stepReach_sub hx)

theorem reachableFrom_complete {M : Automaton} {s q : Nat} {as : List Arc}
    (h : PathFrom M s as q) : q ∈ reachableFrom M s := by
  have hsat : stepReach M (reachN M ((allDsts M).length + 1) [s]) =
      reachN M ((allDsts M).length + 1) [s] := by
    refine reachN_saturates s ((allDsts M).length + 1) [s] (List.nodup_singleton s) ?_ ?_
    · intro x hx
      rcases List.mem_singleton.mp hx with rfl
      exact List.mem_cons_self _ _
    · simp
  have hs : s ∈ reachN M ((allDsts M).length + 1) [s] :=
    reachN_sub _ _ (List.mem_singleton.mpr rfl)
  exact reachable_closed hsat hs h

theorem reachableFrom_sound {M : Automaton} {s q : Nat} (h : q ∈ reachableFrom M s) :
    ∃ as, PathFrom M s as q := by
  suffices hgen : ∀ (n : Nat) (seen : List Nat),
      (∀ x ∈ seen, ∃ as, PathFrom M s as x) → ∀ x ∈ reachN M n seen, ∃ as, PathFrom M s as x by
    refine hgen _ [s] ?_ q h
    intro x hx
    rcases List.mem_singleton.mp hx with rfl
    exact ⟨[], PathFrom.nil _⟩
  intro n
  induction n with
  | zero => intro seen hinv x hx; exact hinv x hx
  | succ n ih =>
    intro seen hinv x hx
    refine ih (stepReach M seen) ?_ x hx
    intro y hy
    rcases stepReach_mem_src hy with h1 | ⟨r, hr, a, ha, rfl⟩
    · exact hinv y h1
    · rcases hinv r hr with ⟨as, hpath⟩
      refine ⟨as ++ [a], ?_⟩
      rw [pathFrom_append]
      exact ⟨r, hpath, PathFrom.cons ha (PathFrom.nil a.dst)⟩

theorem hasAcceptingPath_iff (M : Automaton) :
    hasAcceptingPath M = true ↔ HasSuccPath M := by
  constructor
  · intro h
    simp only [hasAcceptingPath] at h
    cases hst : M.start with
    | none => rw [hst] at h; cases h
    | some s =>
      rw [hst] at h
      rcases List.any_eq_true.mp h with ⟨q, hq, hfin⟩
      rcases Option.isSome_iff_exists.mp hfin with ⟨ρ, hρ⟩
      rcases reachableFrom_sound hq with ⟨as, hpath⟩
      exact ⟨strip (ils as), strip (ols as), pathWt as + ρ,
        s, as, q, ρ, hst, hpath, hρ, rfl, rfl, rfl⟩
  · rintro ⟨x, y, w, s, as, q, ρ, hst, hpath, hfin, _, _, _⟩
    simp only [hasAcceptingPath, hst]
    refine List.any_eq_true.mpr ⟨q, reachableFrom_complete hpath, ?_⟩
    simp [hfin]

/-- Claim C1: lenient composition equals strict composition whenever the
strict composition has at least one successful path, and equals `A`
unchanged whenever it has none. -/
theorem lenient_compose_spec (A B : Automaton) :
    (HasSuccPath (compose A B) → lenient_compose A B = compose A B) ∧
    (¬ HasSuccPath (compose A B) → lenient_compose A B = A) := by
  constructor
  · intro h
    have hb : hasAcceptingPath (compose A B) = true := (hasAcceptingPath_iff _).mpr h
    simp [lenient_compose, hb]
  · intro h
    have hb : hasAcceptingPath (compose A B) = false := by
      cases hx : hasAcceptingPath (compose A B)
      · rfl
      · exact absurd ((hasAcceptingPath_iff _).mp hx) h
    simp [lenient_compose, hb]

/-- Witness for C1: a concrete nonempty strict composition is returned
as-is, and a concrete empty strict composition falls back to `A`. -/
theorem lenient_compose_spec_witness :
    lenient_compose ⟨some 0, [⟨some 0, []⟩]⟩ ⟨some 0, [⟨some 0, []⟩]⟩ =
      compose ⟨some 0, [⟨some 0, []⟩]⟩ ⟨some 0, [⟨some 0, []⟩]⟩ ∧
    lenient_compose ⟨some 0, [⟨none, []⟩]⟩ ⟨some 0, [⟨none, []⟩]⟩ =
      ⟨some 0, [⟨none, []⟩]⟩ :=
  ⟨(lenient_compose_spec _ _).1
      ⟨[], [], 0, 0, [], 0, 0, rfl, PathFrom.nil 0, rfl, rfl, rfl, rfl⟩,
    (lenient_compose_spec _ _).2
      (fun h => absurd ((hasAcceptingPath_iff _).mpr h) (by decide))⟩

/-! Chain acceptors: the unique successful path of `chainAcceptor ls`. -/

theorem chainStates_getElem (ls : List Nat) :
    ∀ (j i : Nat), (chainStates ls i)[j]? =
      match ls.drop j with
      | [] => if j = ls.length then some ⟨some 0, []⟩ else none
      | l :: _ => some ⟨none, [⟨l, l, 0, i + j + 1⟩]⟩ := by
  induction ls with
  | nil =>
    intro j i
    cases j with
    | zero => simp [chainStates]
    | succ j' => simp [chainStates]
  | cons l ls' ih =>
    intro j i
    cases j with
    | zero => simp [chainStates]
    | succ j' =>
      simp only [chainStates, List.getElem?_cons_succ, List.drop_succ_cons, List.length_cons]
      rw [ih j' (i + 1)]
      have harith : i + 1 + j' + 1 = i + (j' + 1) + 1 := by omega
      rcases hd : ls'.drop j' with _ | ⟨l2, t⟩ <;>
        simp only [harith, Nat.succ_inj]

theorem arcsOf_chain (ls : List Nat) (j : Nat) :
    arcsOf (chainAcceptor ls) j =
      match ls.drop j with
      | [] => []
      | l :: _ => [⟨l, l, 0, j + 1⟩] := by
  unfold arcsOf chainAcceptor
  rw [show (Automaton.mk (some 0) (chainStates ls 0)).states = chainStates ls 0 from rfl,
    chainStates_getElem ls j 0]
  rcases hd : ls.drop j with _ | ⟨l, t⟩
  · by_cases hj : j = ls.length <;> simp [hj]
  · simp

theorem finalOf_chain (ls : List Nat) (j : Nat) :
    finalOf (chainAcceptor ls) j = if j = ls.length then some 0 else none := by
  unfold finalOf chainAcceptor
  rw [show (Automaton.mk (some 0) (chainStates ls 0)).states = chainStates ls 0 from rfl,
    chainStates_getElem ls j 0]
  rcases hd : ls.drop j with _ | ⟨l, t⟩
  · by_cases hj : j = ls.length <;> simp [hj]
  · have : j < ls.length := by
      by_contra hge
      rw [List.drop_eq_nil_of_le (Nat.le_of_not_lt hge)] at hd
      cases hd
    simp [Nat.ne_of_lt this]

theorem ils_chainArcs (ls : List Nat) : ∀ i, ils (chainArcs ls i) = ls := by
  induction ls with
  | nil => intro i; rfl
  | cons l ls' ih => intro i; simp only [chainArcs, ils, List.map_cons]; rw [← ils, ih]

theorem ols_chainArcs (ls : List Nat) : ∀ i, ols (chainArcs ls i) = ls := by
  induction ls with
  | nil => intro i; rfl
  | cons l ls' ih => intro i; simp only [chainArcs, ols, List.map_cons]; rw [← ols, ih]

theorem pathWt_chainArcs (ls : List Nat) : ∀ i, pathWt (chainArcs ls i) = 0 := by
  induction ls with
  | nil => intro i; rfl
  | cons l ls' ih => intro i; simp [chainArcs, pathWt_cons, ih]

theorem chain_canonical (ls : List Nat) :
    ∀ (tail : List Nat) (j : Nat), ls.drop j = tail →
      PathFrom (chainAcceptor ls) j (chainArcs tail j) (j + tail.length) := by
  intro tail
  induction tail with
  | nil =>
    intro j _
    exact PathFrom.nil j
  | cons l tail' ih =>
    intro j hd
    have harc : arcsOf (chainAcceptor ls) j = [⟨l, l, 0, j + 1⟩] := by
      rw [arcsOf_chain, hd]
    have hd' : ls.drop (j + 1) = tail' := by
      rw [← List.tail_drop, hd]
      rfl
    have hrec := ih (j + 1) hd'
    have hlen : j + 1 + tail'.length = j + (l :: tail').length := by simp; omega
    rw [hlen] at hrec
    exact PathFrom.cons (a := ⟨l, l, 0, j + 1⟩)
      (by rw [harc]; exact List.mem_singleton.mpr rfl) hrec

theorem chain_path_unique (ls : List Nat) {as : List Arc} {j e : Nat} {ρ : Int}
    (h : PathFrom (chainAcceptor ls) j as e)
    (hfin : finalOf (chainAcceptor ls) e = some ρ) :
    as = chainArcs (ls.drop j) j ∧ e = ls.length ∧ ρ = 0 := by
  induction as generalizing j with
  | nil =>
    have he := pathFrom_nil_iff.mp h
    subst he
    rw [finalOf_chain] at hfin
    by_cases hj : e = ls.length
    · rw [if_pos hj] at hfin
      refine ⟨?_, hj, by simpa using hfin.symm⟩
      rw [hj, List.drop_length]
      rfl
    · rw [if_neg hj] at hfin
      cases hfin
  | cons a as' ih =>
    rcases pathFrom_cons_iff.mp h with ⟨hmem, hrest⟩
    rw [arcsOf_chain] at hmem
    rcases hd : ls.drop j with _ | ⟨l, tail⟩
    · rw [hd] at hmem
      cases hmem
    · rw [hd] at hmem
      have ha : a = ⟨l, l, 0, j + 1⟩ := List.mem_singleton.mp hmem
      subst ha
      rcases ih hrest with ⟨has', he, hρ⟩
      have hd' : ls.drop (j + 1) = tail := by
        rw [← List.tail_drop, hd]
        rfl
      refine ⟨?_, he, hρ⟩
      rw [hd'] at has'
      rw [has']
      rfl

theorem chain_accepts_iff (ls x y : List Nat) (w : Int) :
    AcceptsTriple (chainAcceptor ls) x y w ↔ x = strip ls ∧ y = strip ls ∧ w = 0 := by
  constructor
  · rintro ⟨s, as, q, ρ, hs, hpath, hfin, hx, hy, hw⟩
    have hs0 : s = 0 := by
      simpa [chainAcceptor] using hs.symm
    subst hs0
    rcases chain_path_unique ls hpath hfin with ⟨has, _, hρ⟩
    subst hρ
    rw [List.drop_zero] at has
    subst has
    refine ⟨?_, ?_, ?_⟩
    · rw [← hx, ils_chainArcs]
    · rw [← hy, ols_chainArcs]
    · simp [← hw, pathWt_chainArcs]
  · rintro ⟨rfl, rfl, rfl⟩
    refine ⟨0, chainArcs ls 0, ls.length, 0, rfl, ?_, ?_, ?_, ?_, ?_⟩
    · simpa using chain_canonical ls ls 0 (List.drop_zero ls)
    · rw [finalOf_chain, if_pos rfl]
    · rw [ils_chainArcs]
    · rw [ols_chainArcs]
    · simp [pathWt_chainArcs]

/-! Shortest path on chain acceptors, and decoding. -/

theorem pathsFrom_chain (ls : List Nat) :
    ∀ (fuel j : Nat), pathsFrom (chainAcceptor ls) fuel j = prefixRuns (ls.drop j) j fuel := by
  intro fuel
  induction fuel with
  | zero =>
    intro j
    rcases hd : ls.drop j with _ | ⟨l, tail⟩ <;> simp [pathsFrom, prefixRuns]
  | succ fuel ih =>
    intro j
    rcases hd : ls.drop j with _ | ⟨l, tail⟩
    · have harc : arcsOf (chainAcceptor ls) j = [] := by
        rw [arcsOf_chain, hd]
      simp [pathsFrom, prefixRuns, harc, hd]
    · have harc : arcsOf (chainAcceptor ls) j = [⟨l, l, 0, j + 1⟩] := by
        rw [arcsOf_chain, hd]
      have hd' : ls.drop (j + 1) = tail := by
        rw [← List.tail_drop, hd]
        rfl
      simp only [pathsFrom, hd, prefixRuns, harc, List.flatMap_cons, List.flatMap_nil,
        List.append_nil, ih (j + 1), hd']

theorem filterRuns_chain (ls : List Nat) :
    ∀ (tail : List Nat) (j fuel : Nat), ls.drop j = tail → j + tail.length = ls.length →
      tail.length ≤ fuel →
      ((prefixRuns tail j fuel).filterMap (fun pe =>
        (finalOf (chainAcceptor ls) pe.2).map (fun ρ => (pe.1, pathWt pe.1 + ρ)))) =
        [(chainArcs tail j, 0)] := by
  intro tail
  induction tail with
  | nil =>
    intro j fuel _ hlen _
    have hj : j = ls.length := by simpa using hlen
    have hfin : finalOf (chainAcceptor ls) j = some 0 := by
      rw [finalOf_chain, if_pos hj]
    cases fuel <;> simp [prefixRuns, hfin, chainArcs, pathWt]
  | cons l tail' ih =>
    intro j fuel hd hlen hfuel
    cases fuel with
    | zero => simp at hfuel
    | succ fuel =>
      have hjlt : j < ls.length := by simp at hlen; omega
      have hfinj : finalOf (chainAcceptor ls) j = none := by
        rw [finalOf_chain, if_neg (Nat.ne_of_lt hjlt)]
      have hd' : ls.drop (j + 1) = tail' := by
        rw [← List.tail_drop, hd]
        rfl
      have hlen' : j + 1 + tail'.length = ls.length := by simp at hlen; omega
      have hfuel' : tail'.length ≤ fuel := by simpa using hfuel
      simp only [prefixRuns, List.filterMap_cons, hfinj, Option.map_none']
      rw [List.filterMap_map]
      have hfun : ((fun pe : List Arc × Nat =>
          (finalOf (chainAcceptor ls) pe.2).map (fun ρ => (pe.1, pathWt pe.1 + ρ))) ∘
            (fun pe : List Arc × Nat => (⟨l, l, 0, j + 1⟩ :: pe.1, pe.2))) =
          (fun pe : List Arc × Nat =>
            ((finalOf (chainAcceptor ls) pe.2).map (fun ρ => (pe.1, pathWt pe.1 + ρ))).map
              (fun r => (⟨l, l, 0, j + 1⟩ :: r.1, r.2))) := by
        funext pe
        cases hf : finalOf (chainAcceptor ls) pe.2 with
        | none => simp [hf]
        | some ρ => simp [hf, pathWt_cons]
      rw [hfun, ← List.map_filterMap, ih (j + 1) fuel hd' hlen' hfuel']
      rfl

theorem acceptingRuns_chain (ls : List Nat) (fuel : Nat) (hfuel : ls.length ≤ fuel) :
    acceptingRuns (chainAcceptor ls) fuel = [(chainArcs ls 0, 0)] := by
  unfold acceptingRuns
  simp only [show (chainAcceptor ls).start = some 0 from rfl]
  rw [pathsFrom_chain ls fuel 0, List.drop_zero]
  exact filterRuns_chain ls ls 0 fuel (List.drop_zero ls) (by simp) hfuel

theorem shortest_path_chain (ls : List Nat) :
    shortest_path (chainAcceptor ls) = some (chainArcs ls 0) := by
  unfold shortest_path
  have hfuel : ls.length ≤ (chainAcceptor ls).states.length := by
    have hcs : ∀ (l2 : List Nat) (i : Nat), (chainStates l2 i).length = l2.length + 1 := by
      intro l2
      induction l2 with
      | nil => intro i; rfl
      | cons a l2' ih => intro i; simp [chainStates, ih]
    rw [show (chainAcceptor ls).states = chainStates ls 0 from rfl, hcs]
    omega
  rw [acceptingRuns_chain ls _ hfuel]
  rfl

theorem decodeLabels_enc (T : TokenModel) (s : List Char) :
    decodeLabels T (s.map T.enc) = .ok s := by
  induction s with
  | nil => rfl
  | cons c s' ih =>
    simp only [List.map_cons, decodeLabels, T.dec_enc c, ih]
    rfl

/-- Claim C2: compiling a string under any token model and decoding the
first shortest path of the resulting acceptor reproduces the string. -/
theorem compile_decode_roundtrip (T : TokenModel) (s : List Char) :
    (shortest_path (compile_string T s)).map (print_path T) = some (Except.ok s) := by
  unfold compile_string
  rw [shortest_path_chain, Option.map_some']
  unfold print_path
  rw [ols_chainArcs]
  have hstrip : strip (s.map T.enc) = s.map T.enc := by
    refine List.filter_eq_self.mpr ?_
    intro l hl
    rcases List.mem_map.mp hl with ⟨c, _, rfl⟩
    simpa using T.enc_pos c
  rw [hstrip, decodeLabels_enc]

/-- Witness for C2 at a concrete model and string. -/
theorem compile_decode_roundtrip_witness :
    (shortest_path (compile_string symbolTableModel [Char.ofNat 97, Char.ofNat 98])).map
      (print_path symbolTableModel) =
      some (Except.ok [Char.ofNat 97, Char.ofNat 98]) :=
  compile_decode_roundtrip symbolTableModel [Char.ofNat 97, Char.ofNat 98]

/-! Weight pushing: reweighting by a potential preserves total path
weights once the potential is normalized to vanish at the start state. -/

theorem pushStates_getElem (V : Nat → Int) :
    ∀ (sts : List AState) (p j : Nat), (pushStates V p sts)[j]? =
      (sts[j]?).map (fun st =>
        ⟨st.fin.map (fun ρ => ρ - V (p + j)),
          st.arcs.map (fun a => ⟨a.il, a.ol, a.wt - V (p + j) + V a.dst, a.dst⟩)⟩) := by
  intro sts
  induction sts with
  | nil => intro p j; simp [pushStates]
  | cons st sts' ih =>
    intro p j
    cases j with
    | zero => simp [pushStates]
    | succ j' =>
      simp only [pushStates, List.getElem?_cons_succ, ih (p + 1) j']
      have : p + 1 + j' = p + (j' + 1) := by omega
      rw [this]

theorem arcsOf_pushWith (V : Nat → Int) (M : Automaton) (q : Nat) :
    arcsOf (pushWith V M) q =
      (arcsOf M q).map (fun a => ⟨a.il, a.ol, a.wt - V q + V a.dst, a.dst⟩) := by
  unfold arcsOf pushWith
  rw [show (Automaton.mk M.start (pushStates V 0 M.states)).states =
    pushStates V 0 M.states from rfl, pushStates_getElem V M.states 0 q]
  cases hst : M.states[q]? with
  | none => simp
  | some st => simp [Nat.zero_add]

theorem finalOf_pushWith (V : Nat → Int) (M : Automaton) (q : Nat) :
    finalOf (pushWith V M) q = (finalOf M q).map (fun ρ => ρ - V q) := by
  unfold finalOf pushWith
  rw [show (Automaton.mk M.start (pushStates V 0 M.states)).states =
    pushStates V 0 M.states from rfl, pushStates_getElem V M.states 0 q]
  cases hst : M.states[q]? with
  | none => simp
  | some st => simp [Nat.zero_add]

theorem ils_rwPath (V : Nat → Int) : ∀ (as : List Arc) (q : Nat), ils (rwPath V q as) = ils as := by
  intro as
  induction as with
  | nil => intro q; rfl
  | cons a as' ih =>
    intro q
    simp only [rwPath, ils, List.map_cons]
    exact congrArg (a.il :: .) (ih a.dst)

theorem ols_rwPath (V : Nat → Int) : ∀ (as : List Arc) (q : Nat), ols (rwPath V q as) = ols as := by
  intro as
  induction as with
  | nil => intro q; rfl
  | cons a as' ih =>
    intro q
    simp only [rwPath, ols, List.map_cons]
    exact congrArg (a.ol :: .) (ih a.dst)

theorem push_path_fwd (V : Nat → Int) {M : Automaton} {q e : Nat} {as : List Arc}
    (h : PathFrom M q as e) :
    PathFrom (pushWith V M) q (rwPath V q as) e ∧
      pathWt (rwPath V q as) = pathWt as - V q + V e := by
  induction h with
  | nil p => exact ⟨PathFrom.nil p, by simp [rwPath, pathWt]⟩
  | @cons a as' q r hmem hrest ih =>
    refine ⟨PathFrom.cons ?_ ih.1, ?_⟩
    · rw [arcsOf_pushWith]
      exact List.mem_map.mpr ⟨a, hmem, rfl⟩
    · simp only [rwPath, pathWt_cons, ih.2]
      ring

theorem push_path_bwd (V : Nat → Int) {M : Automaton} {q e : Nat} {cs : List Arc}
    (h : PathFrom (pushWith V M) q cs e) :
    ∃ as, PathFrom M q as e ∧ cs = rwPath V q as := by
  induction cs generalizing q with
  | nil =>
    have he := pathFrom_nil_iff.mp h
    subst he
    exact ⟨[], PathFrom.nil _, rfl⟩
  | cons c cs' ih =>
    rcases pathFrom_cons_iff.mp h with ⟨hmem, hrest⟩
    rw [arcsOf_pushWith] at hmem
    rcases List.mem_map.mp hmem with ⟨a, ha, rfl⟩
    rcases ih hrest with ⟨as', has', rfl⟩
    exact ⟨a :: as', PathFrom.cons ha has', rfl⟩

/-- Claim C4: weight pushing, in either direction, preserves the accepted
(input, output, weight) triples — the total `⊗`-weight of every accepting
path of every accepted string is unchanged. -/
theorem push_preserves (dir : PushDir) (M : Automaton) (x y : List Nat) (w : Int) :
    AcceptsTriple (push dir M) x y w ↔ AcceptsTriple M x y w := by
  unfold push
  constructor
  · rintro ⟨s, cs, q, ρ', hs, hpath, hfin, hx, hy, hw⟩
    have hs' : M.start = some s := hs
    have hV : normPotential dir M s = 0 := by
      unfold normPotential
      rw [show M.start.getD 0 = s from by rw [hs']; rfl, sub_self]
    rcases push_path_bwd _ hpath with ⟨as, has, rfl⟩
    rw [finalOf_pushWith] at hfin
    cases hρ : finalOf M q with
    | none => rw [hρ] at hfin; cases hfin
    | some ρ =>
      rw [hρ, Option.map_some'] at hfin
      have hρ' : ρ' = ρ - normPotential dir M q := (Option.some.injEq _ _).mp hfin.symm
      refine ⟨s, as, q, ρ, hs', has, hρ, ?_, ?_, ?_⟩
      · rw [← hx, ils_rwPath]
      · rw [← hy, ols_rwPath]
      · have hwt := (push_path_fwd (normPotential dir M) has).2
        rw [← hw, hwt, hρ', hV]
        ring
  · rintro ⟨s, as, q, ρ, hs, hpath, hfin, hx, hy, hw⟩
    have hV : normPotential dir M s = 0 := by
      unfold normPotential
      rw [show M.start.getD 0 = s from by rw [hs]; rfl, sub_self]
    rcases push_path_fwd (normPotential dir M) hpath with ⟨hpath', hwt⟩
    refine ⟨s, rwPath (normPotential dir M) s as, q, ρ - normPotential dir M q, hs, hpath', ?_,
      ?_, ?_, ?_⟩
    · rw [finalOf_pushWith, hfin, Option.map_some']
    · rw [ils_rwPath, hx]
    · rw [ols_rwPath, hy]
    · rw [hwt, hV, ← hw]
      ring

/-- Claim C7: the string-map compiler rejects the empty collection with a
`CompileError`, and returns an automaton on every nonempty collection. -/
theorem compile_string_map_empty (T : TokenModel) :
    compile_string_map T [] = .error CompileError.emptyStringMap ∧
    ∀ (t : List Char × List Char × Int) (ts : List (List Char × List Char × Int)),
      ∃ M, compile_string_map T (t :: ts) = .ok M :=
  ⟨rfl, fun _ _ => ⟨_, rfl⟩⟩

/-! Composition: structural lemmas for the encoded product states. -/

theorem ite_some_none_eq {α : Type} {P : Prop} [Decidable P] {x c : α} :
    (if P then some x else none) = some c ↔ P ∧ x = c := by
  split_ifs with h <;> simp [h]

theorem mem_ite_nil {α : Type} {P : Prop} [Decidable P] {l : List α} {x : α} :
    (x ∈ if P then l else []) ↔ P ∧ x ∈ l := by
  split_ifs with h <;> simp [h]

theorem encSt_div3 {nB p q f : Nat} (hf : f < 3) : encSt nB p q f / 3 = p * nB + q := by
  unfold encSt
  omega

theorem encSt_mod3 {nB p q f : Nat} (hf : f < 3) : encSt nB p q f % 3 = f := by
  unfold encSt
  omega

theorem mulAdd_div {nB p q : Nat} (hq : q < nB) : (p * nB + q) / nB = p := by
  rw [Nat.add_comm, Nat.add_mul_div_right _ _ (Nat.pos_of_lt_add_right (Nat.lt_of_lt_of_le hq (Nat.le_add_left _ _)))]
  · rw [Nat.div_eq_of_lt hq, Nat.zero_add]

theorem mulAdd_mod {nB p q : Nat} (hq : q < nB) : (p * nB + q) % nB = q := by
  rw [Nat.add_comm, Nat.add_mul_mod_self_right, Nat.mod_eq_of_lt hq]

theorem encSt_lt {nA nB p q f : Nat} (hp : p < nA) (hq : q < nB) (hf : f < 3) :
    encSt nB p q f < nA * nB * 3 := by
  unfold encSt
  have h1 : p * nB + q < nA * nB := by
    calc p * nB + q < p * nB + nB := by omega
    _ = (p + 1) * nB := by ring
    _ ≤ nA * nB := Nat.mul_le_mul_right _ (by omega)
  calc (p * nB + q) * 3 + f < (p * nB + q) * 3 + 3 := by omega
  _ = (p * nB + q + 1) * 3 := by ring
  _ ≤ nA * nB * 3 := Nat.mul_le_mul_right _ (by omega)

theorem finalOf_lt {M : Automaton} {q : Nat} {ρ : Int} (h : finalOf M q = some ρ) :
    q < M.states.length := by
  by_contra hge
  unfold finalOf at h
  rw [List.getElem?_eq_none (Nat.le_of_not_lt hge)] at h
  simp at h

theorem WF_dst_lt {M : Automaton} {q : Nat} {a : Arc} (hW : WF M) (ha : a ∈ arcsOf M q) :
    a.dst < M.states.length := by
  rcases mem_arcsOf ha with ⟨st, hst, hast⟩
  exact hW.1 st hst a hast

theorem WF_start_lt {M : Automaton} {s : Nat} (hW : WF M) (hs : M.start = some s) :
    s < M.states.length :=
  hW.2 s (by simp [hs])

theorem compose_eq {A B : Automaton} {sa sb : Nat} (ha : A.start = some sa)
    (hb : B.start = some sb) :
    compose A B = ⟨some (encSt B.states.length sa sb 0),
      (List.range (A.states.length * B.states.length * 3)).map (fun i =>
        ⟨composeFin A B (i / 3 / B.states.length) (i / 3 % B.states.length),
          composeArcsAt A B (i / 3 / B.states.length) (i / 3 % B.states.length) (i % 3)⟩)⟩ := by
  unfold compose
  rw [ha, hb]

theorem compose_getElem {A B : Automaton} {sa sb : Nat} (ha : A.start = some sa)
    (hb : B.start = some sb) {p q f : Nat} (hp : p < A.states.length)
    (hq : q < B.states.length) (hf : f < 3) :
    (compose A B).states[encSt B.states.length p q f]? =
      some ⟨composeFin A B p q, composeArcsAt A B p q f⟩ := by
  rw [compose_eq ha hb]
  rw [show (Automaton.mk (some (encSt B.states.length sa sb 0))
      ((List.range (A.states.length * B.states.length * 3)).map (fun i =>
        ⟨composeFin A B (i / 3 / B.states.length) (i / 3 % B.states.length),
          composeArcsAt A B (i / 3 / B.states.length) (i / 3 % B.states.length) (i % 3)⟩))).states =
      (List.range (A.states.length * B.states.length * 3)).map (fun i =>
        ⟨composeFin A B (i / 3 / B.states.length) (i / 3 % B.states.length),
          composeArcsAt A B (i / 3 / B.states.length) (i / 3 % B.states.length) (i % 3)⟩)
    from rfl]
  rw [List.getElem?_map, List.getElem?_range (encSt_lt hp hq hf)]
  simp only [Option.map_some']
  rw [encSt_div3 hf, encSt_mod3 hf, mulAdd_div hq, mulAdd_mod hq]

theorem arcsOf_compose {A B : Automaton} {sa sb : Nat} (ha : A.start = some sa)
    (hb : B.start = some sb) {p q f : Nat} (hp : p < A.states.length)
    (hq : q < B.states.length) (hf : f < 3) :
    arcsOf (compose A B) (encSt B.states.length p q f) = composeArcsAt A B p q f := by
  unfold arcsOf
  rw [compose_getElem ha hb hp hq hf]
  rfl

theorem finalOf_compose {A B : Automaton} {sa sb : Nat} (ha : A.start = some sa)
    (hb : B.start = some sb) {p q f : Nat} (hp : p < A.states.length)
    (hq : q < B.states.length) (hf : f < 3) :
    finalOf (compose A B) (encSt B.states.length p q f) = composeFin A B p q := by
  unfold finalOf
  rw [compose_getElem ha hb hp hq hf]
  rfl

theorem mem_composeArcsAt {A B : Automaton} {p q f : Nat} {c : Arc} :
    c ∈ composeArcsAt A B p q f ↔
      (∃ a ∈ arcsOf A p, ∃ b ∈ arcsOf B q,
        ((a.ol = b.il ∧ a.ol ≠ 0) ∨ (a.ol = 0 ∧ b.il = 0 ∧ f = 0)) ∧
        c = ⟨a.il, b.ol, a.wt + b.wt, encSt B.states.length a.dst b.dst 0⟩) ∨
      ((f = 0 ∨ f = 1) ∧ ∃ a ∈ arcsOf A p, a.ol = 0 ∧
        c = ⟨a.il, 0, a.wt, encSt B.states.length a.dst q 1⟩) ∨
      ((f = 0 ∨ f = 2) ∧ ∃ b ∈ arcsOf B q, b.il = 0 ∧
        c = ⟨0, b.ol, b.wt, encSt B.states.length p b.dst 2⟩) := by
  unfold composeArcsAt
  simp only [List.mem_append, List.mem_flatMap, List.mem_filterMap, mem_ite_nil,
    ite_some_none_eq]
  constructor
  · rintro ((⟨a, ha, b, hb, hcond, rfl⟩) | (⟨hfa, a, ha, hcond, rfl⟩) | (⟨hfb, b, hb, hcond, rfl⟩))
    · exact Or.inl ⟨a, ha, b, hb, hcond, rfl⟩
    · exact Or.inr (Or.inl ⟨hfa, a, ha, hcond, rfl⟩)
    · exact Or.inr (Or.inr ⟨hfb, b, hb, hcond, rfl⟩)
  · rintro ((⟨a, ha, b, hb, hcond, rfl⟩) | (⟨hfa, a, ha, hol, rfl⟩) | (⟨hfb, b, hb, hil, rfl⟩))
    · exact Or.inl ⟨a, ha, b, hb, hcond, rfl⟩
    · exact Or.inr (Or.inl ⟨hfa, a, ha, hol, rfl⟩)
    · exact Or.inr (Or.inr ⟨hfb, b, hb, hil, rfl⟩)

theorem strip_cons (v : Nat) (l : List Nat) :
    strip (v :: l) = if v = 0 then strip l else v :: strip l := by
  unfold strip
  by_cases hv : v = 0 <;> simp [hv, List.filter_cons]

theorem strip_cons_congr {l1 l2 : List Nat} (v : Nat) (h : strip l1 = strip l2) :
    strip (v :: l1) = strip (v :: l2) := by
  rw [strip_cons, strip_cons, h]

theorem strip_cons_eps {l : List Nat} {v : Nat} (hv : v = 0) : strip (v :: l) = strip l := by
  rw [strip_cons, if_pos hv]

theorem compose_path_sound {A B : Automaton} {sa sb : Nat}
    (hWA : WF A) (hWB : WF B) (ha : A.start = some sa) (hb : B.start = some sb) :
    ∀ {cs : List Arc} {p q f e : Nat},
      p < A.states.length → q < B.states.length → f < 3 →
      PathFrom (compose A B) (encSt B.states.length p q f) cs e →
      ∃ as bs p2 q2 f2, p2 < A.states.length ∧ q2 < B.states.length ∧ f2 < 3 ∧
        e = encSt B.states.length p2 q2 f2 ∧
        PathFrom A p as p2 ∧ PathFrom B q bs q2 ∧
        strip (ols as) = strip (ils bs) ∧
        strip (ils cs) = strip (ils as) ∧ strip (ols cs) = strip (ols bs) ∧
        pathWt cs = pathWt as + pathWt bs := by
  intro cs
  induction cs with
  | nil =>
    intro p q f e hp hq hf h
    have he := pathFrom_nil_iff.mp h
    subst he
    exact ⟨[], [], p, q, f, hp, hq, hf, rfl, PathFrom.nil p, PathFrom.nil q, rfl, rfl, rfl,
      by simp [pathWt]⟩
  | cons c cs' ih =>
    intro p q f e hp hq hf h
    rcases pathFrom_cons_iff.mp h with ⟨hmem, hrest⟩
    rw [arcsOf_compose ha hb hp hq hf] at hmem
    rcases mem_composeArcsAt.mp hmem with
      ⟨a, haA, b, hbB, hcond, rfl⟩ | ⟨hfa, a, haA, hol, rfl⟩ | ⟨hfb, b, hbB, hil, rfl⟩
    · have hpa : a.dst < A.states.length := WF_dst_lt hWA haA
      have hqb : b.dst < B.states.length := WF_dst_lt hWB hbB
      rcases ih hpa hqb (show (0 : Nat) < 3 by omega) hrest with
        ⟨as, bs, p2, q2, f2, h1, h2, h3, h4, h5, h6, hsync, hx, hy, hwt⟩
      refine ⟨a :: as, b :: bs, p2, q2, f2, h1, h2, h3, h4,
        PathFrom.cons haA h5, PathFrom.cons hbB h6, ?_, ?_, ?_, ?_⟩
      · rcases hcond with ⟨hab, hne⟩ | ⟨ha0, hb0, _⟩
        · calc strip (ols (a :: as)) = a.ol :: strip (ols as) := by
                rw [show ols (a :: as) = a.ol :: ols as from rfl, strip_cons, if_neg hne]
          _ = b.il :: strip (ils bs) := by rw [hab, hsync]
          _ = strip (ils (b :: bs)) := by
                rw [show ils (b :: bs) = b.il :: ils bs from rfl, strip_cons,
                  if_neg (hab ▸ hne)]
        · calc strip (ols (a :: as)) = strip (ols as) := strip_cons_eps ha0
          _ = strip (ils bs) := hsync
          _ = strip (ils (b :: bs)) := (strip_cons_eps hb0).symm
      · exact strip_cons_congr a.il hx
      · exact strip_cons_congr b.ol hy
      · rw [pathWt_cons, pathWt_cons, pathWt_cons, hwt]
        ring
    · have hpa : a.dst < A.states.length := WF_dst_lt hWA haA
      rcases ih hpa hq (show (1 : Nat) < 3 by omega) hrest with
        ⟨as, bs, p2, q2, f2, h1, h2, h3, h4, h5, h6, hsync, hx, hy, hwt⟩
      refine ⟨a :: as, bs, p2, q2, f2, h1, h2, h3, h4,
        PathFrom.cons haA h5, h6, ?_, ?_, ?_, ?_⟩
      · calc strip (ols (a :: as)) = strip (ols as) := strip_cons_eps hol
        _ = strip (ils bs) := hsync
      · exact strip_cons_congr a.il hx
      · calc strip (ols (Arc.mk a.il 0 a.wt (encSt B.states.length a.dst q 1) :: cs')) =
            strip (ols cs') := strip_cons_eps rfl
        _ = strip (ols bs) := hy
      · rw [pathWt_cons, pathWt_cons, hwt]
        ring
    · have hqb : b.dst < B.states.length := WF_dst_lt hWB hbB
      rcases ih hp hqb (show (2 : Nat) < 3 by omega) hrest with
        ⟨as, bs, p2, q2, f2, h1, h2, h3, h4, h5, h6, hsync, hx, hy, hwt⟩
      refine ⟨as, b :: bs, p2, q2, f2, h1, h2, h3, h4,
        h5, PathFrom.cons hbB h6, ?_, ?_, ?_, ?_⟩
      · calc strip (ols as) = strip (ils bs) := hsync
        _ = strip (ils (b :: bs)) := (strip_cons_eps hil).symm
      · calc strip (ils (Arc.mk 0 b.ol b.wt (encSt B.states.length p b.dst 2) :: cs')) =
            strip (ils cs') := strip_cons_eps rfl
        _ = strip (ils as) := hx
      · exact strip_cons_congr b.ol hy
      · rw [pathWt_cons, pathWt_cons, hwt]
        ring

theorem compose_path_complete {A B : Automaton} {sa sb : Nat}
    (hWA : WF A) (hWB : WF B) (ha : A.start = some sa) (hb : B.start = some sb) :
    ∀ (n : Nat) (as bs : List Arc) (p q p2 q2 f : Nat),
      as.length + bs.length ≤ n →
      p < A.states.length → q < B.states.length →
      PathFrom A p as p2 → PathFrom B q bs q2 →
      strip (ols as) = strip (ils bs) →
      (f = 0 ∨ (f = 1 ∧ ¬ headIlEps bs) ∨ (f = 2 ∧ ¬ headOlEps as)) →
      ∃ cs f2, f2 < 3 ∧
        PathFrom (compose A B) (encSt B.states.length p q f) cs
          (encSt B.states.length p2 q2 f2) ∧
        strip (ils cs) = strip (ils as) ∧ strip (ols cs) = strip (ols bs) ∧
        pathWt cs = pathWt as + pathWt bs := by
  intro n
  induction n with
  | zero =>
    intro as bs p q p2 q2 f hlen hp hq hA hB hsync hinv
    have has : as = [] := List.eq_nil_of_length_eq_zero (by omega)
    have hbs : bs = [] := List.eq_nil_of_length_eq_zero (by omega)
    subst has
    subst hbs
    have hp2 := pathFrom_nil_iff.mp hA
    have hq2 := pathFrom_nil_iff.mp hB
    subst hp2
    subst hq2
    have hf : f < 3 := by rcases hinv with rfl | ⟨rfl, _⟩ | ⟨rfl, _⟩ <;> omega
    exact ⟨[], f, hf, PathFrom.nil _, rfl, rfl, by simp [pathWt]⟩
  | succ n ih =>
    intro as bs p q p2 q2 f hlen hp hq hA hB hsync hinv
    cases as with
    | nil =>
      cases bs with
      | nil =>
        have hp2 := pathFrom_nil_iff.mp hA
        have hq2 := pathFrom_nil_iff.mp hB
        subst hp2
        subst hq2
        have hf : f < 3 := by rcases hinv with rfl | ⟨rfl, _⟩ | ⟨rfl, _⟩ <;> omega
        exact ⟨[], f, hf, PathFrom.nil _, rfl, rfl, by simp [pathWt]⟩
      | cons b bs' =>
        rcases pathFrom_cons_iff.mp hB with ⟨hbB, hBrest⟩
        by_cases hb0 : b.il = 0
        · have hf02 : f = 0 ∨ f = 2 := by
            rcases hinv with rfl | ⟨rfl, hno⟩ | ⟨rfl, _⟩
            · exact Or.inl rfl
            · exact absurd (show headIlEps (b :: bs') from hb0) hno
            · exact Or.inr rfl
          have hqb : b.dst < B.states.length := WF_dst_lt hWB hbB
          have hsync' : strip (ols ([] : List Arc)) = strip (ils bs') :=
            hsync.trans (strip_cons_eps hb0)
          rcases ih [] bs' p b.dst p2 q2 2
            (by simp only [List.length_cons, List.length_nil] at hlen ⊢; omega) hp hqb hA
            hBrest hsync' (Or.inr (Or.inr ⟨rfl, fun h => h⟩)) with
            ⟨cs, f2, hf2, hpath, hx, hy, hwt⟩
          refine ⟨⟨0, b.ol, b.wt, encSt B.states.length p b.dst 2⟩ :: cs, f2, hf2, ?_, ?_, ?_, ?_⟩
          · refine PathFrom.cons ?_ hpath
            rw [arcsOf_compose ha hb hp hq (by rcases hf02 with rfl | rfl <;> omega)]
            exact mem_composeArcsAt.mpr (Or.inr (Or.inr ⟨hf02, b, hbB, hb0, rfl⟩))
          · exact (strip_cons_eps rfl).trans hx
          · exact strip_cons_congr b.ol hy
          · simp only [pathWt_cons, hwt]
            ring
        · exfalso
          have h2 : strip (ils (b :: bs')) = b.il :: strip (ils bs') := by
            rw [show ils (b :: bs') = b.il :: ils bs' from rfl, strip_cons, if_neg hb0]
          rw [h2] at hsync
          exact List.cons_ne_nil _ _ hsync.symm
    | cons a as' =>
      rcases pathFrom_cons_iff.mp hA with ⟨haA, hArest⟩
      by_cases ha0 : a.ol = 0
      · cases bs with
        | nil =>
          have hf01 : f = 0 ∨ f = 1 := by
            rcases hinv with rfl | ⟨rfl, _⟩ | ⟨rfl, hno⟩
            · exact Or.inl rfl
            · exact Or.inr rfl
            · exact absurd (show headOlEps (a :: as') from ha0) hno
          have hpa : a.dst < A.states.length := WF_dst_lt hWA haA
          have hsync' : strip (ols as') = strip (ils ([] : List Arc)) :=
            (strip_cons_eps ha0).symm.trans hsync
          rcases ih as' [] a.dst q p2 q2 1
            (by simp only [List.length_cons, List.length_nil] at hlen ⊢; omega) hpa hq hArest
            hB hsync' (Or.inr (Or.inl ⟨rfl, fun h => h⟩)) with
            ⟨cs, f2, hf2, hpath, hx, hy, hwt⟩
          refine ⟨⟨a.il, 0, a.wt, encSt B.states.length a.dst q 1⟩ :: cs, f2, hf2, ?_, ?_, ?_, ?_⟩
          · refine PathFrom.cons ?_ hpath
            rw [arcsOf_compose ha hb hp hq (by rcases hf01 with rfl | rfl <;> omega)]
            exact mem_composeArcsAt.mpr (Or.inr (Or.inl ⟨hf01, a, haA, ha0, rfl⟩))
          · exact strip_cons_congr a.il hx
          · exact (strip_cons_eps rfl).trans hy
          · simp only [pathWt_cons, hwt]
            ring
        | cons b bs' =>
          by_cases hb0 : b.il = 0
          · have hf0 : f = 0 := by
              rcases hinv with rfl | ⟨rfl, hno⟩ | ⟨rfl, hno⟩
              · rfl
              · exact absurd (show headIlEps (b :: bs') from hb0) hno
              · exact absurd (show headOlEps (a :: as') from ha0) hno
            subst hf0
            rcases pathFrom_cons_iff.mp hB with ⟨hbB, hBrest⟩
            have hpa : a.dst < A.states.length := WF_dst_lt hWA haA
            have hqb : b.dst < B.states.length := WF_dst_lt hWB hbB
            have hsync' : strip (ols as') = strip (ils bs') :=
              ((strip_cons_eps ha0).symm.trans hsync).trans (strip_cons_eps hb0)
            rcases ih as' bs' a.dst b.dst p2 q2 0
              (by simp only [List.length_cons] at hlen ⊢; omega) hpa hqb hArest hBrest
              hsync' (Or.inl rfl) with ⟨cs, f2, hf2, hpath, hx, hy, hwt⟩
            refine ⟨⟨a.il, b.ol, a.wt + b.wt, encSt B.states.length a.dst b.dst 0⟩ :: cs,
              f2, hf2, ?_, ?_, ?_, ?_⟩
            · refine PathFrom.cons ?_ hpath
              rw [arcsOf_compose ha hb hp hq (by omega)]
              exact mem_composeArcsAt.mpr (Or.inl ⟨a, haA, b, hbB, Or.inr ⟨ha0, hb0, rfl⟩, rfl⟩)
            · exact strip_cons_congr a.il hx
            · exact strip_cons_congr b.ol hy
            · simp only [pathWt_cons, hwt]
              ring
          · have hf01 : f = 0 ∨ f = 1 := by
              rcases hinv with rfl | ⟨rfl, _⟩ | ⟨rfl, hno⟩
              · exact Or.inl rfl
              · exact Or.inr rfl
              · exact absurd (show headOlEps (a :: as') from ha0) hno
            have hpa : a.dst < A.states.length := WF_dst_lt hWA haA
            have hsync' : strip (ols as') = strip (ils (b :: bs')) :=
              (strip_cons_eps ha0).symm.trans hsync
            rcases ih as' (b :: bs') a.dst q p2 q2 1
              (by simp only [List.length_cons] at hlen ⊢; omega) hpa hq hArest hB hsync'
              (Or.inr (Or.inl ⟨rfl, fun h => hb0 h⟩)) with
              ⟨cs, f2, hf2, hpath, hx, hy, hwt⟩
            refine ⟨⟨a.il, 0, a.wt, encSt B.states.length a.dst q 1⟩ :: cs, f2, hf2,
              ?_, ?_, ?_, ?_⟩
            · refine PathFrom.cons ?_ hpath
              rw [arcsOf_compose ha hb hp hq (by rcases hf01 with rfl | rfl <;> omega)]
              exact mem_composeArcsAt.mpr (Or.inr (Or.inl ⟨hf01, a, haA, ha0, rfl⟩))
            · exact strip_cons_congr a.il hx
            · exact (strip_cons_eps rfl).trans hy
            · simp only [pathWt_cons, hwt]
              ring
      · cases bs with
        | nil =>
          exfalso
          have h1 : strip (ols (a :: as')) = a.ol :: strip (ols as') := by
            rw [show ols (a :: as') = a.ol :: ols as' from rfl, strip_cons, if_neg ha0]
          rw [h1] at hsync
          exact List.cons_ne_nil _ _ hsync
        | cons b bs' =>
          rcases pathFrom_cons_iff.mp hB with ⟨hbB, hBrest⟩
          by_cases hb0 : b.il = 0
          · have hf02 : f = 0 ∨ f = 2 := by
              rcases hinv with rfl | ⟨rfl, hno⟩ | ⟨rfl, _⟩
              · exact Or.inl rfl
              · exact absurd (show headIlEps (b :: bs') from hb0) hno
              · exact Or.inr rfl
            have hqb : b.dst < B.states.length := WF_dst_lt hWB hbB
            have hsync' : strip (ols (a :: as')) = strip (ils bs') :=
              hsync.trans (strip_cons_eps hb0)
            rcases ih (a :: as') bs' p b.dst p2 q2 2
              (by simp only [List.length_cons] at hlen ⊢; omega) hp hqb hA hBrest hsync'
              (Or.inr (Or.inr ⟨rfl, fun h => ha0 h⟩)) with
              ⟨cs, f2, hf2, hpath, hx, hy, hwt⟩
            refine ⟨⟨0, b.ol, b.wt, encSt B.states.length p b.dst 2⟩ :: cs, f2, hf2,
              ?_, ?_, ?_, ?_⟩
            · refine PathFrom.cons ?_ hpath
              rw [arcsOf_compose ha hb hp hq (by rcases hf02 with rfl | rfl <;> omega)]
              exact mem_composeArcsAt.mpr (Or.inr (Or.inr ⟨hf02, b, hbB, hb0, rfl⟩))
            · exact (strip_cons_eps rfl).trans hx
            · exact strip_cons_congr b.ol hy
            · simp only [pathWt_cons, hwt]
              ring
          · have hf3 : f < 3 := by rcases hinv with rfl | ⟨rfl, _⟩ | ⟨rfl, _⟩ <;> omega
            have h1 : strip (ols (a :: as')) = a.ol :: strip (ols as') := by
              rw [show ols (a :: as') = a.ol :: ols as' from rfl, strip_cons, if_neg ha0]
            have h2 : strip (ils (b :: bs')) = b.il :: strip (ils bs') := by
              rw [show ils (b :: bs') = b.il :: ils bs' from rfl, strip_cons, if_neg hb0]
            have hs : a.ol :: strip (ols as') = b.il :: strip (ils bs') :=
              h1.symm.trans (hsync.trans h2)
            have hab : a.ol = b.il := by injection hs
            have hsync' : strip (ols as') = strip (ils bs') := by injection hs with _ h
            rcases pathFrom_cons_iff.mp hB with ⟨hbB2, hBrest⟩
            have hpa : a.dst < A.states.length := WF_dst_lt hWA haA
            have hqb : b.dst < B.states.length := WF_dst_lt hWB hbB
            rcases ih as' bs' a.dst b.dst p2 q2 0
              (by simp only [List.length_cons] at hlen ⊢; omega) hpa hqb hArest hBrest
              hsync' (Or.inl rfl) with ⟨cs, f2, hf2, hpath, hx, hy, hwt⟩
            refine ⟨⟨a.il, b.ol, a.wt + b.wt, encSt B.states.length a.dst b.dst 0⟩ :: cs,
              f2, hf2, ?_, ?_, ?_, ?_⟩
            · refine PathFrom.cons ?_ hpath
              rw [arcsOf_compose ha hb hp hq hf3]
              exact mem_composeArcsAt.mpr (Or.inl ⟨a, haA, b, hbB, Or.inl ⟨hab, ha0⟩, rfl⟩)
            · exact strip_cons_congr a.il hx
            · exact strip_cons_congr b.ol hy
            · simp only [pathWt_cons, hwt]
              ring

theorem compose_none_left {A B : Automaton} (ha : A.start = none) :
    compose A B = ⟨none, []⟩ := by
  cases hbstart : B.start with
  | none => unfold compose; rw [ha, hbstart]
  | some sb => unfold compose; rw [ha, hbstart]

theorem compose_none_right {A B : Automaton} (hb : B.start = none) :
    compose A B = ⟨none, []⟩ := by
  cases hastart : A.start with
  | none => unfold compose; rw [hastart, hb]
  | some sa => unfold compose; rw [hastart, hb]

theorem compose_correct {A B : Automaton} (hWA : WF A) (hWB : WF B) (x z : List Nat) (w : Int) :
    AcceptsTriple (compose A B) x z w ↔
      ∃ y u v, AcceptsTriple A x y u ∧ AcceptsTriple B y z v ∧ w = u + v := by
  constructor
  · rintro ⟨s, cs, e, ρ, hs, hpath, hfin, hx, hz, hw⟩
    cases hastart : A.start with
    | none =>
      rw [compose_none_left hastart] at hs
      cases hs
    | some sa =>
      cases hbstart : B.start with
      | none =>
        rw [compose_none_right hbstart] at hs
        cases hs
      | some sb =>
        have hs2 : some (encSt B.states.length sa sb 0) = some s := by
          rw [compose_eq hastart hbstart] at hs
          exact hs
        have hs3 : encSt B.states.length sa sb 0 = s := by injection hs2
        subst hs3
        have hsa := WF_start_lt hWA hastart
        have hsb := WF_start_lt hWB hbstart
        rcases compose_path_sound hWA hWB hastart hbstart hsa hsb (by omega) hpath with
          ⟨as, bs, p2, q2, f2, h1, h2, h3, he, h5, h6, hsync, hxs, hys, hwt⟩
        subst he
        rw [finalOf_compose hastart hbstart h1 h2 h3] at hfin
        unfold composeFin at hfin
        cases hfa : finalOf A p2 with
        | none => simp [hfa] at hfin
        | some ρA =>
          cases hfb : finalOf B q2 with
          | none => simp [hfa, hfb] at hfin
          | some ρB =>
            simp only [hfa, hfb] at hfin
            have hρ : ρA + ρB = ρ := by injection hfin
            refine ⟨strip (ols as), pathWt as + ρA, pathWt bs + ρB,
              ⟨sa, as, p2, ρA, hastart, h5, hfa, ?_, rfl, rfl⟩,
              ⟨sb, bs, q2, ρB, hbstart, h6, hfb, ?_, ?_, rfl⟩, ?_⟩
            · exact hxs.symm.trans hx
            · exact hsync.symm
            · exact hys.symm.trans hz
            · rw [← hw, hwt, ← hρ]
              ring
  · rintro ⟨y, u, v, ⟨sa2, as, p2, ρA, hastart, hApath, hfa, hxa, hya, hua⟩,
      ⟨sb2, bs, q2, ρB, hbstart, hBpath, hfb, hxb, hyb, hvb⟩, rfl⟩
    have hsa := WF_start_lt hWA hastart
    have hsb := WF_start_lt hWB hbstart
    have hsync : strip (ols as) = strip (ils bs) := by rw [hya, hxb]
    rcases compose_path_complete hWA hWB hastart hbstart (as.length + bs.length) as bs
      sa2 sb2 p2 q2 0 le_rfl hsa hsb hApath hBpath hsync (Or.inl rfl) with
      ⟨cs, f2, hf2, hpath, hxs, hys, hwt⟩
    have hp2 : p2 < A.states.length := finalOf_lt hfa
    have hq2 : q2 < B.states.length := finalOf_lt hfb
    refine ⟨encSt B.states.length sa2 sb2 0, cs, encSt B.states.length p2 q2 f2, ρA + ρB,
      ?_, hpath, ?_, ?_, ?_, ?_⟩
    · rw [compose_eq hastart hbstart]
    · rw [finalOf_compose hastart hbstart hp2 hq2 hf2]
      unfold composeFin
      rw [hfa, hfb]
    · rw [hxs, hxa]
    · rw [hys, hyb]
    · rw [hwt, ← hua, ← hvb]
      ring

theorem WF_compose {A B : Automaton} (hWA : WF A) (hWB : WF B) : WF (compose A B) := by
  cases hastart : A.start with
  | none =>
    rw [compose_none_left hastart]
    exact ⟨fun st h => absurd h (List.not_mem_nil st), fun s h => by simp at h⟩
  | some sa =>
    cases hbstart : B.start with
    | none =>
      rw [compose_none_right hbstart]
      exact ⟨fun st h => absurd h (List.not_mem_nil st), fun s h => by simp at h⟩
    | some sb =>
      rw [compose_eq hastart hbstart]
      have hsa := WF_start_lt hWA hastart
      have hsb := WF_start_lt hWB hbstart
      constructor
      · intro st hst a hac
        rcases List.mem_map.mp hst with ⟨i, hi, rfl⟩
        have hiR := List.mem_range.mp hi
        have hnB : 0 < B.states.length := by
          rcases Nat.eq_zero_or_pos B.states.length with h0 | h
          · rw [h0] at hiR
            simp at hiR
          · exact h
        have hq : i / 3 % B.states.length < B.states.length := Nat.mod_lt _ hnB
        have hp : i / 3 / B.states.length < A.states.length := by
          have h1 : i / 3 < A.states.length * B.states.length :=
            Nat.div_lt_of_lt_mul (by rw [Nat.mul_comm]; exact hiR)
          exact Nat.div_lt_of_lt_mul (by rw [Nat.mul_comm]; exact h1)
        have hlen : ((List.range (A.states.length * B.states.length * 3)).map (fun i =>
            (⟨composeFin A B (i / 3 / B.states.length) (i / 3 % B.states.length),
              composeArcsAt A B (i / 3 / B.states.length) (i / 3 % B.states.length)
                (i % 3)⟩ : AState))).length = A.states.length * B.states.length * 3 := by
          simp
        rw [show (Automaton.mk (some (encSt B.states.length sa sb 0))
            ((List.range (A.states.length * B.states.length * 3)).map (fun i =>
              ⟨composeFin A B (i / 3 / B.states.length) (i / 3 % B.states.length),
                composeArcsAt A B (i / 3 / B.states.length) (i / 3 % B.states.length)
                  (i % 3)⟩))).states =
            (List.range (A.states.length * B.states.length * 3)).map (fun i =>
              ⟨composeFin A B (i / 3 / B.states.length) (i / 3 % B.states.length),
                composeArcsAt A B (i / 3 / B.states.length) (i / 3 % B.states.length)
                  (i % 3)⟩) from rfl, hlen]
        rcases mem_composeArcsAt.mp hac with
          ⟨a1, ha1, b1, hb1, _, rfl⟩ | ⟨_, a1, ha1, _, rfl⟩ | ⟨_, b1, hb1, _, rfl⟩
        · exact encSt_lt (WF_dst_lt hWA ha1) (WF_dst_lt hWB hb1) (by omega)
        · exact encSt_lt (WF_dst_lt hWA ha1) hq (by omega)
        · exact encSt_lt hp (WF_dst_lt hWB hb1) (by omega)
      · intro s hs
        rcases List.mem_singleton.mp (by simpa using hs) with rfl
        simpa using encSt_lt hsa hsb (show (0 : Nat) < 3 by omega)

/-- Claim C5: composition is associative on accepted weighted relations —
for all well-formed transducers, the two associations accept exactly the
same (input, output, weight) triples. -/
theorem compose_assoc (A B C : Automaton) (hWA : WF A) (hWB : WF B) (hWC : WF C)
    (x t : List Nat) (w : Int) :
    AcceptsTriple (compose (compose A B) C) x t w ↔
      AcceptsTriple (compose A (compose B C)) x t w := by
  rw [compose_correct (WF_compose hWA hWB) hWC x t w,
    compose_correct hWA (WF_compose hWB hWC) x t w]
  constructor
  · rintro ⟨y, u, v, hAB, hC, rfl⟩
    rcases (compose_correct hWA hWB _ _ _).mp hAB with ⟨m, u1, u2, hA, hB, rfl⟩
    exact ⟨m, u1, u2 + v, hA,
      (compose_correct hWB hWC _ _ _).mpr ⟨y, u2, v, hB, hC, rfl⟩, by ring⟩
  · rintro ⟨m, u, k, hA, hBC, rfl⟩
    rcases (compose_correct hWB hWC _ _ _).mp hBC with ⟨y, v1, v2, hB, hC, rfl⟩
    exact ⟨y, u + v1, v2,
      (compose_correct hWA hWB _ _ _).mpr ⟨m, u, v1, hA, hB, rfl⟩, hC, by ring⟩

theorem infree_arcs {M : Automaton} (hfree : InFree M) {q : Nat} {a : Arc}
    (ha : a ∈ arcsOf M q) : a.il ≠ 0 := by
  rcases mem_arcsOf ha with ⟨st, hst, hast⟩
  exact hfree st hst a hast

theorem strip_ils_len {M : Automaton} (hfree : InFree M) {p e : Nat} {as : List Arc}
    (h : PathFrom M p as e) : (strip (ils as)).length = as.length := by
  induction h with
  | nil _ => rfl
  | @cons a as q r hmem hrest ih =>
    rw [show ils (a :: as) = a.il :: ils as from rfl, strip_cons,
      if_neg (infree_arcs hfree hmem)]
    simp [ih]

theorem triplesUpTo_sound {M : Automaton} {fuel : Nat} {t : List Nat × List Nat × Int}
    (h : t ∈ triplesUpTo M fuel) : AcceptsTriple M t.1 t.2.1 t.2.2 := by
  unfold triplesUpTo at h
  cases hs : M.start with
  | none => simp [hs] at h
  | some s =>
    simp only [hs] at h
    rcases List.mem_filterMap.mp h with ⟨pe, hpe, hmap⟩
    cases hfin : finalOf M pe.2 with
    | none => rw [hfin] at hmap; cases hmap
    | some ρ =>
      rw [hfin, Option.map_some'] at hmap
      have ht : (strip (ils pe.1), strip (ols pe.1), pathWt pe.1 + ρ) = t := by
        injection hmap
      subst ht
      exact ⟨s, pe.1, pe.2, ρ, hs, pathsFrom_sound hpe, hfin, rfl, rfl, rfl⟩

theorem acceptsTriple_mem_triplesUpTo {M : Automaton} (hfree : InFree M) {x y : List Nat}
    {w : Int} {fuel : Nat} (h : AcceptsTriple M x y w) (hlen : x.length ≤ fuel) :
    (x, y, w) ∈ triplesUpTo M fuel := by
  rcases h with ⟨s, as, q, ρ, hs, hpath, hfin, hx, hy, hw⟩
  unfold triplesUpTo
  simp only [hs]
  refine List.mem_filterMap.mpr ⟨(as, q), pathsFrom_complete hpath ?_, ?_⟩
  · have hl := strip_ils_len hfree hpath
    rw [hx] at hl
    omega
  · simp [hfin, hx, hy, hw]

set_option maxRecDepth 16000 in
theorem rule_rel_xay (y : List Nat) (v : Int) :
    AcceptsTriple ruleABxy [121, 98, 122] y v ↔ y = [121, 99, 122] ∧ v = 0 := by
  constructor
  · intro h
    have hmem : (([121, 98, 122], y, v) : List Nat × List Nat × Int) ∈
        triplesUpTo ruleABxy 3 :=
      acceptsTriple_mem_triplesUpTo (by unfold InFree; decide) h (by decide)
    have hdec : ∀ t ∈ triplesUpTo ruleABxy 3, t.1 = [121, 98, 122] →
        t.2.1 = [121, 99, 122] ∧ t.2.2 = 0 := by decide
    exact hdec _ hmem rfl
  · rintro ⟨rfl, rfl⟩
    have hmem : (([121, 98, 122], [121, 99, 122], (0 : Int)) :
        List Nat × List Nat × Int) ∈ triplesUpTo ruleABxy 3 := by decide
    exact triplesUpTo_sound hmem

set_option maxRecDepth 16000 in
theorem rule_rel_xaz (y : List Nat) (v : Int) :
    AcceptsTriple ruleABxy [121, 98, 123] y v ↔ y = [121, 98, 123] ∧ v = 0 := by
  constructor
  · intro h
    have hmem : (([121, 98, 123], y, v) : List Nat × List Nat × Int) ∈
        triplesUpTo ruleABxy 3 :=
      acceptsTriple_mem_triplesUpTo (by unfold InFree; decide) h (by decide)
    have hdec : ∀ t ∈ triplesUpTo ruleABxy 3, t.1 = [121, 98, 123] →
        t.2.1 = [121, 98, 123] ∧ t.2.2 = 0 := by decide
    exact hdec _ hmem rfl
  · rintro ⟨rfl, rfl⟩
    have hmem : (([121, 98, 123], [121, 98, 123], (0 : Int)) :
        List Nat × List Nat × Int) ∈ triplesUpTo ruleABxy 3 := by decide
    exact triplesUpTo_sound hmem

/-- Claim C6: the obligatory rule `a → b / x _ y` applied (by composition)
to the acceptor of `"xay"` relates it exactly to `"xby"` with weight the
multiplicative identity, and applied to `"xaz"` (wrong right context)
relates it exactly to `"xaz"` unchanged — labels are the symbol-table
model's: `x, a, y, z, b ↦ 121, 98, 122, 123, 99`. -/
theorem rewrite_rule_scenario :
    (∀ x y w, AcceptsTriple
        (compose (compile_string symbolTableModel ['x', 'a', 'y']) ruleABxy) x y w ↔
      x = [121, 98, 122] ∧ y = [121, 99, 122] ∧ w = 0) ∧
    (∀ x y w, AcceptsTriple
        (compose (compile_string symbolTableModel ['x', 'a', 'z']) ruleABxy) x y w ↔
      x = [121, 98, 123] ∧ y = [121, 98, 123] ∧ w = 0) := by
  have hWT : WF ruleABxy := by unfold WF; decide
  have hstrip1 : strip [121, 98, 122] = [121, 98, 122] := by decide
  have hstrip2 : strip [121, 98, 123] = [121, 98, 123] := by decide
  constructor
  · intro x y w
    have hc : compile_string symbolTableModel ['x', 'a', 'y'] =
        chainAcceptor [121, 98, 122] := by decide
    rw [hc, compose_correct (show WF (chainAcceptor [121, 98, 122]) by unfold WF; decide)
      hWT x y w]
    constructor
    · rintro ⟨m, u, v, hchain, hT, rfl⟩
      rcases (chain_accepts_iff _ _ _ _).mp hchain with ⟨rfl, rfl, rfl⟩
      rw [hstrip1] at hT
      rcases (rule_rel_xay y v).mp hT with ⟨rfl, rfl⟩
      exact ⟨hstrip1, rfl, by ring⟩
    · rintro ⟨rfl, rfl, rfl⟩
      refine ⟨[121, 98, 122], 0, 0, ?_, ?_, by ring⟩
      · exact (chain_accepts_iff _ _ _ _).mpr ⟨hstrip1.symm, hstrip1.symm, rfl⟩
      · exact (rule_rel_xay _ _).mpr ⟨rfl, rfl⟩
  · intro x y w
    have hc : compile_string symbolTableModel ['x', 'a', 'z'] =
        chainAcceptor [121, 98, 123] := by decide
    rw [hc, compose_correct (show WF (chainAcceptor [121, 98, 123]) by unfold WF; decide)
      hWT x y w]
    constructor
    · rintro ⟨m, u, v, hchain, hT, rfl⟩
      rcases (chain_accepts_iff _ _ _ _).mp hchain with ⟨rfl, rfl, rfl⟩
      rw [hstrip2] at hT
      rcases (rule_rel_xaz y v).mp hT with ⟨rfl, rfl⟩
      exact ⟨hstrip2, rfl, by ring⟩
    · rintro ⟨rfl, rfl, rfl⟩
      refine ⟨[121, 98, 123], 0, 0, ?_, ?_, by ring⟩
      · exact (chain_accepts_iff _ _ _ _).mpr ⟨hstrip2.symm, hstrip2.symm, rfl⟩
      · exact (rule_rel_xaz _ _).mpr ⟨rfl, rfl⟩

/-- Witness for C5 at concrete well-formed automatons. -/
theorem compose_assoc_witness :
    AcceptsTriple (compose (compose ⟨some 0, [⟨some 0, []⟩]⟩ ⟨some 0, [⟨some 0, []⟩]⟩)
        ⟨some 0, [⟨some 0, []⟩]⟩) [] [] 0 ↔
      AcceptsTriple (compose ⟨some 0, [⟨some 0, []⟩]⟩
        (compose ⟨some 0, [⟨some 0, []⟩]⟩ ⟨some 0, [⟨some 0, []⟩]⟩)) [] [] 0 :=
  compose_assoc _ _ _ (by unfold WF; refine ⟨?_, ?_⟩ <;> decide)
    (by unfold WF; refine ⟨?_, ?_⟩ <;> decide)
    (by unfold WF; refine ⟨?_, ?_⟩ <;> decide) [] [] 0

/-! Epsilon removal: the tropical collection over optional weights. -/

theorem optMin_some_cases {a b : Option Int} {v : Int} (h : optMin a b = some v) :
    a = some v ∨ b = some v := by
  cases a with
  | none => exact Or.inr h
  | some x =>
    cases b with
    | none => exact Or.inl h
    | some y =>
      have hv : min x y = v := by injection h
      rcases min_choice x y with hm | hm
      · exact Or.inl (by rw [← hv, hm])
      · exact Or.inr (by rw [← hv, hm])

theorem optMin_le_left {a b : Option Int} {v x : Int} (h : optMin a b = some v)
    (ha : a = some x) : v ≤ x := by
  subst ha
  cases b with
  | none => injection h with h2; exact le_of_eq h2.symm
  | some y => injection h with h2; rw [← h2]; exact min_le_left x y

theorem optMin_le_right {a b : Option Int} {v x : Int} (h : optMin a b = some v)
    (hb : b = some x) : v ≤ x := by
  subst hb
  cases a with
  | none => injection h with h2; exact le_of_eq h2.symm
  | some y => injection h with h2; rw [← h2]; exact min_le_right y x

theorem optMin_some_left {x : Int} (b : Option Int) : ∃ v, optMin (some x) b = some v := by
  cases b with
  | none => exact ⟨x, rfl⟩
  | some y => exact ⟨min x y, rfl⟩

theorem optMin_some_right (a : Option Int) {x : Int} : ∃ v, optMin a (some x) = some v := by
  cases a with
  | none => exact ⟨x, rfl⟩
  | some y => exact ⟨min y x, rfl⟩

theorem foldl_optMin_mem : ∀ (l : List (Option Int)) (acc : Option Int) (v : Int),
    l.foldl optMin acc = some v → acc = some v ∨ some v ∈ l := by
  intro l
  induction l with
  | nil => intro acc v h; exact Or.inl h
  | cons o l' ih =>
    intro acc v h
    simp only [List.foldl_cons] at h
    rcases ih (optMin acc o) v h with h2 | h2
    · rcases optMin_some_cases h2 with h3 | h3
      · exact Or.inl h3
      · exact Or.inr (List.mem_cons.mpr (Or.inl h3.symm))
    · exact Or.inr (List.mem_cons_of_mem _ h2)

theorem foldl_optMin_le : ∀ (l : List (Option Int)) (acc : Option Int) (v : Int),
    l.foldl optMin acc = some v →
    (∀ t, acc = some t → v ≤ t) ∧ (∀ t, some t ∈ l → v ≤ t) := by
  intro l
  induction l with
  | nil =>
    intro acc v h
    simp only [List.foldl_nil] at h
    refine ⟨fun t ht => ?_, fun t ht => absurd ht (List.not_mem_nil _)⟩
    rw [h] at ht
    injection ht with h2
    exact le_of_eq h2
  | cons o l' ih =>
    intro acc v h
    simp only [List.foldl_cons] at h
    rcases ih _ _ h with ⟨hacc, hl⟩
    constructor
    · intro t ht
      cases o with
      | none => exact hacc t (by rw [ht]; rfl)
      | some b =>
        have hle := hacc (min t b) (by rw [ht]; rfl)
        exact le_trans hle (min_le_left t b)
    · intro t ht
      rcases List.mem_cons.mp ht with h2 | h2
      · cases acc with
        | none => exact hacc t (by rw [← h2]; rfl)
        | some a2 =>
          have hle := hacc (min a2 t) (by rw [← h2]; rfl)
          exact le_trans hle (min_le_right a2 t)
      · exact hl t h2

theorem foldl_optMin_some : ∀ (l : List (Option Int)) (acc : Option Int),
    ((∃ x, acc = some x) ∨ (∃ t, some t ∈ l)) → ∃ v, l.foldl optMin acc = some v := by
  intro l
  induction l with
  | nil =>
    intro acc h
    rcases h with ⟨x, hx⟩ | ⟨t, ht⟩
    · exact ⟨x, by simpa using hx⟩
    · exact absurd ht (List.not_mem_nil _)
  | cons o l' ih =>
    intro acc h
    simp only [List.foldl_cons]
    rcases h with ⟨x, rfl⟩ | ⟨t, ht⟩
    · rcases optMin_some_left (x := x) o with ⟨u, hu⟩
      exact ih _ (Or.inl ⟨u, hu⟩)
    · rcases List.mem_cons.mp ht with h2 | h2
      · rcases optMin_some_right acc (x := t) with ⟨u, hu⟩
        exact ih _ (Or.inl ⟨u, by rw [← h2]; exact hu⟩)
      · exact ih _ (Or.inr ⟨t, h2⟩)

theorem minList_mem {l : List (Option Int)} {v : Int} (h : minList l = some v) :
    some v ∈ l := by
  rcases foldl_optMin_mem l none v h with h2 | h2
  · cases h2
  · exact h2

theorem minList_le {l : List (Option Int)} {v : Int} (h : minList l = some v) :
    ∀ t, some t ∈ l → v ≤ t :=
  (foldl_optMin_le l none v h).2

theorem minList_some {l : List (Option Int)} {t : Int} (h : some t ∈ l) :
    ∃ v, minList l = some v :=
  foldl_optMin_some l none (Or.inr ⟨t, h⟩)

/-! Epsilon removal: structural facts about the epsilon subgraph. -/

theorem epsSub_length (M : Automaton) : (epsSub M).states.length = M.states.length := by
  simp [epsSub]

theorem arcsOf_epsSub (M : Automaton) (q : Nat) :
    arcsOf (epsSub M) q = (arcsOf M q).filter isEps := by
  unfold arcsOf epsSub
  rw [show (Automaton.mk M.start (M.states.map (fun st => ⟨st.fin, st.arcs.filter isEps⟩))).states
    = M.states.map (fun st => (⟨st.fin, st.arcs.filter isEps⟩ : AState)) from rfl]
  rw [List.getElem?_map]
  cases M.states[q]? with
  | none => rfl
  | some st => rfl

theorem arcs_nonempty_lt {M : Automaton} {q : Nat} (h : arcsOf M q ≠ []) :
    q < M.states.length := by
  by_contra hge
  unfold arcsOf at h
  rw [List.getElem?_eq_none (Nat.le_of_not_lt hge)] at h
  simp at h

theorem isEps_labels {a : Arc} (h : isEps a = true) : a.il = 0 ∧ a.ol = 0 := by
  unfold isEps at h
  simp at h
  exact h

theorem epsSub_path_to_orig {M : Automaton} {p q : Nat} {es : List Arc}
    (h : PathFrom (epsSub M) p es q) :
    PathFrom M p es q ∧ ∀ a ∈ es, isEps a = true := by
  induction h with
  | nil r => exact ⟨PathFrom.nil r, by simp⟩
  | @cons a as r r2 hmem hrest ih =>
    rw [arcsOf_epsSub] at hmem
    rcases List.mem_filter.mp hmem with ⟨hmem2, heps⟩
    refine ⟨PathFrom.cons hmem2 ih.1, ?_⟩
    intro a2 ha2
    rcases List.mem_cons.mp ha2 with rfl | h2
    · exact heps
    · exact ih.2 a2 h2

theorem orig_path_to_epsSub {M : Automaton} {p q : Nat} {es : List Arc}
    (h : PathFrom M p es q) (heps : ∀ a ∈ es, isEps a = true) :
    PathFrom (epsSub M) p es q := by
  induction h with
  | nil r => exact PathFrom.nil r
  | @cons a as r r2 hmem hrest ih =>
    refine PathFrom.cons ?_ (ih (fun a2 h2 => heps a2 (List.mem_cons_of_mem _ h2)))
    rw [arcsOf_epsSub]
    exact List.mem_filter.mpr ⟨hmem, heps a (List.mem_cons_self _ _)⟩

theorem strip_eps_run {es : List Arc} (heps : ∀ a ∈ es, isEps a = true) :
    strip (ils es) = [] ∧ strip (ols es) = [] := by
  constructor <;> [skip; skip] <;>
    · refine List.filter_eq_nil_iff.mpr ?_
      intro l hl
      rcases List.mem_map.mp hl with ⟨a, ha, rfl⟩
      simp [(isEps_labels (heps a ha)).1, (isEps_labels (heps a ha)).2]

theorem wfB_iff (M : Automaton) : wfB M = true ↔ WF M := by
  unfold wfB WF
  rw [Bool.and_eq_true, List.all_eq_true]
  constructor
  · rintro ⟨h1, h2⟩
    constructor
    · intro st hst a ha
      have := h1 st hst
      rw [List.all_eq_true] at this
      simpa using this a ha
    · intro s hs
      cases hstart : M.start with
      | none => rw [hstart] at hs; cases hs
      | some s2 =>
        rw [hstart] at hs
        rcases List.mem_singleton.mp (by simpa using hs) with rfl
        rw [hstart] at h2
        simpa using h2
  · rintro ⟨h1, h2⟩
    constructor
    · intro st hst
      rw [List.all_eq_true]
      intro a ha
      simpa using h1 st hst a ha
    · cases hstart : M.start with
      | none => rfl
      | some s2 =>
        have := h2 s2 (by simp [hstart])
        simpa using this

/-! Correctness of the bounded weighted epsilon-closure `epsDist`. -/

theorem mem_epsArcPairs {M : Automaton} {r : Nat} {a : Arc} :
    (r, a) ∈ epsArcPairs M ↔ r < M.states.length ∧ a ∈ arcsOf (epsSub M) r := by
  unfold epsArcPairs epsArcPairs.epsArcsOf
  simp only [List.mem_flatMap, List.mem_map, List.mem_range]
  constructor
  · rintro ⟨r2, hr2, a2, ha2, heq⟩
    have hr : r2 = r := congrArg Prod.fst heq
    have haa : a2 = a := congrArg Prod.snd heq
    subst hr
    subst haa
    exact ⟨hr2, by rw [arcsOf_epsSub]; exact ha2⟩
  · rintro ⟨hr, ha⟩
    rw [arcsOf_epsSub] at ha
    exact ⟨r, hr, a, ha, rfl⟩

theorem mem_epsDist_cands {M : Automaton} {p k q : Nat} {t : Int} :
    (some t ∈ (epsArcPairs M).map (fun ra =>
      if ra.2.dst = q then (epsDist M p k ra.1).map (fun v => v + ra.2.wt) else none)) ↔
    ∃ r a, (r, a) ∈ epsArcPairs M ∧ a.dst = q ∧
      ∃ u, epsDist M p k r = some u ∧ t = u + a.wt := by
  rw [List.mem_map]
  constructor
  · rintro ⟨ra, hra, heq⟩
    by_cases hdst : ra.2.dst = q
    · rw [if_pos hdst] at heq
      cases hu : epsDist M p k ra.1 with
      | none => rw [hu] at heq; simp at heq
      | some u =>
        rw [hu, Option.map_some'] at heq
        have ht : u + ra.2.wt = t := by injection heq
        exact ⟨ra.1, ra.2, by rw [Prod.mk.eta]; exact hra, hdst, u, hu, ht.symm⟩
    · rw [if_neg hdst] at heq
      simp at heq
  · rintro ⟨r, a, hra, hdst, u, hu, rfl⟩
    refine ⟨(r, a), hra, ?_⟩
    rw [if_pos hdst, hu, Option.map_some']

theorem epsDist_complete {M : Automaton} {p : Nat} :
    ∀ (k : Nat) (es : List Arc) (q : Nat), PathFrom (epsSub M) p es q → es.length ≤ k →
      ∃ v, epsDist M p k q = some v := by
  intro k
  induction k with
  | zero =>
    intro es q hpath hlen
    have hes : es = [] := List.eq_nil_of_length_eq_zero (by omega)
    subst hes
    have hq := pathFrom_nil_iff.mp hpath
    subst hq
    exact ⟨0, by simp [epsDist]⟩
  | succ k ih =>
    intro es q hpath hlen
    rcases List.eq_nil_or_concat es with rfl | ⟨es', a, rfl⟩
    · have hq := pathFrom_nil_iff.mp hpath
      rw [hq]
      rcases ih [] p (PathFrom.nil p) (by simp) with ⟨v, hv⟩
      simp only [epsDist]
      rcases optMin_some_left (x := v)
        (minList ((epsArcPairs M).map (fun ra =>
          if ra.2.dst = p then (epsDist M p k ra.1).map (fun v => v + ra.2.wt) else none)))
        with ⟨u, hu⟩
      exact ⟨u, by rw [hv]; exact hu⟩
    · rw [List.concat_eq_append] at hpath hlen
      rcases pathFrom_append.mp hpath with ⟨m, hes', hlast⟩
      rcases pathFrom_cons_iff.mp hlast with ⟨hmem, hnil⟩
      have hq := pathFrom_nil_iff.mp hnil
      subst hq
      have hm : m < M.states.length := by
        have h2 : arcsOf (epsSub M) m ≠ [] := fun hc => by rw [hc] at hmem; cases hmem
        have h3 := arcs_nonempty_lt h2
        rwa [epsSub_length] at h3
      rcases ih es' m hes' (by simp only [List.length_append, List.length_cons,
        List.length_nil] at hlen; omega) with ⟨u, hu⟩
      have hcand : some (u + a.wt) ∈ (epsArcPairs M).map (fun ra =>
          if ra.2.dst = a.dst then (epsDist M p k ra.1).map (fun v => v + ra.2.wt) else none) :=
        mem_epsDist_cands.mpr ⟨m, a, mem_epsArcPairs.mpr ⟨hm, hmem⟩, rfl, u, hu, rfl⟩
      rcases minList_some hcand with ⟨z, hz⟩
      simp only [epsDist]
      rcases optMin_some_right (epsDist M p k a.dst) (x := z) with ⟨v2, hv2⟩
      exact ⟨v2, by rw [hz]; exact hv2⟩

theorem epsDist_lb {M : Automaton} {p : Nat} :
    ∀ (k : Nat) (q : Nat) (v : Int), epsDist M p k q = some v →
      ∀ es, PathFrom (epsSub M) p es q → es.length ≤ k → v ≤ pathWt es := by
  intro k
  induction k with
  | zero =>
    intro q v h es hpath hlen
    have hes : es = [] := List.eq_nil_of_length_eq_zero (by omega)
    subst hes
    have hq := pathFrom_nil_iff.mp hpath
    subst hq
    simp only [epsDist, if_pos rfl] at h
    have hv : (0 : Int) = v := by injection h
    simp [pathWt, ← hv]
  | succ k ih =>
    intro q v h es hpath hlen
    simp only [epsDist] at h
    rcases List.eq_nil_or_concat es with rfl | ⟨es', a, rfl⟩
    · have hq := pathFrom_nil_iff.mp hpath
      rw [hq] at h
      rcases epsDist_complete k [] p (PathFrom.nil p) (by simp) with ⟨u, hu⟩
      have hu0 : u ≤ 0 := by
        have h3 := ih p u hu [] (PathFrom.nil p) (by simp)
        simpa [pathWt] using h3
      have hv : v ≤ u := optMin_le_left h hu
      have hfin : v ≤ 0 := le_trans hv hu0
      simpa [pathWt] using hfin
    · rw [List.concat_eq_append] at hpath hlen ⊢
      rcases pathFrom_append.mp hpath with ⟨m, hes', hlast⟩
      rcases pathFrom_cons_iff.mp hlast with ⟨hmem, hnil⟩
      have hq := pathFrom_nil_iff.mp hnil
      subst hq
      have hm : m < M.states.length := by
        have h2 : arcsOf (epsSub M) m ≠ [] := fun hc => by rw [hc] at hmem; cases hmem
        have h3 := arcs_nonempty_lt h2
        rwa [epsSub_length] at h3
      have hlen' : es'.length ≤ k := by
        simp only [List.length_append, List.length_cons, List.length_nil] at hlen
        omega
      rcases epsDist_complete k es' m hes' hlen' with ⟨u, hu⟩
      have hub : u ≤ pathWt es' := ih m u hu es' hes' hlen'
      have hcand : some (u + a.wt) ∈ (epsArcPairs M).map (fun ra =>
          if ra.2.dst = a.dst then (epsDist M p k ra.1).map (fun v => v + ra.2.wt) else none) :=
        mem_epsDist_cands.mpr ⟨m, a, mem_epsArcPairs.mpr ⟨hm, hmem⟩, rfl, u, hu, rfl⟩
      rcases minList_some hcand with ⟨z, hz⟩
      have hzu : z ≤ u + a.wt := minList_le hz _ hcand
      have hvz : v ≤ z := optMin_le_right h hz
      rw [pathWt_append]
      have ha1 : pathWt [a] = a.wt := by simp [pathWt]
      rw [ha1]
      omega

theorem epsDist_sound {M : Automaton} {p : Nat} :
    ∀ (k : Nat) (q : Nat) (v : Int), epsDist M p k q = some v →
      ∃ es, PathFrom (epsSub M) p es q ∧ es.length ≤ k ∧ pathWt es = v := by
  intro k
  induction k with
  | zero =>
    intro q v h
    by_cases hq : q = p
    · subst hq
      simp only [epsDist, if_pos rfl] at h
      have hv : (0 : Int) = v := by injection h
      exact ⟨[], PathFrom.nil _, by simp, by simp [pathWt, ← hv]⟩
    · simp [epsDist, hq] at h
  | succ k ih =>
    intro q v h
    simp only [epsDist] at h
    rcases optMin_some_cases h with h2 | h2
    · rcases ih q v h2 with ⟨es, hp2, hlen, hwt⟩
      exact ⟨es, hp2, by omega, hwt⟩
    · rcases mem_epsDist_cands.mp (minList_mem h2) with ⟨r, a, hra, hdst, u, hu, rfl⟩
      rcases ih r u hu with ⟨es, hp2, hlen, hwt⟩
      rcases mem_epsArcPairs.mp hra with ⟨hr, hmem⟩
      refine ⟨es ++ [a], ?_, ?_, ?_⟩
      · rw [pathFrom_append]
        exact ⟨r, hp2, hdst ▸ PathFrom.cons hmem (PathFrom.nil a.dst)⟩
      · simp only [List.length_append, List.length_cons, List.length_nil]
        omega
      · rw [pathWt_append, hwt]
        simp [pathWt]

/-! Epsilon acyclicity: the boolean check certifies the absence of
epsilon cycles, and bounds every epsilon path by the arena size. -/

theorem path_arcs_mem {M : Automaton} {p e : Nat} {as : List Arc} (h : PathFrom M p as e) :
    ∀ a ∈ as, ∃ r, a ∈ arcsOf M r := by
  induction h with
  | nil _ => simp
  | @cons a2 as2 r r2 hmem hrest ih =>
    intro a ha
    rcases List.mem_cons.mp ha with rfl | h2
    · exact ⟨r, hmem⟩
    · exact ih a h2

theorem eps_dsts_lt {M : Automaton} (hW : WF M) {p q : Nat} {es : List Arc}
    (h : PathFrom (epsSub M) p es q) : ∀ d ∈ es.map Arc.dst, d < M.states.length := by
  intro d hd
  rcases List.mem_map.mp hd with ⟨a, ha, rfl⟩
  rcases path_arcs_mem h a ha with ⟨r, hr⟩
  rw [arcsOf_epsSub] at hr
  exact WF_dst_lt hW (List.mem_filter.mp hr).1

theorem nodup_or_split (l : List Nat) :
    l.Nodup ∨ ∃ x l1 l2 l3, l = l1 ++ x :: l2 ++ x :: l3 := by
  induction l with
  | nil => exact Or.inl List.nodup_nil
  | cons a l' ih =>
    rcases ih with hnd | ⟨x, l1, l2, l3, rfl⟩
    · by_cases hmem : a ∈ l'
      · rcases List.append_of_mem hmem with ⟨s, t, rfl⟩
        exact Or.inr ⟨a, [], s, t, rfl⟩
      · exact Or.inl (List.nodup_cons.mpr ⟨hmem, hnd⟩)
    · exact Or.inr ⟨x, a :: l1, l2, l3, rfl⟩

theorem long_eps_path_cycle {M : Automaton} (hW : WF M) {p q : Nat} {es : List Arc}
    (h : PathFrom (epsSub M) p es q) (hlong : M.states.length < es.length) :
    ∃ r cs, cs ≠ [] ∧ cs.length + 1 ≤ es.length ∧ PathFrom (epsSub M) r cs r := by
  rcases nodup_or_split (es.map Arc.dst) with hnd | ⟨x, l1, l2, l3, hsplit⟩
  · exfalso
    have hsub : es.map Arc.dst ⊆ List.range M.states.length := by
      intro d hd
      exact List.mem_range.mpr (eps_dsts_lt hW h d hd)
    have hlen2 := List.Subperm.length_le (List.subperm_of_subset hnd hsub)
    rw [List.length_map, List.length_range] at hlen2
    omega
  · rcases List.append_eq_map_iff.mp hsplit.symm with ⟨u, rest, rfl, hu, hrest⟩
    rcases List.map_eq_cons_iff.mp hrest with ⟨a, rest1, rfl, ha, _⟩
    rcases List.append_eq_map_iff.mp hu.symm with ⟨u1, u2, rfl, hu1, hu2⟩
    rcases List.map_eq_cons_iff.mp hu2 with ⟨a1, u3, rfl, ha1, hu3⟩
    rcases pathFrom_append.mp h with ⟨m, huPath, hrest3⟩
    rcases pathFrom_cons_iff.mp hrest3 with ⟨hamem, _⟩
    rcases pathFrom_append.mp huPath with ⟨m0, _, hmid⟩
    rcases pathFrom_cons_iff.mp hmid with ⟨ha1mem, hu3Path⟩
    refine ⟨a1.dst, u3 ++ [a], by simp, ?_, ?_⟩
    · simp only [List.length_append, List.length_cons, List.length_nil]
      omega
    · rw [pathFrom_append]
      refine ⟨m, hu3Path, ?_⟩
      have hdst : a.dst = a1.dst := by rw [ha, ha1]
      exact hdst ▸ PathFrom.cons hamem (PathFrom.nil a.dst)

theorem eps_path_bound {M : Automaton} (hW : WF M) (hnc : NoEpsCycle M)
    {p q : Nat} {es : List Arc} (h : PathFrom (epsSub M) p es q) :
    es.length ≤ M.states.length := by
  by_contra hgt
  push_neg at hgt
  rcases long_eps_path_cycle hW h hgt with ⟨r, cs, hne, _, hcyc⟩
  exact hnc r cs hne hcyc

theorem epsAcyclicB_no_cycle {M : Automaton} (hW : WF M) (hb : epsAcyclicB M = true) :
    NoEpsCycle M := by
  suffices hL : ∀ (L : Nat) (q : Nat) (es : List Arc), es.length ≤ L → es ≠ [] →
      ¬ PathFrom (epsSub M) q es q by
    intro q es hne hpath
    exact hL es.length q es le_rfl hne hpath
  intro L
  induction L with
  | zero =>
    intro q es hlen hne _
    cases es with
    | nil => exact hne rfl
    | cons a es' => simp at hlen
  | succ L ih =>
    intro q es hlen hne hpath
    by_cases hsmall : es.length ≤ M.states.length
    · have hq : q < M.states.length := by
        cases es with
        | nil => exact absurd rfl hne
        | cons a es' =>
          rcases pathFrom_cons_iff.mp hpath with ⟨hmem, _⟩
          have h2 : arcsOf (epsSub M) q ≠ [] := fun hc => by rw [hc] at hmem; cases hmem
          have h3 := arcs_nonempty_lt h2
          rwa [epsSub_length] at h3
      have hmem2 : (es, q) ∈ pathsFrom (epsSub M) M.states.length q :=
        pathsFrom_complete hpath hsmall
      rw [epsAcyclicB, List.all_eq_true] at hb
      have hq2 := hb q (List.mem_range.mpr hq)
      rw [List.all_eq_true] at hq2
      have h3 := hq2 (es, q) hmem2
      simp only [Bool.or_eq_true, List.isEmpty_iff, decide_eq_true_eq] at h3
      rcases h3 with h4 | h4
      · exact hne h4
      · exact h4 rfl
    · push_neg at hsmall
      rcases long_eps_path_cycle hW hpath hsmall with ⟨r, cs, hcne, hclen, hcyc⟩
      exact ih r cs (by omega) hcne hcyc

/-! Epsilon removal preserves the accepted pairs and their tropical
collected weights. -/

theorem rmEps_length (M : Automaton) : (rmEpsilon M).states.length = M.states.length := by
  simp [rmEpsilon]

theorem rmEps_start (M : Automaton) : (rmEpsilon M).start = M.start := rfl

theorem rmEps_getElem (M : Automaton) (p : Nat) :
    (rmEpsilon M).states[p]? =
      if p < M.states.length then some ⟨rmEpsFin M p, rmEpsArcs M p⟩ else none := by
  unfold rmEpsilon
  rw [show (Automaton.mk M.start ((List.range M.states.length).map
      (fun p => (⟨rmEpsFin M p, rmEpsArcs M p⟩ : AState)))).states =
    (List.range M.states.length).map (fun p => (⟨rmEpsFin M p, rmEpsArcs M p⟩ : AState))
    from rfl]
  rw [List.getElem?_map]
  by_cases hp : p < M.states.length
  · rw [List.getElem?_range hp, if_pos hp]
    rfl
  · rw [if_neg hp, List.getElem?_eq_none (by rw [List.length_range]; omega)]
    rfl

theorem arcsOf_rmEps {M : Automaton} {p : Nat} (hp : p < M.states.length) :
    arcsOf (rmEpsilon M) p = rmEpsArcs M p := by
  unfold arcsOf
  rw [rmEps_getElem, if_pos hp]
  rfl

theorem finalOf_rmEps {M : Automaton} {p : Nat} (hp : p < M.states.length) :
    finalOf (rmEpsilon M) p = rmEpsFin M p := by
  unfold finalOf
  rw [rmEps_getElem, if_pos hp]
  rfl

theorem mem_rmEpsArcs {M : Automaton} {p : Nat} {c : Arc} :
    c ∈ rmEpsArcs M p ↔
      ∃ q, q < M.states.length ∧ ∃ d, epsDist M p M.states.length q = some d ∧
        ∃ a ∈ arcsOf M q, isEps a = false ∧ c = ⟨a.il, a.ol, d + a.wt, a.dst⟩ := by
  unfold rmEpsArcs
  simp only [List.mem_flatMap, List.mem_range]
  constructor
  · rintro ⟨q, hq, hc⟩
    cases hd : epsDist M p M.states.length q with
    | none => simp [hd] at hc
    | some d =>
      simp only [hd] at hc
      rcases List.mem_filterMap.mp hc with ⟨a, ha, hfa⟩
      by_cases he : isEps a = true
      · rw [if_pos he] at hfa
        cases hfa
      · have he' : isEps a = false := by
          cases hx : isEps a
          · rfl
          · exact absurd hx he
        rw [if_neg he] at hfa
        have hc2 : Arc.mk a.il a.ol (d + a.wt) a.dst = c := by injection hfa
        exact ⟨q, hq, d, hd, a, ha, he', hc2.symm⟩
  · rintro ⟨q, hq, d, hd, a, ha, hne, rfl⟩
    refine ⟨q, hq, ?_⟩
    simp only [hd]
    refine List.mem_filterMap.mpr ⟨a, ha, ?_⟩
    rw [if_neg (by rw [hne]; exact Bool.false_ne_true)]

theorem rmEpsFin_mem_iff {M : Automaton} {p : Nat} {t : Int} :
    (some t ∈ (List.range M.states.length).map (fun q =>
      match epsDist M p M.states.length q, finalOf M q with
      | some d, some ρ => some (d + ρ)
      | _, _ => none)) ↔
    ∃ q, q < M.states.length ∧ ∃ d ρ, epsDist M p M.states.length q = some d ∧
      finalOf M q = some ρ ∧ t = d + ρ := by
  rw [List.mem_map]
  constructor
  · rintro ⟨q, hq, heq⟩
    rw [List.mem_range] at hq
    cases hd : epsDist M p M.states.length q with
    | none => simp [hd] at heq
    | some d =>
      cases hρ : finalOf M q with
      | none => simp [hd, hρ] at heq
      | some ρ =>
        simp only [hd, hρ] at heq
        have ht : d + ρ = t := by injection heq
        exact ⟨q, hq, d, ρ, hd, hρ, ht.symm⟩
  · rintro ⟨q, hq, d, ρ, hd, hρ, rfl⟩
    refine ⟨q, List.mem_range.mpr hq, ?_⟩
    simp only [hd, hρ]

theorem rmEpsFin_sound {M : Automaton} {p : Nat} {ρ2 : Int} (h : rmEpsFin M p = some ρ2) :
    ∃ q, q < M.states.length ∧ ∃ d ρ, epsDist M p M.states.length q = some d ∧
      finalOf M q = some ρ ∧ ρ2 = d + ρ :=
  rmEpsFin_mem_iff.mp (minList_mem h)

theorem rmEpsFin_le {M : Automaton} {p : Nat} {ρ2 : Int} (h : rmEpsFin M p = some ρ2)
    (q : Nat) (d ρ : Int) (hq : q < M.states.length)
    (hd : epsDist M p M.states.length q = some d) (hρ : finalOf M q = some ρ) :
    ρ2 ≤ d + ρ :=
  minList_le h _ (rmEpsFin_mem_iff.mpr ⟨q, hq, d, ρ, hd, hρ, rfl⟩)

theorem rmEpsFin_some {M : Automaton} {p q : Nat} {d ρ : Int} (hq : q < M.states.length)
    (hd : epsDist M p M.states.length q = some d) (hρ : finalOf M q = some ρ) :
    ∃ ρ2, rmEpsFin M p = some ρ2 :=
  minList_some (rmEpsFin_mem_iff.mpr ⟨q, hq, d, ρ, hd, hρ, rfl⟩)

theorem rmEps_path_to_orig {M : Automaton} (hW : WF M) :
    ∀ {cs : List Arc} {p e : Nat}, p < M.states.length →
      PathFrom (rmEpsilon M) p cs e →
      ∃ as, PathFrom M p as e ∧ strip (ils as) = strip (ils cs) ∧
        strip (ols as) = strip (ols cs) ∧ pathWt as = pathWt cs := by
  intro cs
  induction cs with
  | nil =>
    intro p e hp h
    have he := pathFrom_nil_iff.mp h
    subst he
    exact ⟨[], PathFrom.nil _, rfl, rfl, rfl⟩
  | cons c cs' ih =>
    intro p e hp h
    rcases pathFrom_cons_iff.mp h with ⟨hmem, hrest⟩
    rw [arcsOf_rmEps hp] at hmem
    rcases mem_rmEpsArcs.mp hmem with ⟨q, hq, d, hd, a, ha, hne, rfl⟩
    have hadst : a.dst < M.states.length := WF_dst_lt hW ha
    rcases ih hadst hrest with ⟨as', has', hx, hy, hwt⟩
    rcases epsDist_sound _ _ _ hd with ⟨es, hesPath, _, hesWt⟩
    rcases epsSub_path_to_orig hesPath with ⟨hesM, hesEps⟩
    refine ⟨es ++ a :: as', ?_, ?_, ?_, ?_⟩
    · rw [pathFrom_append]
      exact ⟨q, hesM, PathFrom.cons ha has'⟩
    · rw [show ils (es ++ a :: as') = ils es ++ ils (a :: as') from
        List.map_append Arc.il es (a :: as'), strip_append, (strip_eps_run hesEps).1,
        List.nil_append]
      exact strip_cons_congr a.il hx
    · rw [show ols (es ++ a :: as') = ols es ++ ols (a :: as') from
        List.map_append Arc.ol es (a :: as'), strip_append, (strip_eps_run hesEps).2,
        List.nil_append]
      exact strip_cons_congr a.ol hy
    · rw [pathWt_append, pathWt_cons, pathWt_cons, hesWt, hwt]
      ring

theorem rmEps_accepts_to_orig {M : Automaton} (hW : WF M) {x y : List Nat} {w : Int}
    (h : AcceptsTriple (rmEpsilon M) x y w) : AcceptsTriple M x y w := by
  rcases h with ⟨s, cs, e, ρ2, hs, hpath, hfin, hx, hy, hw⟩
  rw [rmEps_start] at hs
  have hsn : s < M.states.length := WF_start_lt hW hs
  rcases rmEps_path_to_orig hW hsn hpath with ⟨as, hasPath, hx2, hy2, hwt2⟩
  have he : e < M.states.length := by
    have h2 := finalOf_lt hfin
    rwa [rmEps_length] at h2
  rw [finalOf_rmEps he] at hfin
  rcases rmEpsFin_sound hfin with ⟨q, hqn, d, ρ, hd, hρfin, hρ⟩
  rcases epsDist_sound _ _ _ hd with ⟨es, hesPath, _, hesWt⟩
  rcases epsSub_path_to_orig hesPath with ⟨hesM, hesEps⟩
  refine ⟨s, as ++ es, q, ρ, hs, ?_, hρfin, ?_, ?_, ?_⟩
  · rw [pathFrom_append]
    exact ⟨e, hasPath, hesM⟩
  · rw [show ils (as ++ es) = ils as ++ ils es from List.map_append Arc.il as es,
      strip_append, (strip_eps_run hesEps).1, List.append_nil, hx2, hx]
  · rw [show ols (as ++ es) = ols as ++ ols es from List.map_append Arc.ol as es,
      strip_append, (strip_eps_run hesEps).2, List.append_nil, hy2, hy]
  · rw [pathWt_append, hesWt, hwt2, ← hw, hρ]
    ring

theorem eps_run_split : ∀ (as : List Arc), ∃ es rest, as = es ++ rest ∧
    (∀ a ∈ es, isEps a = true) ∧
    (rest = [] ∨ ∃ a rest', rest = a :: rest' ∧ isEps a = false) := by
  intro as
  induction as with
  | nil => exact ⟨[], [], rfl, by simp, Or.inl rfl⟩
  | cons a as' ih =>
    by_cases ha : isEps a = true
    · rcases ih with ⟨es, rest, rfl, hes, hrest⟩
      refine ⟨a :: es, rest, rfl, ?_, hrest⟩
      intro a2 h2
      rcases List.mem_cons.mp h2 with rfl | h3
      · exact ha
      · exact hes a2 h3
    · have ha' : isEps a = false := by
        cases hx : isEps a
        · rfl
        · exact absurd hx ha
      exact ⟨[], a :: as', rfl, by simp, Or.inr ⟨a, as', rfl, ha'⟩⟩

theorem eps_tail_accept {M : Automaton} (hW : WF M) (hnc : NoEpsCycle M)
    {p e : Nat} {es : List Arc} {ρ : Int} (hp : p < M.states.length)
    (hes : ∀ a ∈ es, isEps a = true) (hpath : PathFrom M p es e)
    (hfin : finalOf M e = some ρ) :
    ∃ ρ2, finalOf (rmEpsilon M) p = some ρ2 ∧ ρ2 ≤ pathWt es + ρ := by
  have hesS := orig_path_to_epsSub hpath hes
  have hbound := eps_path_bound hW hnc hesS
  have he : e < M.states.length := finalOf_lt hfin
  rcases epsDist_complete M.states.length es e hesS hbound with ⟨d, hd⟩
  have hdle : d ≤ pathWt es := epsDist_lb _ _ _ hd es hesS hbound
  rcases rmEpsFin_some he hd hfin with ⟨ρ2, hρ2⟩
  have hle : ρ2 ≤ d + ρ := rmEpsFin_le hρ2 e d ρ he hd hfin
  rw [finalOf_rmEps hp]
  exact ⟨ρ2, hρ2, by omega⟩

theorem orig_accepts_to_rmEps {M : Automaton} (hW : WF M) (hnc : NoEpsCycle M) :
    ∀ (L : Nat) (as : List Arc) (p e : Nat) (ρ : Int), as.length ≤ L →
      p < M.states.length → PathFrom M p as e → finalOf M e = some ρ →
      ∃ cs e2 ρ2, PathFrom (rmEpsilon M) p cs e2 ∧
        finalOf (rmEpsilon M) e2 = some ρ2 ∧
        strip (ils cs) = strip (ils as) ∧ strip (ols cs) = strip (ols as) ∧
        pathWt cs + ρ2 ≤ pathWt as + ρ := by
  intro L
  induction L with
  | zero =>
    intro as p e ρ hlen hp hpath hfin
    have has : as = [] := List.eq_nil_of_length_eq_zero (by omega)
    subst has
    rcases eps_tail_accept hW hnc hp (by simp) hpath hfin with ⟨ρ2, hρ2, hle⟩
    refine ⟨[], p, ρ2, PathFrom.nil p, hρ2, rfl, rfl, ?_⟩
    simpa [pathWt] using hle
  | succ L ih =>
    intro as p e ρ hlen hp hpath hfin
    rcases eps_run_split as with ⟨es, rest, rfl, hesE, hrest⟩
    rcases hrest with rfl | ⟨a, rest', rfl, haNE⟩
    · rw [List.append_nil] at hpath hlen ⊢
      rcases eps_tail_accept hW hnc hp hesE hpath hfin with ⟨ρ2, hρ2, hle⟩
      refine ⟨[], p, ρ2, PathFrom.nil p, hρ2, ?_, ?_, ?_⟩
      · rw [(strip_eps_run hesE).1]
        rfl
      · rw [(strip_eps_run hesE).2]
        rfl
      · simpa [pathWt] using hle
    · rcases pathFrom_append.mp hpath with ⟨m, hesPath, hrestPath⟩
      rcases pathFrom_cons_iff.mp hrestPath with ⟨haMem, hrest2⟩
      have hm : m < M.states.length :=
        arcs_nonempty_lt (fun hc => by rw [hc] at haMem; cases haMem)
      have hadst : a.dst < M.states.length := WF_dst_lt hW haMem
      have hesS := orig_path_to_epsSub hesPath hesE
      have hbound := eps_path_bound hW hnc hesS
      rcases epsDist_complete M.states.length es m hesS hbound with ⟨d, hd⟩
      have hdle : d ≤ pathWt es := epsDist_lb _ _ _ hd es hesS hbound
      have hlen' : rest'.length ≤ L := by
        simp only [List.length_append, List.length_cons] at hlen
        omega
      rcases ih rest' a.dst e ρ hlen' hadst hrest2 hfin with
        ⟨cs', e2, ρ2, hcs', hfin2, hx, hy, hwt⟩
      refine ⟨⟨a.il, a.ol, d + a.wt, a.dst⟩ :: cs', e2, ρ2, ?_, hfin2, ?_, ?_, ?_⟩
      · refine PathFrom.cons ?_ hcs'
        rw [arcsOf_rmEps hp]
        exact mem_rmEpsArcs.mpr ⟨m, hm, d, hd, a, haMem, haNE, rfl⟩
      · rw [show ils (es ++ a :: rest') = ils es ++ ils (a :: rest') from
          List.map_append Arc.il es (a :: rest'), strip_append, (strip_eps_run hesE).1,
          List.nil_append]
        exact strip_cons_congr a.il hx
      · rw [show ols (es ++ a :: rest') = ols es ++ ols (a :: rest') from
          List.map_append Arc.ol es (a :: rest'), strip_append, (strip_eps_run hesE).2,
          List.nil_append]
        exact strip_cons_congr a.ol hy
      · rw [pathWt_cons, pathWt_append, pathWt_cons]
        have harc : (Arc.mk a.il a.ol (d + a.wt) a.dst).wt = d + a.wt := rfl
        rw [harc]
        omega

theorem rmEps_accepts_le {M : Automaton} (hW : WF M) (hnc : NoEpsCycle M)
    {x y : List Nat} {w : Int} (h : AcceptsTriple M x y w) :
    ∃ w2, w2 ≤ w ∧ AcceptsTriple (rmEpsilon M) x y w2 := by
  rcases h with ⟨s, as, e, ρ, hs, hpath, hfin, hx, hy, hw⟩
  have hsn := WF_start_lt hW hs
  rcases orig_accepts_to_rmEps hW hnc as.length as s e ρ le_rfl hsn hpath hfin with
    ⟨cs, e2, ρ2, hcs, hfin2, hx2, hy2, hle⟩
  refine ⟨pathWt cs + ρ2, by omega, ?_⟩
  refine ⟨s, cs, e2, ρ2, ?_, hcs, hfin2, hx2.trans hx, hy2.trans hy, rfl⟩
  rw [rmEps_start]
  exact hs

/-! Determinization: the weighted subset construction. -/

theorem minIntList_le : ∀ {l : List Int} {x : Int}, x ∈ l → minIntList l ≤ x := by
  intro l
  induction l with
  | nil => intro x hx; cases hx
  | cons r rs ih =>
    intro x hx
    cases rs with
    | nil =>
      rcases List.mem_singleton.mp hx with rfl
      exact le_refl _
    | cons r2 rs' =>
      rcases List.mem_cons.mp hx with rfl | hx2
      · exact min_le_left _ _
      · exact le_trans (min_le_right _ _) (ih hx2)

theorem minIntList_mem : ∀ {l : List Int}, l ≠ [] → minIntList l ∈ l := by
  intro l
  induction l with
  | nil => intro h; exact absurd rfl h
  | cons r rs ih =>
    intro _
    cases rs with
    | nil => exact List.mem_singleton.mpr rfl
    | cons r2 rs' =>
      rcases min_choice r (minIntList (r2 :: rs')) with hc | hc
      · rw [show minIntList (r :: r2 :: rs') = min r (minIntList (r2 :: rs')) from rfl, hc]
        exact List.mem_cons_self _ _
      · rw [show minIntList (r :: r2 :: rs') = min r (minIntList (r2 :: rs')) from rfl, hc]
        exact List.mem_cons_of_mem _ (ih (by simp))

theorem mem_detTargets {M : Automaton} {S : List (Nat × Int)} {l : Nat × Nat}
    {q' : Nat} {t : Int} :
    (q', t) ∈ detTargets M S l ↔
      ∃ q r a, (q, r) ∈ S ∧ a ∈ arcsOf M q ∧ a.il = l.1 ∧ a.ol = l.2 ∧
        a.dst = q' ∧ t = r + a.wt := by
  unfold detTargets
  rw [List.mem_flatMap]
  constructor
  · rintro ⟨qr, hqr, hmem⟩
    rw [List.mem_filterMap] at hmem
    rcases hmem with ⟨a, ha, hsome⟩
    rw [ite_some_none_eq] at hsome
    rcases hsome with ⟨⟨hil, hol⟩, heq⟩
    simp only [Prod.mk.injEq] at heq
    refine ⟨qr.1, qr.2, a, ?_, ha, hil, hol, heq.1, heq.2.symm⟩
    rw [Prod.mk.eta]
    exact hqr
  · rintro ⟨q, r, a, hS, ha, hil, hol, hdst, ht⟩
    refine ⟨(q, r), hS, List.mem_filterMap.mpr ⟨a, ha, ?_⟩⟩
    rw [ite_some_none_eq]
    exact ⟨⟨hil, hol⟩, by simp [hdst, ht.symm]⟩

theorem resOf_le {ts : List (Nat × Int)} {q' : Nat} {t : Int} (h : (q', t) ∈ ts) :
    resOf ts q' ≤ t := by
  unfold resOf
  refine minIntList_le (List.mem_map.mpr ⟨(q', t), ?_, rfl⟩)
  rw [List.mem_filter]
  exact ⟨h, by simp⟩

theorem resOf_mem {ts : List (Nat × Int)} {q' : Nat} {u : Int} (h : (q', u) ∈ ts) :
    (q', resOf ts q') ∈ ts := by
  have hne : (ts.filter (fun t => t.1 == q')).map Prod.snd ≠ [] := by
    intro hc
    rw [List.map_eq_nil_iff, List.filter_eq_nil_iff] at hc
    exact hc (q', u) h (by simp)
  have hmem := minIntList_mem hne
  rw [List.mem_map] at hmem
  rcases hmem with ⟨p, hp, hsnd⟩
  rw [List.mem_filter] at hp
  have hfst : p.1 = q' := by
    have := hp.2
    simp only [beq_iff_eq] at this
    exact this
  have : (q', resOf ts q') = p := by
    rw [Prod.ext_iff]
    exact ⟨hfst.symm, hsnd.symm⟩
  rw [this]
  exact hp.1

theorem mem_groupMin {ts : List (Nat × Int)} {q' : Nat} {t : Int} :
    (q', t) ∈ groupMin ts ↔ (∃ u, (q', u) ∈ ts) ∧ t = resOf ts q' := by
  unfold groupMin
  rw [List.mem_map]
  constructor
  · rintro ⟨q2, hq2, heq⟩
    have h2 : resOf ts q2 = t := congrArg Prod.snd heq
    have h3 : q2 = q' := congrArg Prod.fst heq
    rcases List.mem_map.mp (List.mem_dedup.mp hq2) with ⟨p, hp, hfstp⟩
    refine ⟨⟨p.2, ?_⟩, by rw [← h2, h3]⟩
    rw [show (q', p.2) = p from by
      rw [Prod.ext_iff]; exact ⟨h3.symm.trans hfstp.symm, rfl⟩]
    exact hp
  · rintro ⟨⟨u, hu⟩, rfl⟩
    refine ⟨q', List.mem_dedup.mpr (List.mem_map.mpr ⟨(q', u), hu, rfl⟩), rfl⟩

theorem mem_detLabels {M : Automaton} {S : List (Nat × Int)} {l : Nat × Nat} :
    l ∈ detLabels M S ↔ ∃ q r a, (q, r) ∈ S ∧ a ∈ arcsOf M q ∧ (a.il, a.ol) = l := by
  unfold detLabels
  rw [List.mem_dedup, List.mem_flatMap]
  constructor
  · rintro ⟨qr, hqr, hmem⟩
    rcases List.mem_map.mp hmem with ⟨a, ha, heq⟩
    refine ⟨qr.1, qr.2, a, ?_, ha, heq⟩
    rw [Prod.mk.eta]
    exact hqr
  · rintro ⟨q, r, a, hS, ha, heq⟩
    exact ⟨(q, r), hS, List.mem_map.mpr ⟨a, ha, heq⟩⟩

/-! The label-sequence path semantics behind the subset invariant. -/

theorem pathLbl_nil {M : Automaton} {s q : Nat} {v : Int} :
    PathLbl M s [] q v ↔ q = s ∧ v = 0 := by
  constructor
  · rintro ⟨as, hpath, hlbl, hwt⟩
    rw [List.map_eq_nil_iff] at hlbl
    subst hlbl
    exact ⟨pathFrom_nil_iff.mp hpath, by rw [← hwt]; rfl⟩
  · rintro ⟨rfl, rfl⟩
    exact ⟨[], PathFrom.nil _, rfl, rfl⟩

theorem minWt_unique {M : Automaton} {s : Nat} {L : List (Nat × Nat)} {q : Nat} {v u : Int}
    (hv : MinWt M s L q v) (hu : MinWt M s L q u) : v = u :=
  le_antisymm (hv.2 u hu.1) (hu.2 v hv.1)

theorem pathLbl_snoc {M : Automaton} {s : Nat} {L : List (Nat × Nat)} {l : Nat × Nat}
    {q' : Nat} {v : Int} :
    PathLbl M s (L ++ [l]) q' v ↔
      ∃ q u a, PathLbl M s L q u ∧ a ∈ arcsOf M q ∧ (a.il, a.ol) = l ∧
        a.dst = q' ∧ v = u + a.wt := by
  constructor
  · rintro ⟨as, hpath, hlbl, hwt⟩
    rcases List.eq_nil_or_concat as with rfl | ⟨cs, a, rfl⟩
    · rw [List.map_nil] at hlbl
      exact absurd hlbl.symm (List.append_ne_nil_of_right_ne_nil _ (by simp))
    · rw [List.concat_eq_append] at hpath hwt
      rw [List.concat_eq_append, List.map_append] at hlbl
      have hlen : ([a].map (fun a => (a.il, a.ol))).length = [l].length := by simp
      rcases List.append_inj' hlbl hlen with ⟨hcs, ha⟩
      simp only [List.map_cons, List.map_nil, List.cons.injEq, and_true] at ha
      rcases pathFrom_append.mp hpath with ⟨m, hm, hstep⟩
      rcases pathFrom_cons_iff.mp hstep with ⟨hamem, hnil⟩
      have hq' := pathFrom_nil_iff.mp hnil
      refine ⟨m, pathWt cs, a, ⟨cs, hm, hcs, rfl⟩, hamem, ha, hq'.symm, ?_⟩
      rw [← hwt, pathWt_append, pathWt_cons]
      simp [pathWt]
  · rintro ⟨q, u, a, ⟨cs, hm, hcs, rfl⟩, hamem, ha, hdst, rfl⟩
    refine ⟨cs ++ [a], ?_, ?_, ?_⟩
    · rw [pathFrom_append]
      refine ⟨q, hm, ?_⟩
      rw [← hdst]
      exact PathFrom.cons hamem (PathFrom.nil _)
    · rw [List.map_append, hcs]
      simp [ha]
    · rw [pathWt_append, pathWt_cons]
      simp [pathWt]

theorem minWt_exists {M : Automaton} {s : Nat} {L : List (Nat × Nat)} {q : Nat} {v : Int}
    (h : PathLbl M s L q v) : ∃ m, MinWt M s L q m := by
  classical
  rcases h with ⟨as, hpath, hlbl, hwt⟩
  have hlen : as.length ≤ L.length := by
    rw [← hlbl, List.length_map]
  refine ⟨minIntList ((pathsFrom M L.length s).filterMap (fun pe =>
    if pe.2 = q ∧ pe.1.map (fun a => (a.il, a.ol)) = L then some (pathWt pe.1) else none)),
    ?_, ?_⟩
  · have hmem : pathWt as ∈ (pathsFrom M L.length s).filterMap (fun pe =>
        if pe.2 = q ∧ pe.1.map (fun a => (a.il, a.ol)) = L then some (pathWt pe.1)
        else none) := by
      refine List.mem_filterMap.mpr ⟨(as, q), pathsFrom_complete hpath hlen, ?_⟩
      rw [ite_some_none_eq]
      exact ⟨⟨rfl, hlbl⟩, rfl⟩
    have hne : (pathsFrom M L.length s).filterMap (fun pe =>
        if pe.2 = q ∧ pe.1.map (fun a => (a.il, a.ol)) = L then some (pathWt pe.1)
        else none) ≠ [] := by
      intro hc
      rw [hc] at hmem
      cases hmem
    have hmin := minIntList_mem hne
    rcases List.mem_filterMap.mp hmin with ⟨pe, hpe, hsome⟩
    rw [ite_some_none_eq] at hsome
    rcases hsome with ⟨⟨hq, hL⟩, heq⟩
    have hp := pathsFrom_sound hpe
    rw [hq] at hp
    exact ⟨pe.1, hp, hL, heq⟩
  · rintro u ⟨bs, hbpath, hblbl, rfl⟩
    refine minIntList_le (List.mem_filterMap.mpr ⟨(bs, q), ?_, ?_⟩)
    · refine pathsFrom_complete hbpath ?_
      rw [← hblbl, List.length_map]
    · rw [ite_some_none_eq]
      exact ⟨⟨rfl, hblbl⟩, rfl⟩

theorem mem_map_fstMap {g : Nat × Int → Int} {ts : List (Nat × Int)} {q : Nat} {v : Int} :
    (q, v) ∈ ts.map (fun t => (t.1, g t)) ↔ ∃ t, t ∈ ts ∧ t.1 = q ∧ g t = v := by
  rw [List.mem_map]
  constructor
  · rintro ⟨t, ht, heq⟩
    exact ⟨t, ht, congrArg Prod.fst heq, congrArg Prod.snd heq⟩
  · rintro ⟨t, ht, h1, h2⟩
    exact ⟨t, ht, by rw [Prod.ext_iff]; exact ⟨h1, h2⟩⟩

theorem detStep_min {M : Automaton} {s : Nat} {L : List (Nat × Nat)} {W : Int}
    {S : List (Nat × Int)} (hInv : DetInv M s L W S) {l : Nat × Nat}
    {q' : Nat} {t : Int} (h : (q', t) ∈ groupMin (detTargets M S l)) :
    MinWt M s (L ++ [l]) q' (W + t) := by
  rcases mem_groupMin.mp h with ⟨⟨u, hu⟩, ht⟩
  subst ht
  constructor
  · rcases mem_detTargets.mp (resOf_mem hu) with ⟨q, r, a, hS, ha, hil, hol, hdst, hres⟩
    rcases ((hInv q r).mp hS).1 with ⟨as, hpath, hlbl, hwt⟩
    refine pathLbl_snoc.mpr ⟨q, W + r, a, ⟨as, hpath, hlbl, hwt⟩, ha, ?_, hdst, ?_⟩
    · rw [Prod.ext_iff]
      exact ⟨hil, hol⟩
    · rw [hres]
      ring
  · intro u2 hu2
    rcases pathLbl_snoc.mp hu2 with ⟨q2, u3, a2, hPL, ha2, hlbl2, hdst2, rfl⟩
    rcases minWt_exists hPL with ⟨m, hm⟩
    have hmle : m ≤ u3 := hm.2 u3 hPL
    have hm' : MinWt M s L q2 (W + (m - W)) := by
      rw [show W + (m - W) = m from by ring]
      exact hm
    have hS2 : (q2, m - W) ∈ S := (hInv q2 (m - W)).mpr hm'
    have hts : (q', (m - W) + a2.wt) ∈ detTargets M S l :=
      mem_detTargets.mpr ⟨q2, m - W, a2, hS2, ha2, congrArg Prod.fst hlbl2,
        congrArg Prod.snd hlbl2, hdst2, rfl⟩
    have hle := resOf_le hts
    omega

theorem detStep_inv {M : Automaton} {s : Nat} {L : List (Nat × Nat)} {W : Int}
    {S : List (Nat × Int)} (hInv : DetInv M s L W S) (l : Nat × Nat) :
    DetInv M s (L ++ [l]) (W + (detStep M S l).1) (detStep M S l).2 := by
  intro q' r'
  constructor
  · intro hmem
    rcases mem_map_fstMap.mp hmem with ⟨t2, ht2, hfst, hsnd⟩
    have ht2' : (q', t2.2) ∈ groupMin (detTargets M S l) := by
      rw [show (q', t2.2) = t2 from by rw [Prod.ext_iff]; exact ⟨hfst.symm, rfl⟩]
      exact ht2
    have hmw := detStep_min hInv ht2'
    have hfst1 : (detStep M S l).1 =
        minIntList ((groupMin (detTargets M S l)).map Prod.snd) := rfl
    rw [show W + (detStep M S l).1 + r' = W + t2.2 from by rw [← hsnd, hfst1]; ring]
    exact hmw
  · intro hmw
    rcases pathLbl_snoc.mp hmw.1 with ⟨q2, u3, a2, hPL, ha2, hlbl2, hdst2, hval⟩
    rcases minWt_exists hPL with ⟨m, hm⟩
    have hm' : MinWt M s L q2 (W + (m - W)) := by
      rw [show W + (m - W) = m from by ring]
      exact hm
    have hS2 : (q2, m - W) ∈ S := (hInv q2 (m - W)).mpr hm'
    have hts : (q', (m - W) + a2.wt) ∈ detTargets M S l :=
      mem_detTargets.mpr ⟨q2, m - W, a2, hS2, ha2, congrArg Prod.fst hlbl2,
        congrArg Prod.snd hlbl2, hdst2, rfl⟩
    have hg : (q', resOf (detTargets M S l) q') ∈ groupMin (detTargets M S l) :=
      mem_groupMin.mpr ⟨⟨(m - W) + a2.wt, hts⟩, rfl⟩
    have hmw2 := detStep_min hInv hg
    have heq := minWt_unique hmw hmw2
    have hr' : r' = resOf (detTargets M S l) q' - (detStep M S l).1 := by omega
    refine mem_map_fstMap.mpr ⟨(q', resOf (detTargets M S l) q'), hg, rfl, ?_⟩
    rw [show minIntList ((groupMin (detTargets M S l)).map Prod.snd) =
      (detStep M S l).1 from rfl, hr']

theorem detInv_start (M : Automaton) (s : Nat) : DetInv M s [] 0 [(s, 0)] := by
  intro q r
  constructor
  · intro h
    have heq := List.mem_singleton.mp h
    have h1 : q = s := congrArg Prod.fst heq
    have h2 : r = (0 : Int) := congrArg Prod.snd heq
    rw [h1, h2]
    refine ⟨⟨[], PathFrom.nil _, rfl, by norm_num [pathWt]⟩, ?_⟩
    intro u hu
    rcases pathLbl_nil.mp hu with ⟨_, rfl⟩
    norm_num
  · intro hmw
    rcases pathLbl_nil.mp hmw.1 with ⟨hq, hv⟩
    refine List.mem_singleton.mpr ?_
    rw [Prod.ext_iff]
    exact ⟨hq, by omega⟩

/-! First-index lemmas, and the worklist facts of the subset exploration. -/

theorem firstIdx_lt {α : Type} [DecidableEq α] :
    ∀ {l : List α} {x : α}, x ∈ l → firstIdx l x < l.length := by
  intro l
  induction l with
  | nil => intro x hx; cases hx
  | cons y ys ih =>
    intro x hx
    by_cases h : y = x
    · simp [firstIdx, h]
    · have hx2 : x ∈ ys := by
        rcases List.mem_cons.mp hx with rfl | h2
        · exact absurd rfl h
        · exact h2
      simp only [firstIdx, if_neg h, List.length_cons]
      exact Nat.succ_lt_succ (ih hx2)

theorem getElem?_firstIdx {α : Type} [DecidableEq α] :
    ∀ {l : List α} {x : α}, x ∈ l → l[firstIdx l x]? = some x := by
  intro l
  induction l with
  | nil => intro x hx; cases hx
  | cons y ys ih =>
    intro x hx
    by_cases h : y = x
    · simp [firstIdx, h]
    · have hx2 : x ∈ ys := by
        rcases List.mem_cons.mp hx with rfl | h2
        · exact absurd rfl h
        · exact h2
      simp only [firstIdx, if_neg h]
      rw [List.getElem?_cons_succ]
      exact ih hx2

theorem firstIdx_least {α : Type} [DecidableEq α] :
    ∀ {l : List α} {x : α} {k : Nat}, k < firstIdx l x → l[k]? ≠ some x := by
  intro l
  induction l with
  | nil =>
    intro x k hk
    simp [firstIdx] at hk
  | cons y ys ih =>
    intro x k hk
    by_cases h : y = x
    · rw [show firstIdx (y :: ys) x = 0 from by simp [firstIdx, h]] at hk
      omega
    · rw [show firstIdx (y :: ys) x = firstIdx ys x + 1 from by simp [firstIdx, h]] at hk
      cases k with
      | zero =>
        rw [List.getElem?_cons_zero]
        intro hc
        exact h (Option.some.injEq .. ▸ hc)
      | succ k2 =>
        rw [List.getElem?_cons_succ]
        exact ih (by omega)

theorem getElem?_some_lt {α : Type} {l : List α} {i : Nat} {a : α}
    (h : l[i]? = some a) : i < l.length := by
  by_contra hc
  push_neg at hc
  rw [List.getElem?_eq_none hc] at h
  cases h

theorem insertNew_extends (found : List (List (Nat × Int))) (S : List (Nat × Int)) :
    ∃ t, insertNew found S = found ++ t := by
  unfold insertNew
  by_cases h : S ∈ found
  · exact ⟨[], by rw [if_pos h, List.append_nil]⟩
  · exact ⟨[S], by rw [if_neg h]⟩

theorem foldl_insertNew_extends :
    ∀ (l : List (List (Nat × Int))) (found : List (List (Nat × Int))),
      ∃ t, l.foldl insertNew found = found ++ t := by
  intro l
  induction l with
  | nil => intro found; exact ⟨[], by simp⟩
  | cons a l2 ih =>
    intro found
    rcases insertNew_extends found a with ⟨t1, h1⟩
    rcases ih (insertNew found a) with ⟨t2, h2⟩
    exact ⟨t1 ++ t2, by rw [List.foldl_cons, h2, h1, List.append_assoc]⟩

theorem mem_foldl_insertNew_left {x found} (h : x ∈ found) (l : List (List (Nat × Int))) :
    x ∈ l.foldl insertNew found := by
  rcases foldl_insertNew_extends l found with ⟨t, ht⟩
  rw [ht]
  exact List.mem_append_left _ h

theorem mem_foldl_insertNew_right :
    ∀ {l : List (List (Nat × Int))} {x}, x ∈ l →
      ∀ found, x ∈ l.foldl insertNew found := by
  intro l
  induction l with
  | nil => intro x hx; cases hx
  | cons a l2 ih =>
    intro x hx found
    rcases List.mem_cons.mp hx with rfl | h2
    · rw [List.foldl_cons]
      refine mem_foldl_insertNew_left ?_ _
      unfold insertNew
      by_cases h : x ∈ found
      · rw [if_pos h]; exact h
      · rw [if_neg h]; exact List.mem_append_right _ (List.mem_singleton.mpr rfl)
    · rw [List.foldl_cons]
      exact ih h2 _

theorem mem_foldl_insertNew :
    ∀ {l : List (List (Nat × Int))} {found x}, x ∈ l.foldl insertNew found →
      x ∈ found ∨ x ∈ l := by
  intro l
  induction l with
  | nil => intro found x hx; exact Or.inl hx
  | cons a l2 ih =>
    intro found x hx
    rw [List.foldl_cons] at hx
    rcases ih hx with h1 | h2
    · unfold insertNew at h1
      split_ifs at h1 with hc
      · exact Or.inl h1
      · rcases List.mem_append.mp h1 with h3 | h3
        · exact Or.inl h3
        · exact Or.inr (List.mem_cons.mpr (Or.inl (List.mem_singleton.mp h3)))
    · exact Or.inr (List.mem_cons_of_mem _ h2)

theorem detLoop_extends {M : Automaton} :
    ∀ {fuel : Nat} {found : List (List (Nat × Int))} {i : Nat} {F},
      detLoop M fuel found i = .ok F → ∃ t, F = found ++ t := by
  intro fuel
  induction fuel with
  | zero =>
    intro found i F h
    unfold detLoop at h
    split_ifs at h with hc
    · simp only [Except.ok.injEq] at h
      subst h
      exact ⟨[], by simp⟩
  | succ fuel ih =>
    intro found i F h
    unfold detLoop at h
    cases hfi : found[i]? with
    | none =>
      simp only [hfi] at h
      simp only [Except.ok.injEq] at h
      subst h
      exact ⟨[], by simp⟩
    | some S =>
      simp only [hfi] at h
      rcases ih h with ⟨t2, ht2⟩
      rcases foldl_insertNew_extends (detSuccs M S) found with ⟨t1, ht1⟩
      exact ⟨t1 ++ t2, by rw [ht2, ht1, List.append_assoc]⟩

theorem detLoop_closed {M : Automaton} :
    ∀ {fuel : Nat} {found : List (List (Nat × Int))} {i : Nat} {F},
      detLoop M fuel found i = .ok F →
      (∀ j, j < i → ∀ S, found[j]? = some S → ∀ S2, S2 ∈ detSuccs M S → S2 ∈ found) →
      ∀ S, S ∈ F → ∀ S2, S2 ∈ detSuccs M S → S2 ∈ F := by
  intro fuel
  induction fuel with
  | zero =>
    intro found i F h hinv S hS S2 hS2
    unfold detLoop at h
    split_ifs at h with hc
    · simp only [Except.ok.injEq] at h
      subst h
      rcases List.mem_iff_getElem?.mp hS with ⟨j, hj⟩
      exact hinv j (lt_of_lt_of_le (getElem?_some_lt hj) hc) S hj S2 hS2
  | succ fuel ih =>
    intro found i F h hinv S hS S2 hS2
    unfold detLoop at h
    cases hfi : found[i]? with
    | none =>
      simp only [hfi] at h
      simp only [Except.ok.injEq] at h
      subst h
      rcases List.mem_iff_getElem?.mp hS with ⟨j, hj⟩
      have hile : found.length ≤ i := by
        by_contra hc
        push_neg at hc
        rw [List.getElem?_eq_getElem hc] at hfi
        cases hfi
      exact hinv j (lt_of_lt_of_le (getElem?_some_lt hj) hile) S hj S2 hS2
    | some S0 =>
      simp only [hfi] at h
      refine ih h ?_ S hS S2 hS2
      intro j hj S3 hS3 S4 hS4
      rcases foldl_insertNew_extends (detSuccs M S0) found with ⟨t, ht⟩
      have hjfound : j < found.length :=
        lt_of_le_of_lt (Nat.lt_succ_iff.mp hj) (getElem?_some_lt hfi)
      have hS3' : found[j]? = some S3 := by
        rw [ht, List.getElem?_append_left hjfound] at hS3
        exact hS3
      rcases Nat.lt_succ_iff_lt_or_eq.mp hj with hji | rfl
      · exact mem_foldl_insertNew_left (hinv j hji S3 hS3' S4 hS4) _
      · rw [hfi] at hS3'
        simp only [Option.some.injEq] at hS3'
        subst hS3'
        exact mem_foldl_insertNew_right hS4 _

theorem detLoop_reach {M : Automaton} (P : List (Nat × Int) → Prop)
    (hstep : ∀ S, P S → ∀ S2, S2 ∈ detSuccs M S → P S2) :
    ∀ {fuel : Nat} {found : List (List (Nat × Int))} {i : Nat} {F},
      detLoop M fuel found i = .ok F →
      (∀ S, S ∈ found → P S) → ∀ S, S ∈ F → P S := by
  intro fuel
  induction fuel with
  | zero =>
    intro found i F h hP S hS
    unfold detLoop at h
    split_ifs at h with hc
    · simp only [Except.ok.injEq] at h
      subst h
      exact hP S hS
  | succ fuel ih =>
    intro found i F h hP S hS
    unfold detLoop at h
    cases hfi : found[i]? with
    | none =>
      simp only [hfi] at h
      simp only [Except.ok.injEq] at h
      subst h
      exact hP S hS
    | some S0 =>
      simp only [hfi] at h
      refine ih h ?_ S hS
      intro S3 hS3
      rcases mem_foldl_insertNew hS3 with h1 | h2
      · exact hP S3 h1
      · exact hstep S0 (hP S0 (List.getElem?_mem hfi)) S3 h2

/-! The deterministic automaton: structure, soundness, completeness. -/

theorem detAut_arcs {M : Automaton} {F : List (List (Nat × Int))} {i : Nat}
    {S : List (Nat × Int)} (h : F[i]? = some S) :
    arcsOf (detAut M F) i = detArcsAt M F S := by
  unfold detAut arcsOf
  simp only [List.getElem?_map, h, Option.map_some']
  rfl

theorem detAut_final {M : Automaton} {F : List (List (Nat × Int))} {i : Nat}
    {S : List (Nat × Int)} (h : F[i]? = some S) :
    finalOf (detAut M F) i = detFinal M S := by
  unfold detAut finalOf
  simp only [List.getElem?_map, h, Option.map_some']
  rfl

theorem mem_detArcsAt {M : Automaton} {F : List (List (Nat × Int))}
    {S : List (Nat × Int)} {c : Arc} :
    c ∈ detArcsAt M F S ↔ ∃ l, l ∈ detLabels M S ∧
      c = ⟨l.1, l.2, (detStep M S l).1, firstIdx F (detStep M S l).2⟩ := by
  unfold detArcsAt
  rw [List.mem_map]
  constructor
  · rintro ⟨l, hl, heq⟩
    exact ⟨l, hl, heq.symm⟩
  · rintro ⟨l, hl, heq⟩
    exact ⟨l, hl, heq.symm⟩

theorem mem_detSuccs {M : Automaton} {S S2 : List (Nat × Int)} :
    S2 ∈ detSuccs M S ↔ ∃ l, l ∈ detLabels M S ∧ S2 = (detStep M S l).2 := by
  unfold detSuccs
  rw [List.mem_map]
  constructor
  · rintro ⟨l, hl, heq⟩
    exact ⟨l, hl, heq.symm⟩
  · rintro ⟨l, hl, heq⟩
    exact ⟨l, hl, heq.symm⟩

theorem det_path_inv {M : Automaton} {s : Nat} {F : List (List (Nat × Int))}
    (hcl : ∀ S, S ∈ F → ∀ S2, S2 ∈ detSuccs M S → S2 ∈ F) :
    ∀ {cs : List Arc} {i e : Nat} {S : List (Nat × Int)} {L : List (Nat × Nat)} {W : Int},
      F[i]? = some S → DetInv M s L W S → PathFrom (detAut M F) i cs e →
      ∃ S2, F[e]? = some S2 ∧
        DetInv M s (L ++ cs.map (fun a => (a.il, a.ol))) (W + pathWt cs) S2 := by
  intro cs
  induction cs with
  | nil =>
    intro i e S L W hFi hInv hpath
    have he := pathFrom_nil_iff.mp hpath
    subst he
    refine ⟨S, hFi, ?_⟩
    simpa [pathWt] using hInv
  | cons c cs2 ih =>
    intro i e S L W hFi hInv hpath
    rcases pathFrom_cons_iff.mp hpath with ⟨hmem, hrest⟩
    rw [detAut_arcs hFi] at hmem
    rcases mem_detArcsAt.mp hmem with ⟨l, hl, rfl⟩
    have hS2F : (detStep M S l).2 ∈ F :=
      hcl S (List.getElem?_mem hFi) _ (mem_detSuccs.mpr ⟨l, hl, rfl⟩)
    have hFdst : F[firstIdx F (detStep M S l).2]? = some (detStep M S l).2 :=
      getElem?_firstIdx hS2F
    have hInv2 := detStep_inv hInv l
    rcases ih hFdst hInv2 hrest with ⟨S2, hFe, hI⟩
    refine ⟨S2, hFe, ?_⟩
    have h1 : L ++ (List.map (fun a => (a.il, a.ol))
        (⟨l.1, l.2, (detStep M S l).1, firstIdx F (detStep M S l).2⟩ :: cs2)) =
        (L ++ [l]) ++ cs2.map (fun a => (a.il, a.ol)) := by
      rw [List.map_cons, List.append_cons]
    have harc : (Arc.mk l.1 l.2 (detStep M S l).1
        (firstIdx F (detStep M S l).2)).wt = (detStep M S l).1 := rfl
    have h2 : W + pathWt (⟨l.1, l.2, (detStep M S l).1,
        firstIdx F (detStep M S l).2⟩ :: cs2) =
        (W + (detStep M S l).1) + pathWt cs2 := by
      rw [pathWt_cons, harc]
      ring
    rw [h1, h2]
    exact hI

theorem ils_lblEq {as cs : List Arc}
    (h : as.map (fun a => (a.il, a.ol)) = cs.map (fun a => (a.il, a.ol))) :
    ils as = ils cs ∧ ols as = ols cs := by
  constructor
  · have h1 := congrArg (List.map Prod.fst) h
    rw [List.map_map, List.map_map] at h1
    exact h1
  · have h1 := congrArg (List.map Prod.snd) h
    rw [List.map_map, List.map_map] at h1
    exact h1

theorem det_accepts_fwd {M : Automaton} {s : Nat} {F : List (List (Nat × Int))}
    (hs : M.start = some s)
    (hcl : ∀ S, S ∈ F → ∀ S2, S2 ∈ detSuccs M S → S2 ∈ F)
    (h0 : F[0]? = some [(s, 0)]) {x y : List Nat} {w : Int}
    (h : AcceptsTriple (detAut M F) x y w) : AcceptsTriple M x y w := by
  rcases h with ⟨s0, cs, e, ρ', hds, hpath, hfin, hx, hy, hw⟩
  have hs0 : s0 = 0 := by
    have : some (0 : Nat) = some s0 := hds
    exact (Option.some.injEq .. ▸ this).symm
  subst hs0
  rcases det_path_inv hcl h0 (detInv_start M s) hpath with ⟨S2, hFe, hI⟩
  rw [detAut_final hFe] at hfin
  have hmem := minList_mem hfin
  rcases List.mem_map.mp hmem with ⟨qr, hqr, hfq⟩
  rcases Option.map_eq_some'.mp hfq with ⟨ρ, hρ, hρ'⟩
  rcases ((hI qr.1 qr.2).mp (by rw [Prod.mk.eta]; exact hqr)).1 with ⟨as, haspath, haslbl, haswt⟩
  rw [List.nil_append] at haslbl
  rcases ils_lblEq haslbl with ⟨hils, hols⟩
  refine ⟨s, as, qr.1, ρ, hs, haspath, hρ, ?_, ?_, ?_⟩
  · rw [hils]
    exact hx
  · rw [hols]
    exact hy
  · rw [haswt, ← hw, ← hρ']
    ring

theorem det_path_complete {M : Automaton} {s : Nat} {F : List (List (Nat × Int))}
    (hcl : ∀ S, S ∈ F → ∀ S2, S2 ∈ detSuccs M S → S2 ∈ F) :
    ∀ {as : List Arc} {q q' : Nat}, PathFrom M q as q' →
      ∀ {i : Nat} {S : List (Nat × Int)} {L : List (Nat × Nat)} {W r : Int},
      F[i]? = some S → DetInv M s L W S → (q, r) ∈ S →
      ∃ cs e S2 r2, PathFrom (detAut M F) i cs e ∧
        cs.map (fun a => (a.il, a.ol)) = as.map (fun a => (a.il, a.ol)) ∧
        F[e]? = some S2 ∧ (q', r2) ∈ S2 ∧ pathWt cs + r2 ≤ r + pathWt as := by
  intro as
  induction as with
  | nil =>
    intro q q' hpath i S L W r hFi hInv hqr
    have hq := pathFrom_nil_iff.mp hpath
    subst hq
    refine ⟨[], i, S, r, PathFrom.nil _, rfl, hFi, hqr, ?_⟩
    simp [pathWt]
  | cons a as2 ih =>
    intro q q' hpath i S L W r hFi hInv hqr
    rcases pathFrom_cons_iff.mp hpath with ⟨hamem, hrest⟩
    have hlbl : (a.il, a.ol) ∈ detLabels M S :=
      mem_detLabels.mpr ⟨q, r, a, hqr, hamem, rfl⟩
    have hS2F : (detStep M S (a.il, a.ol)).2 ∈ F :=
      hcl S (List.getElem?_mem hFi) _ (mem_detSuccs.mpr ⟨(a.il, a.ol), hlbl, rfl⟩)
    have hFdst : F[firstIdx F (detStep M S (a.il, a.ol)).2]? =
        some (detStep M S (a.il, a.ol)).2 := getElem?_firstIdx hS2F
    have hInv2 := detStep_inv hInv (a.il, a.ol)
    -- the next state a.dst is a member of the successor subset
    have hmin : MinWt M s L q (W + r) := (hInv q r).mp hqr
    rcases hmin.1 with ⟨bs, hbs, hbslbl, hbswt⟩
    have hPL : PathLbl M s (L ++ [(a.il, a.ol)]) a.dst ((W + r) + a.wt) :=
      pathLbl_snoc.mpr ⟨q, W + r, a, ⟨bs, hbs, hbslbl, hbswt⟩, hamem, rfl, rfl, rfl⟩
    rcases minWt_exists hPL with ⟨m, hm⟩
    have hmle : m ≤ (W + r) + a.wt := hm.2 _ hPL
    have hmem2 : (a.dst, m - (W + (detStep M S (a.il, a.ol)).1)) ∈
        (detStep M S (a.il, a.ol)).2 := by
      refine (hInv2 a.dst _).mpr ?_
      rw [show W + (detStep M S (a.il, a.ol)).1 +
        (m - (W + (detStep M S (a.il, a.ol)).1)) = m from by ring]
      exact hm
    rcases ih hrest hFdst hInv2 hmem2 with ⟨cs2, e, S2, r2, hcs2, hcs2lbl, hFe, hr2, hwt2⟩
    refine ⟨⟨a.il, a.ol, (detStep M S (a.il, a.ol)).1,
      firstIdx F (detStep M S (a.il, a.ol)).2⟩ :: cs2, e, S2, r2, ?_, ?_, hFe, hr2, ?_⟩
    · refine PathFrom.cons ?_ hcs2
      rw [detAut_arcs hFi]
      exact mem_detArcsAt.mpr ⟨(a.il, a.ol), hlbl, rfl⟩
    · rw [List.map_cons, List.map_cons, hcs2lbl]
    · have harc : (Arc.mk a.il a.ol (detStep M S (a.il, a.ol)).1
        (firstIdx F (detStep M S (a.il, a.ol)).2)).wt =
          (detStep M S (a.il, a.ol)).1 := rfl
      rw [pathWt_cons, harc, pathWt_cons]
      omega

theorem det_accepts_bwd {M : Automaton} {s : Nat} {F : List (List (Nat × Int))}
    (hs : M.start = some s)
    (hcl : ∀ S, S ∈ F → ∀ S2, S2 ∈ detSuccs M S → S2 ∈ F)
    (h0 : F[0]? = some [(s, 0)]) {x y : List Nat} {w : Int}
    (h : AcceptsTriple M x y w) :
    ∃ w2, w2 ≤ w ∧ AcceptsTriple (detAut M F) x y w2 := by
  rcases h with ⟨s1, as, e, ρ, hs1, hpath, hfin, hx, hy, hw⟩
  have hss : s1 = s := by
    rw [hs1] at hs
    exact Option.some.injEq .. ▸ hs
  rw [hss] at hpath
  rcases det_path_complete hcl hpath h0 (detInv_start M s)
      (List.mem_singleton.mpr rfl) with ⟨cs, e2, S2, r2, hcs, hlbl, hFe, hr2, hwt⟩
  have hfinmem : some (r2 + ρ) ∈ S2.map (fun qr => (finalOf M qr.1).map (fun v => qr.2 + v)) :=
    List.mem_map.mpr ⟨(e, r2), hr2, by rw [hfin, Option.map_some']⟩
  rcases minList_some hfinmem with ⟨ρd, hρd⟩
  have hρdle : ρd ≤ r2 + ρ := minList_le hρd _ hfinmem
  rcases ils_lblEq hlbl with ⟨hils, hols⟩
  refine ⟨pathWt cs + ρd, by omega, 0, cs, e2, ρd, rfl, hcs, ?_, ?_, ?_, rfl⟩
  · rw [detAut_final hFe]
    exact hρd
  · rw [hils]
    exact hx
  · rw [hols]
    exact hy

theorem detAut_WF {M : Automaton} {F : List (List (Nat × Int))}
    (hne : F ≠ [])
    (hcl : ∀ S, S ∈ F → ∀ S2, S2 ∈ detSuccs M S → S2 ∈ F) :
    WF (detAut M F) := by
  constructor
  · intro st hst a ha
    unfold detAut at hst
    rcases List.mem_map.mp hst with ⟨S, hS, hSeq⟩
    rw [← hSeq] at ha
    rcases mem_detArcsAt.mp ha with ⟨l, hl, rfl⟩
    have hS2F : (detStep M S l).2 ∈ F :=
      hcl S hS _ (mem_detSuccs.mpr ⟨l, hl, rfl⟩)
    have := firstIdx_lt hS2F
    unfold detAut
    simpa using this
  · intro s1 hs1
    unfold detAut at hs1 ⊢
    simp only [Option.toList, List.mem_singleton] at hs1
    subst hs1
    simp only [List.length_map]
    exact List.length_pos.mpr hne

theorem determinize_ok {M D : Automaton} (h : determinize M = .ok D) :
    WF D ∧
    (∀ x y w, AcceptsTriple D x y w → AcceptsTriple M x y w) ∧
    (∀ x y w, AcceptsTriple M x y w → ∃ w2, w2 ≤ w ∧ AcceptsTriple D x y w2) := by
  unfold determinize at h
  cases hs : M.start with
  | none =>
    simp only [hs] at h
    simp only [Except.ok.injEq] at h
    subst h
    refine ⟨⟨?_, ?_⟩, ?_, ?_⟩
    · intro st hst
      exact absurd hst (List.not_mem_nil st)
    · intro s1 hs1
      exact absurd hs1 (List.not_mem_nil s1)
    · rintro x y w ⟨s0, cs, e, ρ, hds, _⟩
      exact Option.noConfusion hds
    · rintro x y w ⟨s0, cs, e, ρ, hms, _⟩
      rw [hs] at hms
      exact Option.noConfusion hms
  | some s =>
    simp only [hs] at h
    cases hL : detLoop M (detBudget M) [[(s, 0)]] 0 with
    | error e0 =>
      rw [hL] at h
      simp [Except.map] at h
    | ok F =>
      rw [hL] at h
      simp only [Except.map, Except.ok.injEq] at h
      subst h
      have hcl : ∀ S, S ∈ F → ∀ S2, S2 ∈ detSuccs M S → S2 ∈ F :=
        detLoop_closed hL (fun j hj => absurd hj (Nat.not_lt_zero j))
      rcases detLoop_extends hL with ⟨t, ht⟩
      have h0 : F[0]? = some [(s, 0)] := by
        rw [ht, List.getElem?_append_left (by simp)]
        rfl
      have hne : F ≠ [] := by
        rw [ht]
        simp
      exact ⟨detAut_WF hne hcl, fun x y w => det_accepts_fwd hs hcl h0,
        fun x y w => det_accepts_bwd hs hcl h0⟩

/-! Minimization: canonical labelling and the refinement fixpoint. -/

theorem getElem?_none_le {α : Type} {l : List α} {i : Nat} (h : l[i]? = none) :
    l.length ≤ i := by
  by_contra hc
  push_neg at hc
  rw [List.getElem?_eq_getElem hc] at h
  cases h

theorem canon_length {α : Type} [DecidableEq α] (l : List α) :
    (canon l).length = l.length := by
  simp [canon]

theorem canon_getElem {α : Type} [DecidableEq α] (l : List α) (i : Nat) :
    (canon l)[i]? = l[i]?.map (fun x => firstIdx l x) := by
  simp [canon, List.getElem?_map]

theorem firstIdx_inj {α : Type} [DecidableEq α] {l : List α} {x y : α}
    (hx : x ∈ l) (hy : y ∈ l) (h : firstIdx l x = firstIdx l y) : x = y := by
  have h1 := getElem?_firstIdx hx
  have h2 := getElem?_firstIdx hy
  rw [h] at h1
  rw [h1] at h2
  exact Option.some.injEq .. ▸ h2

theorem canon_eq_iff {α : Type} [DecidableEq α] (l : List α) (i j : Nat) :
    ((canon l)[i]? = (canon l)[j]?) ↔ (l[i]? = l[j]?) := by
  rw [canon_getElem, canon_getElem]
  cases hi : l[i]? with
  | none =>
    cases hj : l[j]? with
    | none => simp
    | some y =>
      simp only [Option.map_none', Option.map_some']
      constructor
      · intro h
        exact absurd h (by simp)
      · intro h
        exact absurd h (by simp)
  | some x =>
    cases hj : l[j]? with
    | none =>
      simp only [Option.map_none', Option.map_some']
      constructor
      · intro h
        exact absurd h (by simp)
      · intro h
        exact absurd h (by simp)
    | some y =>
      simp only [Option.map_some', Option.some.injEq]
      constructor
      · intro h
        exact firstIdx_inj (List.getElem?_mem hi) (List.getElem?_mem hj) h
      · intro h
        rw [h]

theorem firstIdx_congr {α β : Type} [DecidableEq α] [DecidableEq β]
    {l1 : List α} {l2 : List β} {x : α} {y : β} (hx : x ∈ l1)
    (hiff : ∀ k : Nat, (l1[k]? = some x) ↔ (l2[k]? = some y)) :
    firstIdx l1 x = firstIdx l2 y := by
  have hy : y ∈ l2 := by
    rcases List.mem_iff_getElem?.mp hx with ⟨k, hk⟩
    exact List.getElem?_mem ((hiff k).mp hk)
  have h1 := getElem?_firstIdx hx
  have h2 := getElem?_firstIdx hy
  have hle1 : firstIdx l1 x ≤ firstIdx l2 y := by
    by_contra hc
    push_neg at hc
    exact firstIdx_least hc ((hiff _).mpr h2)
  have hle2 : firstIdx l2 y ≤ firstIdx l1 x := by
    by_contra hc
    push_neg at hc
    exact firstIdx_least hc ((hiff _).mp h1)
  omega

theorem canon_congr {α β : Type} [DecidableEq α] [DecidableEq β]
    {l1 : List α} {l2 : List β} (hlen : l1.length = l2.length)
    (hiff : ∀ i j : Nat, (l1[i]? = l1[j]?) ↔ (l2[i]? = l2[j]?)) :
    canon l1 = canon l2 := by
  refine List.ext_getElem? ?_
  intro i
  rw [canon_getElem, canon_getElem]
  cases hi : l1[i]? with
  | none =>
    have hi2 : l2[i]? = none := List.getElem?_eq_none (by rw [← hlen]; exact getElem?_none_le hi)
    rw [hi2]
    rfl
  | some x =>
    have hilt : i < l2.length := by
      rw [← hlen]
      exact getElem?_some_lt hi
    have hi2 : l2[i]? = some l2[i] := List.getElem?_eq_getElem hilt
    rw [hi2]
    simp only [Option.map_some', Option.some.injEq]
    refine firstIdx_congr (List.getElem?_mem hi) ?_
    intro k
    constructor
    · intro hk
      have h3 := (hiff k i).mp (by rw [hk, hi])
      rw [h3, hi2]
    · intro hk
      have h3 := (hiff k i).mpr (by rw [hk, hi2])
      rw [h3, hi]

theorem numC_pos {l : List Nat} (h : l ≠ []) : 1 ≤ numC l := by
  unfold numC
  cases l with
  | nil => exact absurd rfl h
  | cons a l2 =>
    have ha : a ∈ (a :: l2).dedup := List.mem_dedup.mpr (List.mem_cons_self a l2)
    cases hd : (a :: l2).dedup with
    | nil =>
      rw [hd] at ha
      cases ha
    | cons b l3 => simp [hd]

theorem refines_card {cl cl2 : List Nat} (hlen : cl.length = cl2.length)
    (hR : ∀ i j : Nat, cl2[i]? = cl2[j]? → cl[i]? = cl[j]?) : numC cl ≤ numC cl2 := by
  classical
  unfold numC
  rw [← List.card_toFinset, ← List.card_toFinset]
  refine Finset.card_le_card_of_surjOn (fun v => (cl[firstIdx cl2 v]?).getD 0) ?_
  intro w hw
  simp only [Finset.coe_sort_coe, Finset.mem_coe, List.mem_toFinset] at hw
  rcases List.mem_iff_getElem?.mp hw with ⟨i, hi⟩
  have hilt : i < cl2.length := by
    rw [← hlen]
    exact getElem?_some_lt hi
  have hv : cl2[i]? = some cl2[i] := List.getElem?_eq_getElem hilt
  refine ⟨cl2[i], ?_, ?_⟩
  · simp only [Finset.coe_sort_coe, Finset.mem_coe, List.mem_toFinset]
    exact List.getElem?_mem hv
  · have hfi := getElem?_firstIdx (List.getElem?_mem hv)
    have heq : cl2[firstIdx cl2 cl2[i]]? = cl2[i]? := by rw [hfi, hv]
    have hc := hR _ _ heq
    show (cl[firstIdx cl2 cl2[i]]?).getD 0 = w
    rw [hc, hi]
    rfl

theorem eqv_of_refines_card {cl cl2 : List Nat} (hlen : cl.length = cl2.length)
    (hR : ∀ i j : Nat, cl2[i]? = cl2[j]? → cl[i]? = cl[j]?)
    (hcard : numC cl2 ≤ numC cl) :
    ∀ i j : Nat, cl[i]? = cl[j]? → cl2[i]? = cl2[j]? := by
  classical
  have hcard2 : numC cl2 ≤ numC cl := hcard
  have hsurj : Set.SurjOn (fun v => (cl[firstIdx cl2 v]?).getD 0) ↑cl2.toFinset ↑cl.toFinset := by
    intro w hw
    simp only [Finset.coe_sort_coe, Finset.mem_coe, List.mem_toFinset] at hw
    rcases List.mem_iff_getElem?.mp hw with ⟨i, hi⟩
    have hilt : i < cl2.length := by
      rw [← hlen]
      exact getElem?_some_lt hi
    have hv : cl2[i]? = some cl2[i] := List.getElem?_eq_getElem hilt
    refine ⟨cl2[i], ?_, ?_⟩
    · simp only [Finset.coe_sort_coe, Finset.mem_coe, List.mem_toFinset]
      exact List.getElem?_mem hv
    · have hfi := getElem?_firstIdx (List.getElem?_mem hv)
      have heq : cl2[firstIdx cl2 cl2[i]]? = cl2[i]? := by rw [hfi, hv]
      have hc := hR _ _ heq
      show (cl[firstIdx cl2 cl2[i]]?).getD 0 = w
      rw [hc, hi]
      rfl
  have hsub : cl.toFinset ⊆ cl2.toFinset.image (fun v => (cl[firstIdx cl2 v]?).getD 0) := by
    rw [← Finset.coe_subset, Finset.coe_image]
    exact hsurj
  have himg : (cl2.toFinset.image (fun v => (cl[firstIdx cl2 v]?).getD 0)).card =
      cl2.toFinset.card := by
    have h1 := Finset.card_le_card hsub
    have h2 := Finset.card_image_le (s := cl2.toFinset)
      (f := fun v => (cl[firstIdx cl2 v]?).getD 0)
    unfold numC at hcard2
    rw [← List.card_toFinset, ← List.card_toFinset] at hcard2
    omega
  have hinj := Finset.injOn_of_card_image_eq himg
  intro i j h
  by_cases hilt : i < cl.length
  · by_cases hjlt : j < cl.length
    · have hilt2 : i < cl2.length := by omega
      have hjlt2 : j < cl2.length := by omega
      have hvi : cl2[i]? = some cl2[i] := List.getElem?_eq_getElem hilt2
      have hvj : cl2[j]? = some cl2[j] := List.getElem?_eq_getElem hjlt2
      have hfvi : (fun v => (cl[firstIdx cl2 v]?).getD 0) cl2[i] =
          (fun v => (cl[firstIdx cl2 v]?).getD 0) cl2[j] := by
        have hfi := getElem?_firstIdx (List.getElem?_mem hvi)
        have hfj := getElem?_firstIdx (List.getElem?_mem hvj)
        have heqi : cl2[firstIdx cl2 cl2[i]]? = cl2[i]? := by rw [hfi, hvi]
        have heqj : cl2[firstIdx cl2 cl2[j]]? = cl2[j]? := by rw [hfj, hvj]
        have hci := hR _ _ heqi
        have hcj := hR _ _ heqj
        show (cl[firstIdx cl2 cl2[i]]?).getD 0 = (cl[firstIdx cl2 cl2[j]]?).getD 0
        rw [hci, hcj, h]
      have hmi : cl2[i] ∈ (cl2.toFinset : Set Nat) := by
        simp only [Finset.mem_coe, List.mem_toFinset]
        exact List.getElem?_mem hvi
      have hmj : cl2[j] ∈ (cl2.toFinset : Set Nat) := by
        simp only [Finset.mem_coe, List.mem_toFinset]
        exact List.getElem?_mem hvj
      have := hinj hmi hmj hfvi
      rw [hvi, hvj, this]
    · exfalso
      have h1 : cl[i]? = some cl[i] := List.getElem?_eq_getElem hilt
      have h2 : cl[j]? = none := List.getElem?_eq_none (by omega)
      rw [h1, h2] at h
      cases h
  · by_cases hjlt : j < cl.length
    · exfalso
      have h1 : cl[i]? = none := List.getElem?_eq_none (by omega)
      have h2 : cl[j]? = some cl[j] := List.getElem?_eq_getElem hjlt
      rw [h1, h2] at h
      cases h
    · have h1 : cl2[i]? = none := List.getElem?_eq_none (by omega)
      have h2 : cl2[j]? = none := List.getElem?_eq_none (by omega)
      rw [h1, h2]

theorem sigList_length (M : Automaton) (cl : List Nat) :
    (sigList M cl).length = M.states.length := by
  simp [sigList]

theorem sigList_getElem (M : Automaton) (cl : List Nat) {p : Nat}
    (hp : p < M.states.length) : (sigList M cl)[p]? = some (stSig M cl p) := by
  unfold sigList
  rw [List.getElem?_map, List.getElem?_range hp, Option.map_some']

theorem refineStep_length (M : Automaton) (cl : List Nat) :
    (refineStep M cl).length = M.states.length := by
  unfold refineStep
  rw [canon_length, sigList_length]

theorem sig_refines {M : Automaton} {cl : List Nat} (hc : cl.length = M.states.length)
    {i j : Nat} (h : (refineStep M cl)[i]? = (refineStep M cl)[j]?) :
    cl[i]? = cl[j]? := by
  unfold refineStep at h
  rw [canon_eq_iff] at h
  by_cases hi : i < M.states.length
  · by_cases hj : j < M.states.length
    · rw [sigList_getElem M cl hi, sigList_getElem M cl hj] at h
      have hsig : stSig M cl i = stSig M cl j := Option.some.injEq .. ▸ h
      exact congrArg (fun t => t.1) hsig
    · exfalso
      rw [sigList_getElem M cl hi,
        List.getElem?_eq_none (l := sigList M cl) (by rw [sigList_length]; omega)] at h
      cases h
  · by_cases hj : j < M.states.length
    · exfalso
      rw [sigList_getElem M cl hj,
        List.getElem?_eq_none (l := sigList M cl) (by rw [sigList_length]; omega)] at h
      cases h
    · rw [List.getElem?_eq_none (l := cl) (by omega),
        List.getElem?_eq_none (l := cl) (by omega)]

theorem map_absSig_iff {cl1 cl2 : List Nat}
    (hiff : ∀ i j : Nat, (cl1[i]? = cl1[j]?) ↔ (cl2[i]? = cl2[j]?)) :
    ∀ (l l' : List Arc),
      (l.map (fun a => (a.il, a.ol, a.wt, cl1[a.dst]?)) =
        l'.map (fun a => (a.il, a.ol, a.wt, cl1[a.dst]?))) ↔
      (l.map (fun a => (a.il, a.ol, a.wt, cl2[a.dst]?)) =
        l'.map (fun a => (a.il, a.ol, a.wt, cl2[a.dst]?))) := by
  intro l
  induction l with
  | nil =>
    intro l'
    cases l' <;> simp
  | cons a l2 ih =>
    intro l'
    cases l' with
    | nil => simp
    | cons b l2' =>
      simp only [List.map_cons, List.cons.injEq, Prod.mk.injEq]
      exact and_congr (and_congr Iff.rfl (and_congr Iff.rfl
        (and_congr Iff.rfl (hiff a.dst b.dst)))) (ih l2')

theorem stSig_iff {M : Automaton} {cl1 cl2 : List Nat}
    (hiff : ∀ i j : Nat, (cl1[i]? = cl1[j]?) ↔ (cl2[i]? = cl2[j]?)) (p q : Nat) :
    (stSig M cl1 p = stSig M cl1 q) ↔ (stSig M cl2 p = stSig M cl2 q) := by
  unfold stSig
  simp only [Prod.mk.injEq]
  exact and_congr (hiff p q) (and_congr Iff.rfl (map_absSig_iff hiff _ _))

theorem sigList_iff {M : Automaton} {cl1 cl2 : List Nat}
    (hiff : ∀ i j : Nat, (cl1[i]? = cl1[j]?) ↔ (cl2[i]? = cl2[j]?)) (i j : Nat) :
    ((sigList M cl1)[i]? = (sigList M cl1)[j]?) ↔
      ((sigList M cl2)[i]? = (sigList M cl2)[j]?) := by
  by_cases hi : i < M.states.length
  · by_cases hj : j < M.states.length
    · rw [sigList_getElem M cl1 hi, sigList_getElem M cl1 hj,
        sigList_getElem M cl2 hi, sigList_getElem M cl2 hj]
      simp only [Option.some.injEq]
      exact stSig_iff hiff i j
    · rw [sigList_getElem M cl1 hi, sigList_getElem M cl2 hi,
        List.getElem?_eq_none (l := sigList M cl1) (by rw [sigList_length]; omega),
        List.getElem?_eq_none (l := sigList M cl2) (by rw [sigList_length]; omega)]
      constructor
      · intro h
        exact Option.noConfusion h
      · intro h
        exact Option.noConfusion h
  · by_cases hj : j < M.states.length
    · rw [sigList_getElem M cl1 hj, sigList_getElem M cl2 hj,
        List.getElem?_eq_none (l := sigList M cl1) (by rw [sigList_length]; omega),
        List.getElem?_eq_none (l := sigList M cl2) (by rw [sigList_length]; omega)]
      constructor
      · intro h
        exact Option.noConfusion h
      · intro h
        exact Option.noConfusion h
    · rw [List.getElem?_eq_none (l := sigList M cl1) (by rw [sigList_length]; omega),
        List.getElem?_eq_none (l := sigList M cl1) (by rw [sigList_length]; omega),
        List.getElem?_eq_none (l := sigList M cl2) (by rw [sigList_length]; omega),
        List.getElem?_eq_none (l := sigList M cl2) (by rw [sigList_length]; omega)]

theorem refineStep_congr {M : Automaton} {cl1 cl2 : List Nat}
    (hiff : ∀ i j : Nat, (cl1[i]? = cl1[j]?) ↔ (cl2[i]? = cl2[j]?)) :
    refineStep M cl1 = refineStep M cl2 := by
  unfold refineStep
  exact canon_congr (by rw [sigList_length, sigList_length]) (sigList_iff hiff)

theorem iterN_out {α : Type} (f : α → α) :
    ∀ (n : Nat) (x : α), iterN f (n + 1) x = f (iterN f n x) := by
  intro n
  induction n with
  | zero =>
    intro x
    rfl
  | succ n ih =>
    intro x
    have h1 : iterN f (n + 1 + 1) x = iterN f (n + 1) (f x) := rfl
    rw [h1, ih (f x)]
    rfl

theorem iter_fix {f : List Nat → List Nat} (n : Nat)
    (hflen : ∀ cl, (f cl).length = n)
    (hfref : ∀ cl, cl.length = n →
      ∀ i j : Nat, (f cl)[i]? = (f cl)[j]? → cl[i]? = cl[j]?)
    (hfcongr : ∀ cl1 cl2,
      (∀ i j : Nat, (cl1[i]? = cl1[j]?) ↔ (cl2[i]? = cl2[j]?)) → f cl1 = f cl2) :
    f (iterN f (n + 1) (List.replicate n 0)) = iterN f (n + 1) (List.replicate n 0) := by
  set x0 := List.replicate n (0 : Nat) with hx0
  have hlen : ∀ k, (iterN f k x0).length = n := by
    intro k
    cases k with
    | zero => simp [iterN, hx0]
    | succ k =>
      rw [iterN_out]
      exact hflen _
  have hstep : ∀ k, iterN f (k + 1) x0 = f (iterN f k x0) := fun k => iterN_out f k x0
  have href : ∀ (k : Nat) (i j : Nat),
      (iterN f (k + 1) x0)[i]? = (iterN f (k + 1) x0)[j]? →
      (iterN f k x0)[i]? = (iterN f k x0)[j]? := by
    intro k i j h
    rw [hstep k] at h
    exact hfref _ (hlen k) i j h
  have hmono : ∀ k, numC (iterN f k x0) ≤ numC (iterN f (k + 1) x0) := by
    intro k
    refine refines_card ?_ (href k)
    rw [hlen, hlen]
  by_cases hn0 : n = 0
  · subst hn0
    have e1 : iterN f (0 + 1) x0 = [] := List.length_eq_zero.mp (hlen 1)
    have e2 : f (iterN f (0 + 1) x0) = [] := List.length_eq_zero.mp (hflen _)
    rw [e2, e1]
  · have hpos : ∀ k, 1 ≤ numC (iterN f k x0) := by
      intro k
      refine numC_pos ?_
      intro hc
      have h2 := hlen k
      rw [hc] at h2
      simp at h2
      omega
    have hub : ∀ k, numC (iterN f k x0) ≤ n := by
      intro k
      have h1 : (iterN f k x0).dedup.length ≤ (iterN f k x0).length :=
        (List.dedup_sublist _).length_le
      unfold numC
      rw [← hlen k]
      exact h1
    have key : ∀ k : Nat, k + 1 ≤ numC (iterN f k x0) ∨
        ∃ j, j < k ∧ numC (iterN f (j + 1) x0) = numC (iterN f j x0) := by
      intro k
      induction k with
      | zero => exact Or.inl (hpos 0)
      | succ k ihk =>
        rcases ihk with h1 | h2
        · by_cases he : numC (iterN f (k + 1) x0) = numC (iterN f k x0)
          · exact Or.inr ⟨k, Nat.lt_succ_self k, he⟩
          · refine Or.inl ?_
            have h3 := hmono k
            omega
        · rcases h2 with ⟨j, hj, hje⟩
          exact Or.inr ⟨j, Nat.lt_succ_of_lt hj, hje⟩
    rcases key n with h1 | ⟨j, hj, hje⟩
    · have h2 := hub n
      omega
    · have heqv : ∀ i1 i2 : Nat,
          ((iterN f (j + 1) x0)[i1]? = (iterN f (j + 1) x0)[i2]?) ↔
          ((iterN f j x0)[i1]? = (iterN f j x0)[i2]?) := by
        intro i1 i2
        constructor
        · exact href j i1 i2
        · refine eqv_of_refines_card ?_ (href j) (by omega) i1 i2
          rw [hlen, hlen]
      have hfix1 : iterN f (j + 2) x0 = iterN f (j + 1) x0 :=
        calc iterN f (j + 2) x0 = f (iterN f (j + 1) x0) := hstep (j + 1)
          _ = f (iterN f j x0) := hfcongr _ _ heqv
          _ = iterN f (j + 1) x0 := (hstep j).symm
      have hstab : ∀ m, iterN f (j + 1 + m) x0 = iterN f (j + 1) x0 := by
        intro m
        induction m with
        | zero => rfl
        | succ m ihm =>
          calc iterN f (j + 1 + (m + 1)) x0 = f (iterN f (j + 1 + m) x0) := hstep _
            _ = f (iterN f (j + 1) x0) := by rw [ihm]
            _ = iterN f (j + 2) x0 := (hstep (j + 1)).symm
            _ = iterN f (j + 1) x0 := hfix1
      have hn1 : iterN f (n + 1) x0 = iterN f (j + 1) x0 := by
        have h2 : n + 1 = j + 1 + (n - j) := by omega
        rw [h2]
        exact hstab (n - j)
      calc f (iterN f (n + 1) x0) = f (iterN f (j + 1) x0) := by rw [hn1]
        _ = iterN f (j + 2) x0 := (hstep (j + 1)).symm
        _ = iterN f (j + 1) x0 := hfix1
        _ = iterN f (n + 1) x0 := hn1.symm

theorem minCls_fix (M : Automaton) : refineStep M (minCls M) = minCls M := by
  unfold minCls
  exact iter_fix M.states.length (refineStep_length M)
    (fun cl hc i j h => sig_refines hc h)
    (fun cl1 cl2 hiff => refineStep_congr hiff)

theorem minCls_length (M : Automaton) : (minCls M).length = M.states.length := by
  unfold minCls
  rw [iterN_out]
  exact refineStep_length M _

theorem minCls_sig (M : Automaton) (p q : Nat) :
    ((minCls M)[p]? = (minCls M)[q]?) ↔
      ((sigList M (minCls M))[p]? = (sigList M (minCls M))[q]?) := by
  have h2 := canon_eq_iff (sigList M (minCls M)) p q
  rw [show canon (sigList M (minCls M)) = minCls M from minCls_fix M] at h2
  exact h2

/-! Minimization: the merged automaton is bisimilar to the input. -/

theorem canon_val_self {α : Type} [DecidableEq α] {l : List α} {v : Nat}
    (hv : v ∈ canon l) : (canon l)[v]? = some v := by
  rcases List.mem_map.mp hv with ⟨x, hx, hfx⟩
  subst hfx
  rw [canon_getElem, getElem?_firstIdx hx, Option.map_some']

theorem minCls_val_self {M : Automaton} {v : Nat} (hv : v ∈ minCls M) :
    (minCls M)[v]? = some v := by
  have hfix := minCls_fix M
  have hv2 : v ∈ canon (sigList M (minCls M)) := by
    rw [show canon (sigList M (minCls M)) = minCls M from hfix]
    exact hv
  have h2 := canon_val_self hv2
  rw [show canon (sigList M (minCls M)) = minCls M from hfix] at h2
  exact h2

theorem minCls_val_lt {M : Automaton} {v : Nat} (hv : v ∈ minCls M) :
    v < M.states.length := by
  have hfix := minCls_fix M
  have hv2 : v ∈ canon (sigList M (minCls M)) := by
    rw [show canon (sigList M (minCls M)) = minCls M from hfix]
    exact hv
  rcases List.mem_map.mp hv2 with ⟨x, hx, hfx⟩
  have h2 := firstIdx_lt hx
  rw [sigList_length] at h2
  rw [← hfx]
  exact h2

theorem class_sig {M : Automaton} {p q : Nat} (hp : p < M.states.length)
    (hq : q < M.states.length) (h : (minCls M)[p]? = (minCls M)[q]?) :
    finalOf M p = finalOf M q ∧
      (arcsOf M p).map (fun a => (a.il, a.ol, a.wt, (minCls M)[a.dst]?)) =
        (arcsOf M q).map (fun a => (a.il, a.ol, a.wt, (minCls M)[a.dst]?)) := by
  have h2 := (minCls_sig M p q).mp h
  rw [sigList_getElem M _ hp, sigList_getElem M _ hq] at h2
  have h3 : stSig M (minCls M) p = stSig M (minCls M) q := Option.some.injEq .. ▸ h2
  unfold stSig at h3
  simp only [Prod.mk.injEq] at h3
  exact ⟨h3.2.1, h3.2.2⟩

theorem minimize_arcs {M : Automaton} {k r : Nat} (h : (minReps M)[k]? = some r) :
    arcsOf (minimize M) k =
      (arcsOf M r).map (fun a => ⟨a.il, a.ol, a.wt, clsIdx M a.dst⟩) := by
  unfold minimize arcsOf
  simp only [List.getElem?_map, h, Option.map_some']
  rfl

theorem minimize_final {M : Automaton} {k r : Nat} (h : (minReps M)[k]? = some r) :
    finalOf (minimize M) k = finalOf M r := by
  unfold minimize finalOf
  simp only [List.getElem?_map, h, Option.map_some']
  rfl

theorem clsIdx_rep {M : Automaton} {p : Nat} (hp : p < M.states.length) :
    ∃ v, (minCls M)[p]? = some v ∧ (minReps M)[clsIdx M p]? = some v ∧
      (minCls M)[v]? = some v ∧ v < M.states.length := by
  have hplen : p < (minCls M).length := by
    rw [minCls_length]
    omega
  have hv : (minCls M)[p]? = some ((minCls M).getD p 0) := by
    rw [List.getElem?_eq_getElem hplen, List.getD_eq_getElem _ 0 hplen]
  have hmem : (minCls M).getD p 0 ∈ minCls M := List.getElem?_mem hv
  have hreps : (minCls M).getD p 0 ∈ minReps M := by
    unfold minReps
    exact List.mem_dedup.mpr hmem
  refine ⟨(minCls M).getD p 0, hv, getElem?_firstIdx hreps,
    minCls_val_self hmem, minCls_val_lt hmem⟩

theorem clsIdx_lt {M : Automaton} {p : Nat} (hp : p < M.states.length) :
    clsIdx M p < (minReps M).length := by
  rcases clsIdx_rep hp with ⟨v, _, hrep, _, _⟩
  exact getElem?_some_lt hrep

theorem clsIdx_congr {M : Automaton} {p q : Nat}
    (h : (minCls M)[p]? = (minCls M)[q]?) : clsIdx M p = clsIdx M q := by
  unfold clsIdx
  rw [List.getD_eq_getElem?_getD, List.getD_eq_getElem?_getD, h]

theorem rep_sig {M : Automaton} {p : Nat} (hp : p < M.states.length) :
    ∃ v, (minReps M)[clsIdx M p]? = some v ∧ v < M.states.length ∧
      finalOf M v = finalOf M p ∧
      (arcsOf M v).map (fun a => (a.il, a.ol, a.wt, (minCls M)[a.dst]?)) =
        (arcsOf M p).map (fun a => (a.il, a.ol, a.wt, (minCls M)[a.dst]?)) := by
  rcases clsIdx_rep hp with ⟨v, hvp, hrep, hvv, hvlt⟩
  have hsig := class_sig hvlt hp (by rw [hvv, hvp])
  exact ⟨v, hrep, hvlt, hsig.1, hsig.2⟩

theorem min_path_fwd {M : Automaton} (hW : WF M) :
    ∀ {as : List Arc} {p e : Nat}, PathFrom M p as e → p < M.states.length →
      PathFrom (minimize M) (clsIdx M p)
        (as.map (fun a => ⟨a.il, a.ol, a.wt, clsIdx M a.dst⟩)) (clsIdx M e) := by
  intro as
  induction as with
  | nil =>
    intro p e hpath hp
    have he := pathFrom_nil_iff.mp hpath
    subst he
    exact PathFrom.nil _
  | cons a as2 ih =>
    intro p e hpath hp
    rcases pathFrom_cons_iff.mp hpath with ⟨hmem, hrest⟩
    have hadst : a.dst < M.states.length := WF_dst_lt hW hmem
    rcases rep_sig hp with ⟨v, hrep, hvlt, hfin, harcs⟩
    have hmem2 : ((a.il, a.ol, a.wt, (minCls M)[a.dst]?) :
        Nat × Nat × Int × Option Nat) ∈
        (arcsOf M v).map (fun a => (a.il, a.ol, a.wt, (minCls M)[a.dst]?)) := by
      rw [harcs]
      exact List.mem_map.mpr ⟨a, hmem, rfl⟩
    rcases List.mem_map.mp hmem2 with ⟨b, hb, hbeq⟩
    simp only [Prod.mk.injEq] at hbeq
    rcases hbeq with ⟨hbil, hbol, hbwt, hbdst⟩
    have hbdstlt : b.dst < M.states.length := WF_dst_lt hW hb
    have hcls : clsIdx M b.dst = clsIdx M a.dst := clsIdx_congr hbdst
    refine PathFrom.cons ?_ (ih hrest hadst)
    rw [minimize_arcs hrep]
    refine List.mem_map.mpr ⟨b, hb, ?_⟩
    simp only [Arc.mk.injEq]
    exact ⟨hbil, hbol, hbwt, hcls⟩

theorem min_path_bwd {M : Automaton} (hW : WF M) :
    ∀ {cs : List Arc} {k e2 : Nat}, PathFrom (minimize M) k cs e2 →
      ∀ p, p < M.states.length → clsIdx M p = k →
      ∃ as e, PathFrom M p as e ∧ e < M.states.length ∧ clsIdx M e = e2 ∧
        ils as = ils cs ∧ ols as = ols cs ∧ pathWt as = pathWt cs := by
  intro cs
  induction cs with
  | nil =>
    intro k e2 hpath p hp hk
    have he := pathFrom_nil_iff.mp hpath
    exact ⟨[], p, PathFrom.nil _, hp, hk.trans he.symm, rfl, rfl, rfl⟩
  | cons carc cs2 ih =>
    intro k e2 hpath p hp hk
    rcases pathFrom_cons_iff.mp hpath with ⟨hmem, hrest⟩
    rcases rep_sig hp with ⟨v, hrep, hvlt, hfin, harcs⟩
    rw [hk] at hrep
    rw [minimize_arcs hrep] at hmem
    rcases List.mem_map.mp hmem with ⟨b, hb, hbeq⟩
    have hmem2 : ((b.il, b.ol, b.wt, (minCls M)[b.dst]?) :
        Nat × Nat × Int × Option Nat) ∈
        (arcsOf M p).map (fun a => (a.il, a.ol, a.wt, (minCls M)[a.dst]?)) := by
      rw [← harcs]
      exact List.mem_map.mpr ⟨b, hb, rfl⟩
    rcases List.mem_map.mp hmem2 with ⟨a, ha, haeq⟩
    simp only [Prod.mk.injEq] at haeq
    rcases haeq with ⟨hail, haol, hawt, hadst⟩
    have hadstlt : a.dst < M.states.length := WF_dst_lt hW ha
    have hbdstlt : b.dst < M.states.length := WF_dst_lt hW hb
    have hcls : clsIdx M a.dst = clsIdx M b.dst := clsIdx_congr hadst
    subst hbeq
    have hknext : clsIdx M a.dst =
        (Arc.mk b.il b.ol b.wt (clsIdx M b.dst)).dst := hcls
    rcases ih hrest a.dst hadstlt hknext with ⟨as2, e, hpath2, helt, hecls, hils, hols, hwt⟩
    refine ⟨a :: as2, e, PathFrom.cons ha hpath2, helt, hecls, ?_, ?_, ?_⟩
    · show a.il :: ils as2 = b.il :: ils cs2
      rw [hils, hail]
    · show a.ol :: ols as2 = b.ol :: ols cs2
      rw [hols, haol]
    · show pathWt (a :: as2) = pathWt (Arc.mk b.il b.ol b.wt (clsIdx M b.dst) :: cs2)
      rw [pathWt_cons, pathWt_cons, hwt, hawt]

theorem ils_mapCls (M : Automaton) (as : List Arc) :
    ils (as.map (fun a => ⟨a.il, a.ol, a.wt, clsIdx M a.dst⟩)) = ils as := by
  unfold ils
  rw [List.map_map]
  rfl

theorem ols_mapCls (M : Automaton) (as : List Arc) :
    ols (as.map (fun a => ⟨a.il, a.ol, a.wt, clsIdx M a.dst⟩)) = ols as := by
  unfold ols
  rw [List.map_map]
  rfl

theorem pathWt_mapCls (M : Automaton) (as : List Arc) :
    pathWt (as.map (fun a => ⟨a.il, a.ol, a.wt, clsIdx M a.dst⟩)) = pathWt as := by
  unfold pathWt
  rw [List.map_map]
  rfl

theorem minimize_triples {M : Automaton} (hW : WF M) (x y : List Nat) (w : Int) :
    AcceptsTriple (minimize M) x y w ↔ AcceptsTriple M x y w := by
  cases hs : M.start with
  | none =>
    constructor
    · rintro ⟨s0, cs, e, ρ, hms, _⟩
      rw [show (minimize M).start = M.start.map (clsIdx M) from rfl, hs] at hms
      exact Option.noConfusion hms
    · rintro ⟨s0, cs, e, ρ, hms, _⟩
      rw [hs] at hms
      exact Option.noConfusion hms
  | some s =>
    have hslt : s < M.states.length := WF_start_lt hW hs
    have hKs : (minimize M).start = some (clsIdx M s) := by
      rw [show (minimize M).start = M.start.map (clsIdx M) from rfl, hs, Option.map_some']
    constructor
    · rintro ⟨s0, cs, e2, ρ, hms, hpath, hfin, hx, hy, hw⟩
      have hs0 : s0 = clsIdx M s := by
        rw [hKs] at hms
        exact (Option.some.injEq .. ▸ hms).symm
      rw [hs0] at hpath
      rcases min_path_bwd hW hpath s hslt rfl with
        ⟨as, e, hpath2, helt, hecls, hils, hols, hwt⟩
      rcases rep_sig helt with ⟨v, hrep, hvlt, hfin2, _⟩
      rw [← hecls, minimize_final hrep, hfin2] at hfin
      refine ⟨s, as, e, ρ, hs, hpath2, hfin, ?_, ?_, ?_⟩
      · rw [hils]
        exact hx
      · rw [hols]
        exact hy
      · rw [hwt]
        exact hw
    · rintro ⟨s0, as, e, ρ, hms, hpath, hfin, hx, hy, hw⟩
      have hss : s0 = s := by
        rw [hms] at hs
        exact Option.some.injEq .. ▸ hs
      rw [hss] at hpath
      have hK := min_path_fwd hW hpath hslt
      refine ⟨clsIdx M s, as.map (fun a => ⟨a.il, a.ol, a.wt, clsIdx M a.dst⟩),
        clsIdx M e, ρ, hKs, hK, ?_, ?_, ?_, ?_⟩
      · rcases rep_sig (finalOf_lt hfin) with ⟨v, hrep, hvlt, hfin2, _⟩
        rw [minimize_final hrep, hfin2]
        exact hfin
      · rw [ils_mapCls]
        exact hx
      · rw [ols_mapCls]
        exact hy
      · rw [pathWt_mapCls]
        exact hw

theorem minimize_WF {M : Automaton} (hW : WF M) : WF (minimize M) := by
  constructor
  · intro st hst b hb
    unfold minimize at hst
    rcases List.mem_map.mp hst with ⟨r, hr, hreq⟩
    rw [← hreq] at hb
    simp only at hb
    rcases List.mem_map.mp hb with ⟨a, ha, haeq⟩
    have hadstlt : a.dst < M.states.length := WF_dst_lt hW ha
    have h1 := clsIdx_lt hadstlt
    rw [← haeq]
    show clsIdx M a.dst < (minimize M).states.length
    unfold minimize
    simpa using h1
  · intro s1 hs1
    cases hs : M.start with
    | none =>
      rw [show (minimize M).start = M.start.map (clsIdx M) from rfl, hs] at hs1
      cases hs1
    | some s =>
      rw [show (minimize M).start = M.start.map (clsIdx M) from rfl, hs,
        Option.map_some'] at hs1
      have hsval : s1 = clsIdx M s := by
        simp only [Option.toList] at hs1
        exact List.mem_singleton.mp hs1
      have hslt : s < M.states.length := WF_start_lt hW hs
      rw [hsval]
      have h1 := clsIdx_lt hslt
      show clsIdx M s < (minimize M).states.length
      unfold minimize
      simpa using h1

/-! The optimizer pipeline. -/

theorem rmEps_WF {M : Automaton} (hW : WF M) : WF (rmEpsilon M) := by
  constructor
  · intro st hst c hc
    unfold rmEpsilon at hst
    rcases List.mem_map.mp hst with ⟨p, hp, hpeq⟩
    rw [← hpeq] at hc
    rcases mem_rmEpsArcs.mp hc with ⟨q, hq, d, hd, a, ha, hne, rfl⟩
    have h1 := WF_dst_lt hW ha
    show a.dst < (rmEpsilon M).states.length
    rw [rmEps_length]
    exact h1
  · intro s hs
    rw [rmEps_length]
    exact hW.2 s hs

theorem push_triples (dir : PushDir) (M : Automaton) (x y : List Nat) (w : Int) :
    AcceptsTriple (push dir M) x y w ↔ AcceptsTriple M x y w := by
  unfold push
  constructor
  · rintro ⟨s, cs, q, ρ', hs, hpath, hfin, hx, hy, hw⟩
    have hs' : M.start = some s := hs
    have hV : normPotential dir M s = 0 := by
      unfold normPotential
      rw [show M.start.getD 0 = s from by rw [hs']; rfl, sub_self]
    rcases push_path_bwd _ hpath with ⟨as, has, rfl⟩
    rw [finalOf_pushWith] at hfin
    cases hρ : finalOf M q with
    | none =>
      rw [hρ] at hfin
      cases hfin
    | some ρ =>
      rw [hρ, Option.map_some'] at hfin
      have hρ' : ρ' = ρ - normPotential dir M q := (Option.some.injEq _ _).mp hfin.symm
      refine ⟨s, as, q, ρ, hs', has, hρ, ?_, ?_, ?_⟩
      · rw [← hx, ils_rwPath]
      · rw [← hy, ols_rwPath]
      · have hwt := (push_path_fwd (normPotential dir M) has).2
        rw [← hw, hwt, hρ', hV]
        ring
  · rintro ⟨s, as, q, ρ, hs, hpath, hfin, hx, hy, hw⟩
    have hV : normPotential dir M s = 0 := by
      unfold normPotential
      rw [show M.start.getD 0 = s from by rw [hs]; rfl, sub_self]
    rcases push_path_fwd (normPotential dir M) hpath with ⟨hpath', hwt⟩
    refine ⟨s, rwPath (normPotential dir M) s as, q, ρ - normPotential dir M q, hs, hpath', ?_,
      ?_, ?_, ?_⟩
    · rw [finalOf_pushWith, hfin, Option.map_some']
    · rw [ils_rwPath, hx]
    · rw [ols_rwPath, hy]
    · rw [hwt, hV, ← hw]
      ring

theorem relEquiv_of_le {P Q : Automaton}
    (fwd : ∀ x y w, AcceptsTriple P x y w → AcceptsTriple Q x y w)
    (bwd : ∀ x y w, AcceptsTriple Q x y w → ∃ w2, w2 ≤ w ∧ AcceptsTriple P x y w2)
    (x y : List Nat) (w : Int) :
    (AcceptsPair P x y ↔ AcceptsPair Q x y) ∧
      (IsWeightOf P x y w ↔ IsWeightOf Q x y w) := by
  constructor
  · constructor
    · rintro ⟨w2, h⟩
      exact ⟨w2, fwd x y w2 h⟩
    · rintro ⟨w2, h⟩
      rcases bwd x y w2 h with ⟨w3, _, h3⟩
      exact ⟨w3, h3⟩
  · constructor
    · rintro ⟨hacc, hmin⟩
      refine ⟨fwd x y w hacc, ?_⟩
      intro w2 h2
      rcases bwd x y w2 h2 with ⟨w3, hle3, h3⟩
      exact le_trans (hmin w3 h3) hle3
    · rintro ⟨hacc, hmin⟩
      rcases bwd x y w hacc with ⟨w1, hle1, h1⟩
      have hw1 : w ≤ w1 := hmin w1 (fwd x y w1 h1)
      have heq : w1 = w := le_antisymm hle1 hw1
      refine ⟨heq ▸ h1, ?_⟩
      intro w2 h2
      exact hmin w2 (fwd x y w2 h2)

theorem relEquiv_of_iff {P Q : Automaton}
    (h : ∀ x y w, AcceptsTriple P x y w ↔ AcceptsTriple Q x y w)
    (x y : List Nat) (w : Int) :
    (AcceptsPair P x y ↔ AcceptsPair Q x y) ∧
      (IsWeightOf P x y w ↔ IsWeightOf Q x y w) :=
  relEquiv_of_le (fun x2 y2 w2 hw => (h x2 y2 w2).mp hw)
    (fun x2 y2 w2 hw => ⟨w2, le_refl w2, (h x2 y2 w2).mpr hw⟩) x y w

/-- Claim C3: the optimizer pipeline — epsilon removal, determinization,
minimization, and weight pushing in the requested direction — preserves
the accepted weighted relation whenever it succeeds: on a well-formed
automaton whose weighted epsilon closure is well defined (no epsilon
cycles), a successful `optimize` returns an automaton accepting exactly
the same (input, output) pairs as the input, with the same collected
(minimal, attained) total weight per pair. -/
theorem optimize_preserves (M A : Automaton) (dir : Option PushDir)
    (x y : List Nat) (w : Int) (hW : WF M) (hnc : NoEpsCycle M)
    (hok : optimize M dir = .ok A) :
    (AcceptsPair A x y ↔ AcceptsPair M x y) ∧
    (IsWeightOf A x y w ↔ IsWeightOf M x y w) := by
  unfold optimize at hok
  cases hD : determinize (rmEpsilon M) with
  | error e0 =>
    rw [hD] at hok
    simp [Except.map] at hok
  | ok D =>
    rw [hD] at hok
    simp only [Except.map, Except.ok.injEq] at hok
    rcases determinize_ok hD with ⟨hWD, hfwd, hbwd⟩
    have htriple : ∀ x2 y2 w2, AcceptsTriple A x2 y2 w2 ↔ AcceptsTriple D x2 y2 w2 := by
      intro x2 y2 w2
      rw [← hok]
      cases dir with
      | none => exact minimize_triples hWD x2 y2 w2
      | some d2 =>
        exact (push_triples d2 (minimize D) x2 y2 w2).trans
          (minimize_triples hWD x2 y2 w2)
    have h1 := relEquiv_of_iff htriple x y w
    have h2 := relEquiv_of_le hfwd hbwd x y w
    have h3 := relEquiv_of_le (P := rmEpsilon M) (Q := M)
      (fun x2 y2 w2 h => rmEps_accepts_to_orig hW h)
      (fun x2 y2 w2 h => rmEps_accepts_le hW hnc h) x y w
    exact ⟨h1.1.trans (h2.1.trans h3.1), h1.2.trans (h2.2.trans h3.2)⟩

set_option maxRecDepth 16000 in
/-- Witness for the optimizer preservation: the concrete three-state
automaton `exOptM` is well formed and epsilon-acyclic, the pipeline with
pushing toward the final states succeeds on it with result `exOptA`, and
the theorem instantiates to it at the pair `([5], [7])` of collected
weight `2`. -/
theorem optimize_preserves_witness :
    WF exOptM ∧ NoEpsCycle exOptM ∧
      optimize exOptM (some PushDir.toFinal) = .ok exOptA ∧
      ((AcceptsPair exOptA [5] [7] ↔ AcceptsPair exOptM [5] [7]) ∧
        (IsWeightOf exOptA [5] [7] 2 ↔ IsWeightOf exOptM [5] [7] 2)) := by
  have hW : WF exOptM := by
    unfold WF
    decide
  have hnc : NoEpsCycle exOptM := epsAcyclicB_no_cycle hW (by decide)
  have hok : optimize exOptM (some PushDir.toFinal) = .ok exOptA := by rfl
  exact ⟨hW, hnc, hok,
    optimize_preserves exOptM exOptA (some PushDir.toFinal) [5] [7] 2 hW hnc hok⟩

namespace SetupPy

theorem pySplit_ne_nil (delim : Char) (l : List Char) : pySplit delim l ≠ [] := by
  cases l with
  | nil => simp [pySplit]
  | cons c cs =>
    by_cases h : c = delim
    · simp [pySplit, h]
    · simp only [pySplit, if_neg h]
      cases hs : pySplit delim cs <;> simp

theorem pySplit_append (delim : Char) (a rest : List Char) (ha : delim ∉ a) :
    pySplit delim (a ++ delim :: rest) = a :: pySplit delim rest := by
  induction a with
  | nil => simp [pySplit]
  | cons c a' ih =>
    have hc : c ≠ delim := fun h => ha (h ▸ List.mem_cons_self c a')
    have ha' : delim ∉ a' := fun h => ha (List.mem_cons_of_mem _ h)
    have h2 : pySplit delim (a' ++ delim :: rest) = a' :: pySplit delim rest := ih ha'
    simp only [List.cons_append, pySplit, if_neg hc, List.append_eq, h2]

theorem pySplit_sandwich (delim : Char) (a b c : List Char)
    (ha : delim ∉ a) (hb : delim ∉ b) :
    pySplit delim (a ++ delim :: (b ++ delim :: c)) = a :: b :: pySplit delim c := by
  rw [pySplit_append delim a (b ++ delim :: c) ha, pySplit_append delim b c hb]

/-- Claim C8: for any input file whose first `__version__`-line decomposes as
`a ++ delim :: b ++ delim :: c` with the chosen quote delimiter absent from
`a` and `b` (so the line has at least two occurrences), `get_version`
returns `b`, the substring strictly between the first and second delimiter
occurrences; the lines after the first match (`rest`) are never consulted. -/
theorem get_version_extracts_between (pre rest : List (List Char)) (a b c line : List Char)
    (hpre : ∀ l ∈ pre, versionMarker.isPrefixOf l = false)
    (hline : versionMarker.isPrefixOf line = true)
    (hsplit : line = a ++ delimOf line :: (b ++ delimOf line :: c))
    (ha : delimOf line ∉ a) (hb : delimOf line ∉ b) :
    get_version (pre ++ line :: rest) = .ok b := by
  induction pre with
  | nil =>
    have hsand : pySplit (delimOf line) line = a :: b :: pySplit (delimOf line) c := by
      set d := delimOf line with hd
      rw [hsplit]
      exact pySplit_sandwich d a b c ha hb
    simp [get_version, hline, hsand]
  | cons l pre' ih =>
    have hl : versionMarker.isPrefixOf l = false := hpre l (List.mem_cons_self l pre')
    have hpre' : ∀ l' ∈ pre', versionMarker.isPrefixOf l' = false :=
      fun l' hm => hpre l' (List.mem_cons_of_mem _ hm)
    simp only [List.cons_append, get_version, hl, Bool.false_eq_true, if_false]
    exact ih hpre'

/-- Witness for C8 at a concrete file. -/
theorem get_version_extracts_between_witness :
    get_version ["__version__ = \"2.0\"".toList] = .ok "2.0".toList :=
  get_version_extracts_between [] [] "__version__ = ".toList "2.0".toList []
    "__version__ = \"2.0\"".toList (by intro l h; cases h) (by decide) (by decide)
    (by decide) (by decide)

/-- Claim C9: `get_version` raises `RuntimeError` exactly when no line of
the file starts with `__version__`; a malformed matching line instead
raises `IndexError`, never `RuntimeError`. -/
theorem get_version_runtimeError_iff (lines : List (List Char)) :
    get_version lines = .error .runtimeError ↔
      ∀ l ∈ lines, versionMarker.isPrefixOf l = false := by
  induction lines with
  | nil => simp [get_version]
  | cons line rest ih =>
    by_cases h : versionMarker.isPrefixOf line = true
    · simp only [get_version, h, if_true]
      cases h1 : (pySplit (delimOf line) line)[1]? with
      | none => simp [h, h1]
      | some v => simp [h, h1]
    · have hf : versionMarker.isPrefixOf line = false := by
        cases hx : versionMarker.isPrefixOf line
        · rfl
        · exact absurd hx h
      simp only [get_version, hf, Bool.false_eq_true, if_false, ih, List.mem_cons]
      constructor
      · rintro h2 l (rfl | hm)
        · exact hf
        · exact h2 l hm
      · intro h2 l hm
        exact h2 l (Or.inr hm)

theorem pyRemove_append (l1 l2 : List (List Char)) (h : staticFlag ∉ l1) :
    pyRemove staticFlag (l1 ++ staticFlag :: l2) = l1 ++ l2 := by
  induction l1 with
  | nil => simp [pyRemove]
  | cons c l1' ih =>
    have hc : c ≠ staticFlag := fun hx => h (hx ▸ List.mem_cons_self c l1')
    have h' : staticFlag ∉ l1' := fun hx => h (List.mem_cons_of_mem _ hx)
    have h2 : pyRemove staticFlag (l1' ++ staticFlag :: l2) = l1' ++ l2 := ih h'
    simp only [List.cons_append, pyRemove, if_neg hc, List.append_eq, h2]

/-- Claim C10: after module initialization, if the flag occurred in
`sys.argv` then `ENABLE_STATIC_OPENFST` is true and exactly the first
occurrence has been removed, all other arguments unchanged and in order;
if it did not occur, the flag variable is false and `sys.argv` is
unchanged. -/
theorem enable_static_openfst_init (argv l1 l2 : List (List Char))
    (h1 : staticFlag ∉ l1) :
    (ENABLE_STATIC_OPENFST (l1 ++ staticFlag :: l2) = true ∧
      argvAfterInit (l1 ++ staticFlag :: l2) = l1 ++ l2) ∧
    (staticFlag ∉ argv →
      ENABLE_STATIC_OPENFST argv = false ∧ argvAfterInit argv = argv) := by
  constructor
  · have hmem : staticFlag ∈ l1 ++ staticFlag :: l2 := by
      simp
    have he : ENABLE_STATIC_OPENFST (l1 ++ staticFlag :: l2) = true := by
      simp [ENABLE_STATIC_OPENFST, hmem]
    exact ⟨he, by simp only [argvAfterInit, he, if_true, pyRemove_append l1 l2 h1]⟩
  · intro hnm
    have he : ENABLE_STATIC_OPENFST argv = false := by
      simp [ENABLE_STATIC_OPENFST, hnm]
    exact ⟨he, by simp [argvAfterInit, he]⟩

/-- Witness for C10 at concrete argument vectors: with two occurrences of
the flag, only the first is removed; without the flag, `argv` is kept. -/
theorem enable_static_openfst_init_witness :
    argvAfterInit ["setup.py".toList, staticFlag, "install".toList, staticFlag] =
      ["setup.py".toList, "install".toList, staticFlag] ∧
    argvAfterInit ["setup.py".toList, "install".toList] =
      ["setup.py".toList, "install".toList] :=
  ⟨(enable_static_openfst_init [] ["setup.py".toList]
      ["install".toList, staticFlag] (by decide)).1.2,
    ((enable_static_openfst_init ["setup.py".toList, "install".toList] []
      [] (by decide)).2 (by decide)).2⟩

end SetupPy

end Pynini
